import Mathlib

/-!
# Boolean calculator

A shallow embedding of `src/src/expression.cc`, `src/include/BooleanCalculator/node.h` and
`src/include/BooleanCalculator/math-symbols.h`: the expression tree and its evaluation, the
two-stack parser of `Expression::Expression(const std::string&)`, truth-table enumeration, and
the CNF / DNF / Zhegalkin builders.

Conventions of the embedding.

* A `std::stack` and a `std::vector` are lists. The head of a stack list is the top of the stack;
  a vector list is in index order.
* A `std::set<char>` is a strictly ascending list of characters, a `std::map<char, bool>` a list
  of pairs with strictly ascending keys.
* A `Node *` that may be null is an `Option Node`.
* A C++ exception and an operation with undefined behaviour (reading the top of an empty stack,
  an out-of-bounds read, following a null pointer) are values of `Error`; every function that can
  reach one returns `Except Error _`.
* `int` counters are `Nat` or `Int`. The parser only creates variables `a` .. `z`, so a parsed
  formula has at most 26 variables and no counter of the canonical-form engine leaves the `int`
  range; the bracket counter stays in range for inputs shorter than `2 ^ 31` characters.
-/

set_option linter.dupNamespace false

namespace boolcalc

/-! ## math-symbols.h -/

/-- The `enum Symbol`. Its enumerators are character codes, and the parser converts every input
character with `Symbol(character)`, so a symbol is represented by a character. -/
abbrev Symbol := Char

abbrev kAnd : Symbol := '&'
abbrev kOr : Symbol := 'V'
abbrev kImpl : Symbol := '>'
abbrev kRevImpl : Symbol := '<'
abbrev kXor : Symbol := '+'
abbrev kEq : Symbol := '='
abbrev kNand : Symbol := '|'
abbrev kNor : Symbol := '^'
abbrev kLeftBracket : Symbol := '('
abbrev kRightBracket : Symbol := ')'
abbrev kNeg : Symbol := '~'
/-- The enumerator after `kNeg = 126`. -/
abbrev kVariable : Symbol := Char.ofNat 127
/-- The enumerator after `kVariable`. -/
abbrev kConst : Symbol := Char.ofNat 128

/-! ## Errors -/

/-- The ways a run can fail. `UnexpectedSign` and `InvalidArgumentCount` are the exceptions thrown
by the source (the Syntax Error and the Arity Error of the specification).
`UndefinedBehaviour` marks a run that reaches an operation C++ leaves undefined: `top` or `pop` of
an empty `std::stack`, a read outside an array, or the use of a null `Node *`. -/
inductive Error
  | UnexpectedSign (what : String)
  | InvalidArgumentCount
  | UndefinedBehaviour
  deriving DecidableEq, Repr

/-! ## strategy.h (not among the sources) -/

/-- The connective classes instantiated by `Expression::ParseNode` and the canonical-form
builders (`new And`, `new Or`, ...). -/
inductive Strategy
  | And | Or | Impl | RevImpl | Xor | Eq | Nand | Nor
  deriving DecidableEq, Repr

/-- Modelled from the spec: `Strategy::Calculate` is declared in `strategy.h`, which is missing.
This is the table of binary truth functions of section 4.3 (inputs `p`, `q`). -/
def Strategy.Calculate : Strategy → Bool → Bool → Bool
  | .And, p, q => p && q
  | .Or, p, q => p || q
  | .Impl, p, q => !p || q
  | .RevImpl, p, q => p || !q
  | .Xor, p, q => xor p q
  | .Eq, p, q => p == q
  | .Nand, p, q => !(p && q)
  | .Nor, p, q => !(p || q)

/-- Modelled from the spec: `Strategy::DisplaySign` is declared in `strategy.h`, which is missing.
Every connective is rendered as its display symbol, which is its input symbol of
`math-symbols.h` (the specification renders a conjunction as `(b & a)`). -/
def Strategy.DisplaySign : Strategy → Symbol
  | .And => kAnd
  | .Or => kOr
  | .Impl => kImpl
  | .RevImpl => kRevImpl
  | .Xor => kXor
  | .Eq => kEq
  | .Nand => kNand
  | .Nor => kNor

/-! ## node.h -/

/-- The four node classes `ConstNode`, `VariableNode`, `NegNode`, `OperationNode` with their
data members. -/
inductive Node
  | ConstNode (value_ : Bool)
  | VariableNode (id_ : Char)
  | NegNode (child_ : Node)
  | OperationNode (strategy_ : Strategy) (children_ : List Node)
  deriving Repr

/-- The virtual method `symbol()`. -/
def Node.symbol : Node → Symbol
  | .ConstNode _ => kConst
  | .VariableNode _ => kVariable
  | .NegNode _ => kNeg
  | .OperationNode strategy_ _ => strategy_.DisplaySign

/-- A `std::map<char, bool>`: pairs in ascending key order. -/
abbrev Vars := List (Char × Bool)

/-- The method `std::map::find`, returning the mapped value. -/
def mapFind : Vars → Char → Option Bool
  | [], _ => none
  | (key, second) :: rest, id => if key = id then some second else mapFind rest id

/-- The method `std::map::insert`: the pair is added at its place in key order unless the key
is present already. -/
def mapInsert (id : Char) (value : Bool) : Vars → Vars
  | [] => [(id, value)]
  | (key, second) :: rest =>
    if id < key then (id, value) :: (key, second) :: rest
    else if id = key then (key, second) :: rest
    else (key, second) :: mapInsert id value rest

/-- The method `std::set::insert` on an ascending list without repetitions. -/
def setInsert (id : Char) : List Char → List Char
  | [] => [id]
  | x :: rest =>
    if id < x then id :: x :: rest
    else if id = x then x :: rest
    else x :: setInsert id rest

mutual
/-- The virtual method `Calculate(vars, input, output)`. `input` is the sequence of booleans the
stream still delivers: an unbound variable reads the next one and records it in `vars`. When the
stream is exhausted the read fails and `tmp` is used uninitialised, which is an error here. The
result carries the updated `vars` and `input`. -/
def Node.Calculate : Node → Vars → List Bool → Except Error (Bool × Vars × List Bool)
  | .ConstNode value_, vars, input => .ok (value_, vars, input)
  | .VariableNode id_, vars, input =>
    match mapFind vars id_ with
    | some second => .ok (second, vars, input)
    | none =>
      match input with
      | [] => .error .UndefinedBehaviour
      | tmp :: rest => .ok (tmp, mapInsert id_ tmp vars, rest)
  | .NegNode child_, vars, input =>
    match child_.Calculate vars input with
    | .error e => .error e
    | .ok (value, vars, input) => .ok (!value, vars, input)
  | .OperationNode strategy_ children_, vars, input =>
    if children_.length < 2 then .error .InvalidArgumentCount
    else Node.CalculateChildren strategy_ children_ vars input
/-- The loop of `OperationNode::Calculate`: the last child gives the first `buffer`, then every
earlier child, from the second-to-last back to the first, is evaluated and combined as
`strategy_->Calculate(child, buffer)`. -/
def Node.CalculateChildren (strategy_ : Strategy) :
    List Node → Vars → List Bool → Except Error (Bool × Vars × List Bool)
  | [], _, _ => .error .UndefinedBehaviour
  | [last], vars, input => last.Calculate vars input
  | child :: next :: rest, vars, input =>
    match Node.CalculateChildren strategy_ (next :: rest) vars input with
    | .error e => .error e
    | .ok (buffer, vars, input) =>
      match child.Calculate vars input with
      | .error e => .error e
      | .ok (value, vars, input) => .ok (strategy_.Calculate value buffer, vars, input)
end

mutual
/-- The virtual method `FindVariables(vars)`. -/
def Node.FindVariables : Node → List Char → List Char
  | .ConstNode _, vars => vars
  | .VariableNode id_, vars => setInsert id_ vars
  | .NegNode child_, vars => child_.FindVariables vars
  | .OperationNode _ children_, vars => Node.FindVariablesChildren children_ vars
/-- The loop of `OperationNode::FindVariables` over the children in stored order. -/
def Node.FindVariablesChildren : List Node → List Char → List Char
  | [], vars => vars
  | child :: rest, vars => Node.FindVariablesChildren rest (child.FindVariables vars)
end

/-! ## expression.cc: the parser -/

/-- The array `priority` of `Expression::Priority`: classes of symbols separated by `'\0'`
and closed by `'\1'`. -/
def Expression.priority : List Char :=
  [kNeg, Char.ofNat 0,
   kAnd, Char.ofNat 0,
   kXor, Char.ofNat 0,
   kOr, Char.ofNat 0,
   kImpl, kRevImpl, kEq, kNand, kNor, Char.ofNat 0,
   kRightBracket, kLeftBracket, Char.ofNat 0, Char.ofNat 1]

/-- The `for` loop of `Expression::Priority` from the current table position on, with the
current values of `j`, `a_priority` and `b_priority`. Leaving the loop returns `true`, that
is 1. -/
def Expression.Priority.scan (a b : Symbol) : List Char → Nat → Nat → Nat → Int
  | [], _, _, _ => 1
  | entry :: rest, j, a_priority, b_priority =>
    if entry = Char.ofNat 1 then 1
    else if entry = Char.ofNat 0 then
      Expression.Priority.scan a b rest (j + 1) a_priority b_priority
    else
      let a_priority := if a = entry then j else a_priority
      let b_priority := if b = entry then j else b_priority
      if a_priority ≠ 0 ∧ b_priority ≠ 0 then
        (if a_priority > b_priority then -1 else if a_priority < b_priority then 1 else 0)
      else Expression.Priority.scan a b rest j a_priority b_priority

/-- The function `Expression::Priority(a, b)`. -/
def Expression.Priority (a b : Symbol) : Int :=
  Expression.Priority.scan a b Expression.priority 1 0 0

/-- The inner `switch` of `Expression::ParseNode`: the connective object created for a binary
operator symbol. The eight symbols with a result are the `case` labels of the outer `switch`. -/
def Expression.ParseNode.strategy (top : Symbol) : Option Strategy :=
  if top = kAnd then some .And
  else if top = kOr then some .Or
  else if top = kImpl then some .Impl
  else if top = kRevImpl then some .RevImpl
  else if top = kXor then some .Xor
  else if top = kEq then some .Eq
  else if top = kNand then some .Nand
  else if top = kNor then some .Nor
  else none

/-- The function `Expression::ParseNode(nodes, symbols)`: the stacks after the call. A binary
operator pops `a` and then `b`; when `b` has the symbol of the new operation, `a` becomes the
first child of `b` (`AddChild(a, false)`), otherwise a new operation with children `a`, `b` is
built. Negation wraps the top node. Any other symbol is only popped. -/
def Expression.ParseNode (nodes : List Node) (symbols : List Symbol) :
    Except Error (List Node × List Symbol) :=
  match symbols with
  | [] => .error .UndefinedBehaviour
  | top :: symbols =>
    match Expression.ParseNode.strategy top with
    | some strategy =>
      match nodes with
      | a :: b :: nodes =>
        if b.symbol = strategy.DisplaySign then
          match b with
          | .OperationNode strategy_ children_ =>
            .ok (.OperationNode strategy_ (a :: children_) :: nodes, symbols)
          | _ => .error .UndefinedBehaviour
        else .ok (.OperationNode strategy [a, b] :: nodes, symbols)
      | _ => .error .UndefinedBehaviour
    | none =>
      if top = kNeg then
        match nodes with
        | a :: nodes => .ok (.NegNode a :: nodes, symbols)
        | [] => .error .UndefinedBehaviour
      else .ok (nodes, symbols)

/-- The local variables of the constructor `Expression::Expression(const std::string&)`. -/
structure Expression.Locals where
  nodes : List Node
  symbols : List Symbol
  expect_var : Bool
  bracket_counter : Int
  deriving Repr

/-- The `switch (character)` on an operator or bracket: the checks of the flag `expect_var` and
the update of the flag and of `bracket_counter`. A character with no `case` changes nothing. -/
def Expression.Expression.check (character : Char) (expect_var : Bool) (bracket_counter : Int) :
    Except Error (Bool × Int) :=
  if character = kLeftBracket then
    if !expect_var then .error (.UnexpectedSign "(") else .ok (true, bracket_counter + 1)
  else if character = kRightBracket then
    if expect_var then .error (.UnexpectedSign ")") else .ok (expect_var, bracket_counter - 1)
  else if character = kNeg then
    if !expect_var then .error (.UnexpectedSign "~") else .ok (true, bracket_counter)
  else if (Expression.ParseNode.strategy character).isSome then
    if expect_var then .error (.UnexpectedSign "binary operation") else .ok (true, bracket_counter)
  else .ok (expect_var, bracket_counter)

/-- The loop `while (!symbols.empty())` run for `character`: the stacks when the loop is left
and the value of `skip`. Every pass that does not leave the loop calls `ParseNode`, which pops
one symbol, so the recursion is on the symbol stack. -/
def Expression.Expression.reduce (character : Char) :
    List Node → List Symbol → Except Error (List Node × List Symbol × Bool)
  | nodes, [] => .ok (nodes, [], false)
  | nodes, top :: symbols =>
    if character = kLeftBracket then .ok (nodes, top :: symbols, false)
    else if character = kRightBracket ∧ top = kLeftBracket then .ok (nodes, symbols, true)
    else if character = kNeg ∧ top = kNeg then .ok (nodes, symbols, true)
    else if Expression.Priority top character = -1 then .ok (nodes, top :: symbols, false)
    else
      match Expression.ParseNode nodes (top :: symbols) with
      | .error e => .error e
      | .ok (nodes, _) => Expression.Expression.reduce character nodes symbols

/-- The body of the loop `for (auto character : string)`. -/
def Expression.Expression.step (st : Expression.Locals) (character : Char) :
    Except Error Expression.Locals :=
  if character = ' ' then .ok st
  else if character = '1' ∨ character = '0' then
    if !st.expect_var then .error (.UnexpectedSign "constant")
    else .ok { st with expect_var := false, nodes := .ConstNode (character = '1') :: st.nodes }
  else if 'a' ≤ character ∧ character ≤ 'z' then
    if !st.expect_var then .error (.UnexpectedSign "variable")
    else .ok { st with expect_var := false, nodes := .VariableNode character :: st.nodes }
  else
    match Expression.Expression.check character st.expect_var st.bracket_counter with
    | .error e => .error e
    | .ok (expect_var, bracket_counter) =>
      match Expression.Expression.reduce character st.nodes st.symbols with
      | .error e => .error e
      | .ok (nodes, symbols, skip) =>
        .ok { nodes := nodes,
              symbols := if skip then symbols else character :: symbols,
              expect_var := expect_var,
              bracket_counter := bracket_counter }

/-- The loop `for (auto character : string)` over the characters still to read. -/
def Expression.Expression.scan : Expression.Locals → List Char → Except Error Expression.Locals
  | st, [] => .ok st
  | st, character :: rest =>
    match Expression.Expression.step st character with
    | .error e => .error e
    | .ok st => Expression.Expression.scan st rest

/-- The loop `while (!symbols.empty()) ParseNode(nodes, symbols)` after the input is read. -/
def Expression.Expression.finish : List Node → List Symbol → Except Error (List Node)
  | nodes, [] => .ok nodes
  | nodes, top :: symbols =>
    match Expression.ParseNode nodes (top :: symbols) with
    | .error e => .error e
    | .ok (nodes, _) => Expression.Expression.finish nodes symbols

/-- The end of the constructor: the check of `expect_var` and `bracket_counter`, the final
reductions, and `nodes.top()` as the root of the tree. -/
def Expression.Expression.close (st : Expression.Locals) : Except Error Node :=
  if st.expect_var ∨ st.bracket_counter ≠ 0 then .error (.UnexpectedSign "end of line")
  else
    match Expression.Expression.finish st.nodes st.symbols with
    | .error e => .error e
    | .ok [] => .error .UndefinedBehaviour
    | .ok (top :: _) => .ok top

/-- The constructor `Expression::Expression(const std::string&)`: the tree `expression_`, or
the exception thrown. -/
def Expression.Expression (string : String) : Except Error Node :=
  match Expression.Expression.scan
      { nodes := [], symbols := [], expect_var := true, bracket_counter := 0 } string.data with
  | .error e => .error e
  | .ok st => Expression.Expression.close st

/-! ## expression.cc: truth table and canonical forms -/

/-- The method `Expression::GenerateVariables`: the array `variables_`, filled from the set that
`FindVariables` builds; `size_` is its length. -/
def Expression.GenerateVariables (expression_ : Node) : List Char :=
  expression_.FindVariables []

/-- The function `Expression::IncrementVariables(vars)`: a binary counter over the map entries
in key order. -/
def Expression.IncrementVariables : Vars → Vars
  | [] => []
  | (first, second) :: rest =>
    if !second then (first, true) :: rest
    else (first, false) :: Expression.IncrementVariables rest

/-- The loop of `Expression::GenerateTruthTable` with the number of rows still to compute:
every row evaluates the tree and then increments the map. -/
def Expression.GenerateTruthTable.rows (expression_ : Node) :
    Nat → Vars → List Bool → Except Error (List Bool)
  | 0, _, _ => .ok []
  | n + 1, vars, cin =>
    match expression_.Calculate vars cin with
    | .error e => .error e
    | .ok (value, vars, cin) =>
      match Expression.GenerateTruthTable.rows expression_ n
          (Expression.IncrementVariables vars) cin with
      | .error e => .error e
      | .ok rest => .ok (value :: rest)

/-- The method `Expression::GenerateTruthTable`: the array `truth_table_`. The map starts with
every variable bound to `false`; `cin` is what `std::cin` delivers. -/
def Expression.GenerateTruthTable (expression_ : Node) (cin : List Bool) :
    Except Error (List Bool) :=
  Expression.GenerateTruthTable.rows expression_
    (2 ^ (Expression.GenerateVariables expression_).length)
    ((Expression.GenerateVariables expression_).foldl (fun vars id => mapInsert id false vars) [])
    cin

/-- Reading `array[index]`; an index outside the array is undefined behaviour. -/
def Expression.read (array : List Bool) (index : Nat) : Except Error Bool :=
  match array[index]? with
  | some value => .ok value
  | none => .error .UndefinedBehaviour

/-- The inner loop `for j` of `Expression::GenerateZhegalkin` for dimension `i`, with the number
of indices still to visit, the current `j` and the current `flag`: the array `tmp` from index `j`
on and the final `flag`. The offset `j - (1ULL << i)` is computed in unsigned arithmetic, so for
`j < 2 ^ i` it addresses memory outside the array. -/
def Expression.GenerateZhegalkin.inner (zhegalkin_ : List Bool) (i : Nat) :
    Nat → Nat → Bool → Except Error (List Bool × Bool)
  | 0, _, flag => .ok ([], flag)
  | n + 1, j, flag =>
    let flag := if j % 2 ^ i = 0 then !flag else flag
    match (if flag then
        (if j < 2 ^ i then .error .UndefinedBehaviour
         else
          match Expression.read zhegalkin_ j, Expression.read zhegalkin_ (j - 2 ^ i) with
          | .ok x, .ok y => .ok (x != y)
          | .error e, _ => .error e
          | _, .error e => .error e)
      else Expression.read zhegalkin_ j) with
    | .error e => .error e
    | .ok value =>
      match Expression.GenerateZhegalkin.inner zhegalkin_ i n (j + 1) flag with
      | .error e => .error e
      | .ok (tmp, flag) => .ok (value :: tmp, flag)

/-- The outer loop `for i` of `Expression::GenerateZhegalkin` with the number of dimensions still
to process: every pass computes `tmp` and copies it back. -/
def Expression.GenerateZhegalkin.outer (array_size : Nat) :
    Nat → Nat → List Bool → Bool → Except Error (List Bool)
  | 0, _, zhegalkin_, _ => .ok zhegalkin_
  | n + 1, i, zhegalkin_, flag =>
    match Expression.GenerateZhegalkin.inner zhegalkin_ i array_size 0 flag with
    | .error e => .error e
    | .ok (tmp, flag) => Expression.GenerateZhegalkin.outer array_size n (i + 1) tmp flag

/-- The method `Expression::GenerateZhegalkin`: the array `zhegalkin_`. -/
def Expression.GenerateZhegalkin (expression_ : Node) (cin : List Bool) :
    Except Error (List Bool) :=
  match Expression.GenerateTruthTable expression_ cin with
  | .error e => .error e
  | .ok truth_table_ =>
    Expression.GenerateZhegalkin.outer (2 ^ (Expression.GenerateVariables expression_).length)
      (Expression.GenerateVariables expression_).length 0 truth_table_ true

/-- All pointers of a vector when none is null. -/
def Expression.allNodes : List (Option Node) → Option (List Node)
  | [] => some []
  | none :: _ => none
  | some node :: rest =>
    match Expression.allNodes rest with
    | none => none
    | some nodes => some (node :: nodes)

/-- The function `Expression::BuildOperationNode(nodes, strategy)`: null for no node, the node
itself for one, otherwise an operation with the nodes as children. An operation that would store
a null child is reported as `UndefinedBehaviour`, since evaluating it follows the null pointer. -/
def Expression.BuildOperationNode (nodes : List (Option Node)) (strategy : Strategy) :
    Except Error (Option Node) :=
  match nodes with
  | [] => .ok none
  | [node] => .ok node
  | _ =>
    match Expression.allNodes nodes with
    | some children_ => .ok (some (.OperationNode strategy children_))
    | none => .error .UndefinedBehaviour

/-- The loop `for k` of `Expression::CNF` and, with the same text, of `Expression::DNF`, for row
`i`, from variable index `k` on: the variable `variables_[k]` is negated when `i >> k & 0b1`,
and is inserted at the front of the vector. -/
def Expression.literals (i : Nat) : List Char → Nat → List Node → List Node
  | [], _, vector => vector
  | id :: rest, k, vector =>
    Expression.literals i rest (k + 1)
      ((if (i >>> k) &&& 1 ≠ 0 then Node.NegNode (.VariableNode id) else .VariableNode id)
        :: vector)

/-- The loop `for i` of `Expression::CNF` with the number of rows still to visit: every row where
the table is `false` adds a disjunction at the front of `conjunct`. -/
def Expression.CNF.rows (truth_table_ : List Bool) (variables_ : List Char) :
    Nat → Nat → List (Option Node) → Except Error (List (Option Node))
  | 0, _, conjunct => .ok conjunct
  | n + 1, i, conjunct =>
    match Expression.read truth_table_ i with
    | .error e => .error e
    | .ok value =>
      if !value then
        match Expression.BuildOperationNode
            ((Expression.literals i variables_ 0 []).map some) .Or with
        | .error e => .error e
        | .ok node => Expression.CNF.rows truth_table_ variables_ n (i + 1) (node :: conjunct)
      else Expression.CNF.rows truth_table_ variables_ n (i + 1) conjunct

/-- The method `Expression::CNF()`: the tree of the returned expression. -/
def Expression.CNF (expression_ : Node) (cin : List Bool) : Except Error Node :=
  match Expression.GenerateTruthTable expression_ cin with
  | .error e => .error e
  | .ok truth_table_ =>
    match Expression.CNF.rows truth_table_ (Expression.GenerateVariables expression_)
        (2 ^ (Expression.GenerateVariables expression_).length) 0 [] with
    | .error e => .error e
    | .ok conjunct =>
      match Expression.BuildOperationNode conjunct .And with
      | .error e => .error e
      | .ok (some result) => .ok result
      | .ok none => .ok (.ConstNode true)

/-- The loop `for i` of `Expression::DNF` with the number of rows still to visit: every row where
the table is `true` adds a conjunction at the front of `disjunct`. -/
def Expression.DNF.rows (truth_table_ : List Bool) (variables_ : List Char) :
    Nat → Nat → List (Option Node) → Except Error (List (Option Node))
  | 0, _, disjunct => .ok disjunct
  | n + 1, i, disjunct =>
    match Expression.read truth_table_ i with
    | .error e => .error e
    | .ok value =>
      if value then
        match Expression.BuildOperationNode
            ((Expression.literals i variables_ 0 []).map some) .And with
        | .error e => .error e
        | .ok node => Expression.DNF.rows truth_table_ variables_ n (i + 1) (node :: disjunct)
      else Expression.DNF.rows truth_table_ variables_ n (i + 1) disjunct

/-- The method `Expression::DNF()`: the tree of the returned expression. -/
def Expression.DNF (expression_ : Node) (cin : List Bool) : Except Error Node :=
  match Expression.GenerateTruthTable expression_ cin with
  | .error e => .error e
  | .ok truth_table_ =>
    match Expression.DNF.rows truth_table_ (Expression.GenerateVariables expression_)
        (2 ^ (Expression.GenerateVariables expression_).length) 0 [] with
    | .error e => .error e
    | .ok disjunct =>
      match Expression.BuildOperationNode disjunct .Or with
      | .error e => .error e
      | .ok (some result) => .ok result
      | .ok none => .ok (.ConstNode false)

/-- The loop `for j` of `Expression::Zhegalkin` for coefficient index `i`, from variable index
`j` on: the variables whose bit is set in `i`, each inserted at the front of `conjunct`. -/
def Expression.Zhegalkin.conjunct (i : Nat) : List Char → Nat → List Node → List Node
  | [], _, conjunct => conjunct
  | id :: rest, j, conjunct =>
    Expression.Zhegalkin.conjunct i rest (j + 1)
      (if (i >>> j) &&& 1 ≠ 0 then .VariableNode id :: conjunct else conjunct)

/-- The loop `for i` of `Expression::Zhegalkin` with the number of indices still to visit: a true
coefficient adds the conjunction of its variables at the front of `sum` when `sum` is not empty,
and the constant `true` when `sum` is empty. -/
def Expression.Zhegalkin.terms (zhegalkin_ : List Bool) (variables_ : List Char) :
    Nat → Nat → List (Option Node) → Except Error (List (Option Node))
  | 0, _, sum => .ok sum
  | n + 1, i, sum =>
    match Expression.read zhegalkin_ i with
    | .error e => .error e
    | .ok value =>
      if value then
        if sum.length ≠ 0 then
          match Expression.BuildOperationNode
              ((Expression.Zhegalkin.conjunct i variables_ 0 []).map some) .And with
          | .error e => .error e
          | .ok node => Expression.Zhegalkin.terms zhegalkin_ variables_ n (i + 1) (node :: sum)
        else
          Expression.Zhegalkin.terms zhegalkin_ variables_ n (i + 1)
            (some (.ConstNode true) :: sum)
      else Expression.Zhegalkin.terms zhegalkin_ variables_ n (i + 1) sum

/-- The method `Expression::Zhegalkin()`: the tree of the returned expression. -/
def Expression.Zhegalkin (expression_ : Node) (cin : List Bool) : Except Error Node :=
  match Expression.GenerateZhegalkin expression_ cin with
  | .error e => .error e
  | .ok zhegalkin_ =>
    match Expression.Zhegalkin.terms zhegalkin_ (Expression.GenerateVariables expression_)
        (2 ^ (Expression.GenerateVariables expression_).length) 0 [] with
    | .error e => .error e
    | .ok sum =>
      match Expression.BuildOperationNode sum .Xor with
      | .error e => .error e
      | .ok (some result) => .ok result
      | .ok none => .ok (.ConstNode false)

/-! ## Notions used to state the properties -/

mutual
/-- The arity invariant: every operation node of the tree has at least two children. -/
def Node.wellFormed : Node → Bool
  | .ConstNode _ => true
  | .VariableNode _ => true
  | .NegNode child_ => child_.wellFormed
  | .OperationNode _ children_ => decide (2 ≤ children_.length) && Node.wellFormedList children_
/-- The arity invariant for every node of a list. -/
def Node.wellFormedList : List Node → Bool
  | [] => true
  | child :: rest => child.wellFormed && Node.wellFormedList rest
end

mutual
/-- The identifiers at the variable leaves of a tree, in stored order. -/
def Node.leaves : Node → List Char
  | .ConstNode _ => []
  | .VariableNode id_ => [id_]
  | .NegNode child_ => child_.leaves
  | .OperationNode _ children_ => Node.leavesList children_
/-- The identifiers at the variable leaves of a list of trees. -/
def Node.leavesList : List Node → List Char
  | [] => []
  | child :: rest => child.leaves ++ Node.leavesList rest
end

mutual
/-- The boolean a tree denotes under `vars` when nothing is read from the input stream: an
operation combines its children as `f(child0, f(child1, ... f(child(n-2), child(n-1))))`. -/
def Node.value (vars : Vars) : Node → Bool
  | .ConstNode value_ => value_
  | .VariableNode id_ => (mapFind vars id_).getD false
  | .NegNode child_ => !child_.value vars
  | .OperationNode strategy_ children_ => Node.valueChildren vars strategy_ children_
/-- The fold of an operation over its children, from the last child back to the first. -/
def Node.valueChildren (vars : Vars) (strategy_ : Strategy) : List Node → Bool
  | [] => false
  | [last] => last.value vars
  | child :: next :: rest =>
    strategy_.Calculate (child.value vars) (Node.valueChildren vars strategy_ (next :: rest))
end

/-- The map of row `i` of the truth table: the variable with index `j` is bound to bit `j` of
`i`. -/
def Expression.row : List Char → Nat → Vars
  | [], _ => []
  | id :: rest, i => (id, i.testBit 0) :: Expression.row rest (i / 2)

/-- The eleven operator and bracket characters of the input grammar. -/
def operatorSymbols : List Symbol :=
  [kAnd, kOr, kImpl, kRevImpl, kXor, kEq, kNand, kNor, kLeftBracket, kRightBracket, kNeg]

/-- The alphabet of the input grammar: space, the constants `0` and `1`, the letters `a` .. `z`,
the eight binary operators, the two brackets and `~`. -/
def grammarChar (c : Char) : Prop :=
  c = ' ' ∨ c = '0' ∨ c = '1' ∨ ('a' ≤ c ∧ c ≤ 'z') ∨ c ∈ operatorSymbols

instance (c : Char) : Decidable (grammarChar c) := by
  unfold grammarChar; infer_instance

/-- The number of binary operators on the symbol stack. -/
def binaryCount (symbols : List Symbol) : Nat :=
  (symbols.filter (fun c => (Expression.ParseNode.strategy c).isSome)).length

/-- The invariant of the parser on inputs over the grammar alphabet: the symbol stack holds
operator and bracket symbols only, no two negations lie next to each other on it, and the
operand stack holds one node per pending binary operator, plus one when no operand is
expected. -/
def Expression.Locals.balanced (st : Expression.Locals) : Prop :=
  (∀ c ∈ st.symbols, c ∈ operatorSymbols) ∧
  st.symbols.Chain' (fun x y => ¬ (x = kNeg ∧ y = kNeg)) ∧
  st.nodes.length = binaryCount st.symbols + (if st.expect_var then 0 else 1)

/-- The rule of section 4.1 for one character, on the flag `expect_operand` and the bracket
counter: `none` when the character violates the rule. A variable or constant needs the flag and
clears it; a binary operator or `)` needs the flag cleared, the operator sets it; `(` and `~`
need the flag and leave it set; the brackets move the counter; any other character is
skipped. -/
def Validator.step (expect_operand : Bool) (brackets : Int) (c : Char) : Option (Bool × Int) :=
  if c = '0' ∨ c = '1' ∨ ('a' ≤ c ∧ c ≤ 'z') then
    if expect_operand then some (false, brackets) else none
  else if c ∈ [kAnd, kOr, kImpl, kRevImpl, kXor, kEq, kNand, kNor] then
    if expect_operand then none else some (true, brackets)
  else if c = kRightBracket then
    if expect_operand then none else some (false, brackets - 1)
  else if c = kLeftBracket then
    if expect_operand then some (true, brackets + 1) else none
  else if c = kNeg then
    if expect_operand then some (true, brackets) else none
  else some (expect_operand, brackets)

/-- An input violates the rule of section 4.1 when some character does, or when the input ends
while an operand is expected or with a bracket counter other than 0. -/
def Validator.violated : Bool → Int → List Char → Bool
  | expect_operand, brackets, [] => expect_operand || decide (brackets ≠ 0)
  | expect_operand, brackets, c :: rest =>
    match Validator.step expect_operand brackets c with
    | none => true
    | some (expect_operand, brackets) => Validator.violated expect_operand brackets rest

/-- The part of a chain after a variable: every further variable preceded by the operator with a
space on both sides. -/
def chainRest (op : Char) : List Char → List Char
  | [] => []
  | v :: rest => ' ' :: op :: ' ' :: v :: chainRest op rest

/-- The chain `v1 op v2 op ... op vn` as typed, with a space on both sides of every operator. -/
def chain (op : Char) : List Char → List Char
  | [] => []
  | v :: rest => v :: chainRest op rest

/-- The tree the parser holds for the variables read so far in a chain (latest first): the bare
variable while there is one, afterwards one operation over all of them. -/
def chainNode (strategy : Strategy) : List Char → Node
  | [v] => .VariableNode v
  | ids => .OperationNode strategy (ids.map .VariableNode)

/-- The binding tiers of the binary connectives, tightest first: AND, then XOR, then OR, then the
single tier of `>`, `<`, `=`, `|`, `^`. Any other symbol has tier 0. -/
def tier (c : Symbol) : Nat :=
  if c = kAnd then 1
  else if c = kXor then 2
  else if c = kOr then 3
  else if c = kImpl ∨ c = kRevImpl ∨ c = kEq ∨ c = kNand ∨ c = kNor then 4
  else 0

mutual
/-- The virtual method `String()`, as the list of the characters of the `std::string`. A
constant is rendered by `std::to_string` of its value, `1` or `0`. An operation appends to `(`
every child from the last to the first, each followed by a space, the display sign and a space,
erases the last three characters and appends `)`; the erasure is undefined when there is no
child. -/
def Node.String : Node → Except Error (List Char)
  | .ConstNode value_ => .ok (if value_ then ['1'] else ['0'])
  | .VariableNode id_ => .ok [id_]
  | .NegNode child_ =>
    match child_.String with
    | .error e => .error e
    | .ok text => .ok ('~' :: text)
  | .OperationNode strategy_ children_ =>
    match Node.StringChildren strategy_.DisplaySign children_ with
    | .error e => .error e
    | .ok appended =>
      if ('(' :: appended).length < 3 then .error .UndefinedBehaviour
      else .ok (('(' :: appended).take (('(' :: appended).length - 3) ++ [')'])
/-- The loop of `OperationNode::String` over the children whose index is that of the head of the
list or larger: what it appends to `result`, the later children first. -/
def Node.StringChildren (sign : Char) : List Node → Except Error (List Char)
  | [] => .ok []
  | child :: rest =>
    match Node.StringChildren sign rest with
    | .error e => .error e
    | .ok appended =>
      match child.String with
      | .error e => .error e
      | .ok text => .ok (appended ++ text ++ [' ', sign, ' '])
end

/-- The texts of a list joined with a separator between neighbours. -/
def joinWith (separator : List Char) : List (List Char) → List Char
  | [] => []
  | [text] => text
  | text :: next :: rest => text ++ separator ++ joinWith separator (next :: rest)

/-- The XOR of `f m` over the masks `m` of a list. -/
def xorOver (f : Nat → Bool) : List Nat → Bool
  | [] => false
  | m :: rest => xor (f m) (xorOver f rest)

/-- The masks below `bound` whose set bits are among the set bits of `i`, in ascending order. -/
def submasks (bound i : Nat) : List Nat :=
  (List.range bound).filter (fun m => m &&& i = m)

/-- The value one pass of `GenerateZhegalkin` for dimension `i` stores at index `j`: the entry
at `j`, combined with its partner `j - 2 ^ i` when bit `i` of `j` is set. -/
def Expression.GenerateZhegalkin.passAt (zhegalkin_ : List Bool) (i j : Nat) : Bool :=
  if j.testBit i then (zhegalkin_.getD j false != zhegalkin_.getD (j - 2 ^ i) false)
  else zhegalkin_.getD j false

/-- The array after one pass for dimension `i`. -/
def Expression.GenerateZhegalkin.pass (zhegalkin_ : List Bool) (i : Nat) : List Bool :=
  (List.range zhegalkin_.length).map (Expression.GenerateZhegalkin.passAt zhegalkin_ i)

/-- The array after the passes for the dimensions `i`, `i + 1`, ..., `i + n - 1`. -/
def Expression.GenerateZhegalkin.passes : Nat → Nat → List Bool → List Bool
  | 0, _, zhegalkin_ => zhegalkin_
  | n + 1, i, zhegalkin_ =>
    Expression.GenerateZhegalkin.passes n (i + 1) (Expression.GenerateZhegalkin.pass zhegalkin_ i)

/-- The node `BuildOperationNode` returns for one or more nodes that are not null: the node
itself when it is alone, otherwise the operation over all of them. -/
def aggregate (strategy : Strategy) : List Node → Node
  | [node] => node
  | nodes => .OperationNode strategy nodes

/-- The row index of an assignment: bit `j` is the value `vars` gives to the variable with index
`j`, complemented when `flip` is set. -/
def Expression.code (flip : Bool) : List Char → Vars → Nat
  | [], _ => 0
  | id :: rest, vars =>
    (xor ((mapFind vars id).getD false) flip).toNat + 2 * Expression.code flip rest vars

/-- The truth table of a tree as the list of its values at the rows `0`, `1`, ... -/
def Expression.table (expression_ : Node) : List Bool :=
  (List.range (2 ^ (Expression.GenerateVariables expression_).length)).map
    (fun i => expression_.value (Expression.row (Expression.GenerateVariables expression_) i))

/-- The assignment with every value flipped. -/
def complement (vars : Vars) : Vars :=
  vars.map (fun entry => (entry.1, !entry.2))

/-- The rows of the truth table of a tree whose entry is `value`, in ascending order. -/
def Expression.rowsWith (value : Bool) (expression_ : Node) : List Nat :=
  (List.range (2 ^ (Expression.GenerateVariables expression_).length)).filter
    (fun r => (Expression.table expression_).getD r false == value)

/-- The tree `Zhegalkin()` builds from the indices of the true coefficients in ascending order:
the constant `true` for the first index, the conjunction of the variables of the mask for every
later one, the later terms in front. -/
def Expression.Zhegalkin.tree (variables_ : List Char) : List Nat → Node
  | [] => .ConstNode false
  | _ :: rest =>
    aggregate .Xor (rest.reverse.map
      (fun r => aggregate .And (Expression.Zhegalkin.conjunct r variables_ 0 []))
      ++ [.ConstNode true])

/-! # Properties -/

/-! ## Sets and maps -/

theorem mem_setInsert (id x : Char) (l : List Char) : x ∈ setInsert id l ↔ x = id ∨ x ∈ l := by
  induction l with
  | nil => simp [setInsert]
  | cons y l ih =>
    unfold setInsert
    split_ifs with h1 h2
    · simp
    · subst h2; simp
    · simp [ih]; tauto

theorem sorted_setInsert (id : Char) (l : List Char) (h : l.Sorted (· < ·)) :
    (setInsert id l).Sorted (· < ·) := by
  induction l with
  | nil => simp [setInsert]
  | cons y l ih =>
    unfold setInsert
    split_ifs with h1 h2
    · refine List.sorted_cons.2 ⟨?_, h⟩
      intro b hb
      rcases List.mem_cons.1 hb with rfl | hb
      · exact h1
      · exact lt_trans h1 (List.rel_of_sorted_cons h b hb)
    · exact h
    · refine List.sorted_cons.2 ⟨?_, ih (List.Sorted.of_cons h)⟩
      intro b hb
      rcases (mem_setInsert id b l).1 hb with rfl | hb
      · exact lt_of_le_of_ne (not_lt.1 h1) (Ne.symm h2)
      · exact List.rel_of_sorted_cons h b hb

mutual
theorem Node.FindVariables_sorted : ∀ (t : Node) (vars : List Char),
    vars.Sorted (· < ·) → (t.FindVariables vars).Sorted (· < ·)
  | .ConstNode _, _, h => by simpa [Node.FindVariables] using h
  | .VariableNode id_, vars, h => by
    simpa [Node.FindVariables] using sorted_setInsert id_ vars h
  | .NegNode child_, vars, h => by
    simpa [Node.FindVariables] using Node.FindVariables_sorted child_ vars h
  | .OperationNode _ children_, vars, h => by
    simpa [Node.FindVariables] using Node.FindVariablesChildren_sorted children_ vars h
theorem Node.FindVariablesChildren_sorted : ∀ (cs : List Node) (vars : List Char),
    vars.Sorted (· < ·) → (Node.FindVariablesChildren cs vars).Sorted (· < ·)
  | [], _, h => by simpa [Node.FindVariablesChildren] using h
  | child :: rest, vars, h => by
    simpa [Node.FindVariablesChildren] using
      Node.FindVariablesChildren_sorted rest _ (Node.FindVariables_sorted child vars h)
end

mutual
theorem Node.mem_FindVariables : ∀ (t : Node) (vars : List Char) (x : Char),
    x ∈ t.FindVariables vars ↔ x ∈ vars ∨ x ∈ t.leaves
  | .ConstNode _, _, _ => by simp [Node.FindVariables, Node.leaves]
  | .VariableNode id_, vars, x => by
    simp [Node.FindVariables, Node.leaves, mem_setInsert]; tauto
  | .NegNode child_, vars, x => by
    simpa [Node.FindVariables, Node.leaves] using Node.mem_FindVariables child_ vars x
  | .OperationNode _ children_, vars, x => by
    simpa [Node.FindVariables, Node.leaves] using Node.mem_FindVariablesChildren children_ vars x
theorem Node.mem_FindVariablesChildren : ∀ (cs : List Node) (vars : List Char) (x : Char),
    x ∈ Node.FindVariablesChildren cs vars ↔ x ∈ vars ∨ x ∈ Node.leavesList cs
  | [], _, _ => by simp [Node.FindVariablesChildren, Node.leavesList]
  | child :: rest, vars, x => by
    simp only [Node.FindVariablesChildren, Node.leavesList, List.mem_append]
    rw [Node.mem_FindVariablesChildren rest _ x, Node.mem_FindVariables child vars x]
    tauto
end

/-! ## Evaluation with every variable bound -/

mutual
theorem Node.Calculate_of_bound : ∀ (t : Node) (vars : Vars) (input : List Bool),
    t.wellFormed = true → (∀ c ∈ t.leaves, mapFind vars c ≠ none) →
    t.Calculate vars input = .ok (t.value vars, vars, input)
  | .ConstNode _, _, _, _, _ => rfl
  | .VariableNode id_, vars, input, _, hb => by
    have h := hb id_ (by simp [Node.leaves])
    cases hf : mapFind vars id_ with
    | none => exact absurd hf h
    | some v => simp [Node.Calculate, Node.value, hf]
  | .NegNode child_, vars, input, hw, hb => by
    have ih := Node.Calculate_of_bound child_ vars input
      (by simpa [Node.wellFormed] using hw) (by simpa [Node.leaves] using hb)
    simp [Node.Calculate, Node.value, ih]
  | .OperationNode strategy_ children_, vars, input, hw, hb => by
    simp only [Node.wellFormed, Bool.and_eq_true, decide_eq_true_eq] at hw
    have ih := Node.CalculateChildren_of_bound strategy_ children_ vars input hw.2
      (by simpa [Node.leaves] using hb) (by intro h; rw [h] at hw; simp at hw)
    have hlen : ¬ children_.length < 2 := by omega
    simp [Node.Calculate, Node.value, ih, hlen]
theorem Node.CalculateChildren_of_bound : ∀ (strategy_ : Strategy) (cs : List Node) (vars : Vars)
    (input : List Bool), Node.wellFormedList cs = true →
    (∀ c ∈ Node.leavesList cs, mapFind vars c ≠ none) → cs ≠ [] →
    Node.CalculateChildren strategy_ cs vars input
      = .ok (Node.valueChildren vars strategy_ cs, vars, input)
  | _, [], _, _, _, _, hne => absurd rfl hne
  | _, [last], vars, input, hw, hb, _ => by
    have ih := Node.Calculate_of_bound last vars input
      (by simpa [Node.wellFormedList] using hw) (by simpa [Node.leavesList] using hb)
    simp [Node.CalculateChildren, Node.valueChildren, ih]
  | strategy_, child :: next :: rest, vars, input, hw, hb, _ => by
    simp only [Node.wellFormedList, Bool.and_eq_true] at hw
    have hb1 : ∀ c ∈ child.leaves, mapFind vars c ≠ none := fun c hc =>
      hb c (by simp [Node.leavesList, hc])
    have hb2 : ∀ c ∈ Node.leavesList (next :: rest), mapFind vars c ≠ none := fun c hc =>
      hb c (by
        simp only [Node.leavesList, List.mem_append] at hc ⊢
        exact Or.inr hc)
    have ih1 := Node.Calculate_of_bound child vars input hw.1 hb1
    have ih2 := Node.CalculateChildren_of_bound strategy_ (next :: rest) vars input
      (by simp [Node.wellFormedList, hw.2]) hb2 (by simp)
    simp [Node.CalculateChildren, Node.valueChildren, ih1, ih2]
end

mutual
theorem Node.value_congr : ∀ (t : Node) (vars vars' : Vars),
    (∀ c ∈ t.leaves, mapFind vars c = mapFind vars' c) → t.value vars = t.value vars'
  | .ConstNode _, _, _, _ => rfl
  | .VariableNode id_, vars, vars', h => by
    simp [Node.value, h id_ (by simp [Node.leaves])]
  | .NegNode child_, vars, vars', h => by
    simp [Node.value, Node.value_congr child_ vars vars' (by simpa [Node.leaves] using h)]
  | .OperationNode strategy_ children_, vars, vars', h => by
    simpa [Node.value] using
      Node.valueChildren_congr strategy_ children_ vars vars' (by simpa [Node.leaves] using h)
theorem Node.valueChildren_congr : ∀ (strategy_ : Strategy) (cs : List Node) (vars vars' : Vars),
    (∀ c ∈ Node.leavesList cs, mapFind vars c = mapFind vars' c) →
    Node.valueChildren vars strategy_ cs = Node.valueChildren vars' strategy_ cs
  | _, [], _, _, _ => rfl
  | _, [last], vars, vars', h => by
    simpa [Node.valueChildren] using
      Node.value_congr last vars vars' (by simpa [Node.leavesList] using h)
  | strategy_, child :: next :: rest, vars, vars', h => by
    have h1 := Node.value_congr child vars vars' (fun c hc => h c (by simp [Node.leavesList, hc]))
    have h2 := Node.valueChildren_congr strategy_ (next :: rest) vars vars' (fun c hc => h c (by
        simp only [Node.leavesList, List.mem_append] at hc ⊢
        exact Or.inr hc))
    simp [Node.valueChildren, h1, h2]
end

/-! ## Truth-table enumeration -/

theorem mapInsert_of_lt (id : Char) (value : Bool) (vars : Vars)
    (h : ∀ p ∈ vars, p.1 < id) : mapInsert id value vars = vars ++ [(id, value)] := by
  induction vars with
  | nil => rfl
  | cons p vars ih =>
    obtain ⟨key, second⟩ := p
    have hk : key < id := h (key, second) (by simp)
    have h1 : ¬ id < key := not_lt.2 (le_of_lt hk)
    have h2 : id ≠ key := ne_of_gt hk
    simp [mapInsert, h1, h2, ih (fun p hp => h p (by simp [hp]))]

theorem foldl_mapInsert (variables_ : List Char) (vars : Vars)
    (hs : variables_.Sorted (· < ·)) (h : ∀ p ∈ vars, ∀ x ∈ variables_, p.1 < x) :
    variables_.foldl (fun vars id => mapInsert id false vars) vars
      = vars ++ variables_.map (fun id => (id, false)) := by
  induction variables_ generalizing vars with
  | nil => simp
  | cons x rest ih =>
    rw [List.foldl_cons, mapInsert_of_lt x false vars (fun p hp => h p hp x (by simp))]
    rw [ih _ (List.Sorted.of_cons hs)]
    · simp
    · intro p hp y hy
      rcases List.mem_append.1 hp with hp | hp
      · exact h p hp y (by simp [hy])
      · simp only [List.mem_singleton] at hp
        subst hp
        exact List.rel_of_sorted_cons hs y hy

theorem row_zero (variables_ : List Char) :
    Expression.row variables_ 0 = variables_.map (fun id => (id, false)) := by
  induction variables_ with
  | nil => rfl
  | cons x rest ih => simp [Expression.row, ih]

theorem IncrementVariables_row (variables_ : List Char) (i : Nat) :
    Expression.IncrementVariables (Expression.row variables_ i)
      = Expression.row variables_ (i + 1) := by
  induction variables_ generalizing i with
  | nil => rfl
  | cons x rest ih =>
    simp only [Expression.row, Expression.IncrementVariables]
    rcases Nat.mod_two_eq_zero_or_one i with h | h
    · have h0 : i.testBit 0 = false := by simp [Nat.testBit_zero, h]
      have h1 : (i + 1).testBit 0 = true := by simp [Nat.testBit_zero]; omega
      have h2 : (i + 1) / 2 = i / 2 := by omega
      simp [h0, h1, h2]
    · have h0 : i.testBit 0 = true := by simp [Nat.testBit_zero, h]
      have h1 : (i + 1).testBit 0 = false := by simp [Nat.testBit_zero]; omega
      have h2 : (i + 1) / 2 = i / 2 + 1 := by omega
      simp [h0, h1, h2, ih]

theorem mapFind_row (variables_ : List Char) (hs : variables_.Sorted (· < ·)) (i j : Nat)
    (hj : j < variables_.length) :
    mapFind (Expression.row variables_ i) variables_[j] = some (i.testBit j) := by
  induction variables_ generalizing i j with
  | nil => simp at hj
  | cons x rest ih =>
    cases j with
    | zero => simp [Expression.row, mapFind]
    | succ j =>
      have hj' : j < rest.length := by simpa using hj
      have hne : x ≠ rest[j] := ne_of_lt (List.rel_of_sorted_cons hs _ (List.getElem_mem _))
      simp only [Expression.row, mapFind, List.getElem_cons_succ, if_neg hne]
      rw [ih (List.Sorted.of_cons hs) (i / 2) j hj', Nat.testBit_succ]

theorem mapFind_row_ne_none (variables_ : List Char) (i : Nat) (c : Char) (hc : c ∈ variables_) :
    mapFind (Expression.row variables_ i) c ≠ none := by
  induction variables_ generalizing i with
  | nil => simp at hc
  | cons x rest ih =>
    simp only [Expression.row, mapFind]
    split_ifs with h
    · simp
    · rcases List.mem_cons.1 hc with rfl | hc
      · exact absurd rfl h
      · exact ih (i / 2) hc

theorem GenerateTruthTable_rows_eq (expression_ : Node) (variables_ : List Char)
    (hw : expression_.wellFormed = true) (hv : ∀ c ∈ expression_.leaves, c ∈ variables_)
    (n i : Nat) (cin : List Bool) :
    Expression.GenerateTruthTable.rows expression_ n (Expression.row variables_ i) cin
      = .ok ((List.range n).map (fun m => expression_.value (Expression.row variables_ (i + m)))) := by
  induction n generalizing i with
  | zero => rfl
  | succ n ih =>
    have hc := Node.Calculate_of_bound expression_ (Expression.row variables_ i) cin hw
      (fun c hc => mapFind_row_ne_none variables_ i c (hv c hc))
    simp only [Expression.GenerateTruthTable.rows, hc, IncrementVariables_row, ih (i + 1)]
    rw [List.range_succ_eq_map]
    simp [Nat.add_assoc, Nat.add_comm 1, Function.comp_def]

theorem GenerateVariables_sorted (expression_ : Node) :
    (Expression.GenerateVariables expression_).Sorted (· < ·) :=
  Node.FindVariables_sorted expression_ [] (by simp)

theorem mem_GenerateVariables (expression_ : Node) (x : Char) :
    x ∈ Expression.GenerateVariables expression_ ↔ x ∈ expression_.leaves := by
  simp [Expression.GenerateVariables, Node.mem_FindVariables]

theorem GenerateTruthTable_eq (expression_ : Node) (hw : expression_.wellFormed = true)
    (cin : List Bool) :
    Expression.GenerateTruthTable expression_ cin
      = .ok ((List.range (2 ^ (Expression.GenerateVariables expression_).length)).map
          (fun i => expression_.value
            (Expression.row (Expression.GenerateVariables expression_) i))) := by
  unfold Expression.GenerateTruthTable
  rw [foldl_mapInsert _ [] (GenerateVariables_sorted expression_) (by simp), List.nil_append,
    ← row_zero]
  rw [GenerateTruthTable_rows_eq expression_ _ hw
    (fun c hc => (mem_GenerateVariables expression_ c).2 hc)]
  simp

/-! ## The parser: reductions -/

theorem Node.wellFormedList_iff (cs : List Node) :
    Node.wellFormedList cs = true ↔ ∀ c ∈ cs, c.wellFormed = true := by
  induction cs with
  | nil => simp [Node.wellFormedList]
  | cons c cs ih => simp [Node.wellFormedList, ih]

theorem ParseNode_strategy_isSome {c : Symbol} (h : (Expression.ParseNode.strategy c).isSome) :
    c = kAnd ∨ c = kOr ∨ c = kImpl ∨ c = kRevImpl ∨ c = kXor ∨ c = kEq ∨ c = kNand ∨
      c = kNor := by
  unfold Expression.ParseNode.strategy at h
  split_ifs at h <;> simp_all

theorem ParseNode_strategy_DisplaySign {c : Symbol} {s : Strategy}
    (h : Expression.ParseNode.strategy c = some s) : s.DisplaySign = c := by
  rcases ParseNode_strategy_isSome (by rw [h]; rfl) with h1 | h1 | h1 | h1 | h1 | h1 | h1 | h1 <;>
    subst h1 <;> cases h <;> rfl

theorem symbol_eq_DisplaySign {b : Node} {s : Strategy} (h : b.symbol = s.DisplaySign) :
    ∃ children_, b = .OperationNode s children_ := by
  cases b with
  | ConstNode v => cases s <;> exact absurd (show kConst = _ from h) (by decide)
  | VariableNode v => cases s <;> exact absurd (show kVariable = _ from h) (by decide)
  | NegNode v => cases s <;> exact absurd (show kNeg = _ from h) (by decide)
  | OperationNode s' cs =>
    refine ⟨cs, ?_⟩
    have h' : s'.DisplaySign = s.DisplaySign := h
    have : s' = s := by
      cases s <;> cases s' <;> first | rfl | exact absurd h' (by decide)
    rw [this]

/-- The four ways `ParseNode` succeeds: flattening into an operation with the same connective,
building a new binary operation, wrapping a negation, or only popping a symbol. -/
theorem ParseNode_ok {nodes nodes' : List Node} {top : Symbol} {symbols symbols' : List Symbol}
    (h : Expression.ParseNode nodes (top :: symbols) = .ok (nodes', symbols')) :
    symbols' = symbols ∧
    ((∃ s a cs rest, Expression.ParseNode.strategy top = some s ∧
        nodes = a :: .OperationNode s cs :: rest ∧ nodes' = .OperationNode s (a :: cs) :: rest) ∨
     (∃ s a b rest, Expression.ParseNode.strategy top = some s ∧ b.symbol ≠ s.DisplaySign ∧
        nodes = a :: b :: rest ∧ nodes' = .OperationNode s [a, b] :: rest) ∨
     (Expression.ParseNode.strategy top = none ∧ top = kNeg ∧
        ∃ a rest, nodes = a :: rest ∧ nodes' = .NegNode a :: rest) ∨
     (Expression.ParseNode.strategy top = none ∧ top ≠ kNeg ∧ nodes' = nodes)) := by
  unfold Expression.ParseNode at h
  simp only at h
  cases hs : Expression.ParseNode.strategy top with
  | some s =>
    rw [hs] at h
    simp only at h
    match nodes, h with
    | [], h => simp at h
    | [_], h => simp at h
    | a :: b :: rest, h =>
      simp only at h
      by_cases hb : b.symbol = s.DisplaySign
      · obtain ⟨cs, rfl⟩ := symbol_eq_DisplaySign hb
        simp only [hb, if_true] at h
        injection h with h
        injection h with h1 h2
        exact ⟨h2.symm, Or.inl ⟨s, a, cs, rest, rfl, rfl, h1.symm⟩⟩
      · simp only [hb, if_false] at h
        injection h with h
        injection h with h1 h2
        exact ⟨h2.symm, Or.inr (Or.inl ⟨s, a, b, rest, rfl, hb, rfl, h1.symm⟩)⟩
  | none =>
    rw [hs] at h
    simp only at h
    by_cases hn : top = kNeg
    · simp only [hn, if_true] at h
      match nodes, h with
      | [], h => simp at h
      | a :: rest, h =>
        simp only at h
        injection h with h
        injection h with h1 h2
        exact ⟨h2.symm, Or.inr (Or.inr (Or.inl ⟨rfl, hn, a, rest, rfl, h1.symm⟩))⟩
    · simp only [hn, if_false] at h
      injection h with h
      injection h with h1 h2
      exact ⟨h2.symm, Or.inr (Or.inr (Or.inr ⟨rfl, hn, h1.symm⟩))⟩

theorem ParseNode_wellFormed {nodes nodes' : List Node} {symbols symbols' : List Symbol}
    (hw : ∀ n ∈ nodes, n.wellFormed = true)
    (h : Expression.ParseNode nodes symbols = .ok (nodes', symbols')) :
    ∀ n ∈ nodes', n.wellFormed = true := by
  cases symbols with
  | nil => simp [Expression.ParseNode] at h
  | cons top symbols =>
    rcases (ParseNode_ok h).2 with ⟨s, a, cs, rest, -, rfl, rfl⟩ | ⟨s, a, b, rest, -, -, rfl, rfl⟩ |
      ⟨-, -, a, rest, rfl, rfl⟩ | ⟨-, -, rfl⟩
    · intro n hn
      rcases List.mem_cons.1 hn with rfl | hn
      · have ha := hw a (by simp)
        have hb := hw (.OperationNode s cs) (by simp)
        simp only [Node.wellFormed, Bool.and_eq_true, decide_eq_true_eq] at hb
        simp only [Node.wellFormed, Node.wellFormedList, Bool.and_eq_true, decide_eq_true_eq,
          List.length_cons]
        exact ⟨by omega, ha, hb.2⟩
      · exact hw n (by simp [hn])
    · intro n hn
      rcases List.mem_cons.1 hn with rfl | hn
      · simp [Node.wellFormed, Node.wellFormedList, hw a (by simp), hw b (by simp)]
      · exact hw n (by simp [hn])
    · intro n hn
      rcases List.mem_cons.1 hn with rfl | hn
      · simpa [Node.wellFormed] using hw a (by simp)
      · exact hw n (by simp [hn])
    · exact hw

theorem reduce_wellFormed (character : Char) {nodes nodes' : List Node}
    {symbols symbols' : List Symbol} {skip : Bool} (hw : ∀ n ∈ nodes, n.wellFormed = true)
    (h : Expression.Expression.reduce character nodes symbols = .ok (nodes', symbols', skip)) :
    ∀ n ∈ nodes', n.wellFormed = true := by
  induction symbols generalizing nodes with
  | nil =>
    simp only [Expression.Expression.reduce, Except.ok.injEq, Prod.mk.injEq] at h
    rw [← h.1]; exact hw
  | cons top symbols ih =>
    unfold Expression.Expression.reduce at h
    split_ifs at h with h1 h2 h3 h4
    · simp only [Except.ok.injEq, Prod.mk.injEq] at h; rw [← h.1]; exact hw
    · simp only [Except.ok.injEq, Prod.mk.injEq] at h; rw [← h.1]; exact hw
    · simp only [Except.ok.injEq, Prod.mk.injEq] at h; rw [← h.1]; exact hw
    · simp only [Except.ok.injEq, Prod.mk.injEq] at h; rw [← h.1]; exact hw
    · cases hp : Expression.ParseNode nodes (top :: symbols) with
      | error e => rw [hp] at h; simp at h
      | ok r =>
        obtain ⟨nodes1, symbols1⟩ := r
        rw [hp] at h
        exact ih (ParseNode_wellFormed hw hp) h

theorem step_wellFormed {st st' : Expression.Locals} {character : Char}
    (hw : ∀ n ∈ st.nodes, n.wellFormed = true)
    (h : Expression.Expression.step st character = .ok st') :
    ∀ n ∈ st'.nodes, n.wellFormed = true := by
  unfold Expression.Expression.step at h
  split_ifs at h with h1 h2 h3 h4 h5
  · cases h; exact hw
  · cases h
    intro n hn
    rcases List.mem_cons.1 hn with rfl | hn
    · rfl
    · exact hw n hn
  · cases h
    intro n hn
    rcases List.mem_cons.1 hn with rfl | hn
    · rfl
    · exact hw n hn
  · cases hc : Expression.Expression.check character st.expect_var st.bracket_counter with
    | error e => rw [hc] at h; simp at h
    | ok r =>
      obtain ⟨ev, bc⟩ := r
      rw [hc] at h
      simp only at h
      cases hr : Expression.Expression.reduce character st.nodes st.symbols with
      | error e => rw [hr] at h; simp at h
      | ok r =>
        obtain ⟨nodes1, symbols1, skip⟩ := r
        rw [hr] at h
        simp only [Except.ok.injEq] at h
        rw [← h]
        exact reduce_wellFormed character hw hr

theorem scan_wellFormed {st st' : Expression.Locals} {string : List Char}
    (hw : ∀ n ∈ st.nodes, n.wellFormed = true)
    (h : Expression.Expression.scan st string = .ok st') :
    ∀ n ∈ st'.nodes, n.wellFormed = true := by
  induction string generalizing st with
  | nil => cases h; exact hw
  | cons c rest ih =>
    unfold Expression.Expression.scan at h
    cases hs : Expression.Expression.step st c with
    | error e => rw [hs] at h; simp at h
    | ok st1 =>
      rw [hs] at h
      exact ih (step_wellFormed hw hs) h

theorem finish_wellFormed {nodes nodes' : List Node} {symbols : List Symbol}
    (hw : ∀ n ∈ nodes, n.wellFormed = true)
    (h : Expression.Expression.finish nodes symbols = .ok nodes') :
    ∀ n ∈ nodes', n.wellFormed = true := by
  induction symbols generalizing nodes with
  | nil => cases h; exact hw
  | cons top symbols ih =>
    unfold Expression.Expression.finish at h
    cases hp : Expression.ParseNode nodes (top :: symbols) with
    | error e => rw [hp] at h; simp at h
    | ok r =>
      obtain ⟨nodes1, symbols1⟩ := r
      rw [hp] at h
      exact ih (ParseNode_wellFormed hw hp) h

/-- Every operation node of a parsed tree has at least two children. -/
theorem Expression_wellFormed {string : String} {expression_ : Node}
    (h : Expression.Expression string = .ok expression_) : expression_.wellFormed = true := by
  unfold Expression.Expression at h
  cases hs : Expression.Expression.scan
      { nodes := [], symbols := [], expect_var := true, bracket_counter := 0 } string.data with
  | error e => rw [hs] at h; simp at h
  | ok st =>
    rw [hs] at h
    simp only at h
    have hw : ∀ n ∈ st.nodes, n.wellFormed = true :=
      scan_wellFormed (fun n hn => absurd hn (List.not_mem_nil n)) hs
    unfold Expression.Expression.close at h
    split_ifs at h
    cases hf : Expression.Expression.finish st.nodes st.symbols with
    | error e => rw [hf] at h; simp at h
    | ok nodes =>
      rw [hf] at h
      cases nodes with
      | nil => simp at h
      | cons top rest =>
        simp only [Except.ok.injEq] at h
        rw [← h]
        exact finish_wellFormed hw hf top (by simp)

/-! ## The parser: one character -/

theorem scan_append (st : Expression.Locals) (l₁ l₂ : List Char) :
    Expression.Expression.scan st (l₁ ++ l₂)
      = match Expression.Expression.scan st l₁ with
        | .error e => .error e
        | .ok st => Expression.Expression.scan st l₂ := by
  induction l₁ generalizing st with
  | nil => rfl
  | cons c rest ih =>
    simp only [List.cons_append, Expression.Expression.scan]
    cases Expression.Expression.step st c with
    | error e => rfl
    | ok st1 => exact ih st1

theorem step_space (st : Expression.Locals) : Expression.Expression.step st ' ' = .ok st := rfl

theorem step_constant {c : Char} (hc : c = '0' ∨ c = '1') (st : Expression.Locals) :
    Expression.Expression.step st c
      = if st.expect_var then
          .ok { st with expect_var := false, nodes := .ConstNode (c = '1') :: st.nodes }
        else .error (.UnexpectedSign "constant") := by
  rcases hc with rfl | rfl <;> cases h : st.expect_var <;> simp [Expression.Expression.step, h]

theorem step_variable {c : Char} (hc : 'a' ≤ c ∧ c ≤ 'z') (st : Expression.Locals) :
    Expression.Expression.step st c
      = if st.expect_var then
          .ok { st with expect_var := false, nodes := .VariableNode c :: st.nodes }
        else .error (.UnexpectedSign "variable") := by
  have h1 : c ≠ ' ' := by rintro rfl; revert hc; decide
  have h2 : c ≠ '1' := by rintro rfl; revert hc; decide
  have h3 : c ≠ '0' := by rintro rfl; revert hc; decide
  cases h : st.expect_var <;> simp [Expression.Expression.step, h, h1, h2, h3, hc]

theorem step_other {c : Char} (h1 : c ≠ ' ') (h2 : c ≠ '1') (h3 : c ≠ '0')
    (h4 : ¬ ('a' ≤ c ∧ c ≤ 'z')) (st : Expression.Locals) :
    Expression.Expression.step st c
      = match Expression.Expression.check c st.expect_var st.bracket_counter with
        | .error e => .error e
        | .ok (expect_var, bracket_counter) =>
          match Expression.Expression.reduce c st.nodes st.symbols with
          | .error e => .error e
          | .ok (nodes, symbols, skip) =>
            .ok { nodes := nodes,
                  symbols := if skip then symbols else c :: symbols,
                  expect_var := expect_var,
                  bracket_counter := bracket_counter } := by
  simp [Expression.Expression.step, h1, h2, h3, h4]

theorem operatorSymbols_not_operand {c : Char} (hc : c ∈ operatorSymbols) :
    c ≠ ' ' ∧ c ≠ '1' ∧ c ≠ '0' ∧ ¬ ('a' ≤ c ∧ c ≤ 'z') := by
  revert c; decide

theorem strategy_isSome_iff (c : Symbol) :
    (Expression.ParseNode.strategy c).isSome
      ↔ c ∈ [kAnd, kOr, kImpl, kRevImpl, kXor, kEq, kNand, kNor] := by
  constructor
  · intro h
    rcases ParseNode_strategy_isSome h with h | h | h | h | h | h | h | h <;> simp [h]
  · revert c; decide

theorem binaryCount_cons (top : Symbol) (symbols : List Symbol) :
    binaryCount (top :: symbols)
      = binaryCount symbols + (if (Expression.ParseNode.strategy top).isSome then 1 else 0) := by
  unfold binaryCount
  by_cases h : (Expression.ParseNode.strategy top).isSome <;> simp [List.filter_cons, h]

theorem reduce_suffix (character : Char) {nodes nodes' : List Node}
    {symbols symbols' : List Symbol} {skip : Bool}
    (h : Expression.Expression.reduce character nodes symbols = .ok (nodes', symbols', skip)) :
    symbols' <:+ symbols := by
  induction symbols generalizing nodes with
  | nil =>
    simp only [Expression.Expression.reduce, Except.ok.injEq, Prod.mk.injEq] at h
    rw [← h.2.1]
  | cons top symbols ih =>
    unfold Expression.Expression.reduce at h
    split_ifs at h with h1 h2 h3 h4
    · simp only [Except.ok.injEq, Prod.mk.injEq] at h; rw [← h.2.1]
    · simp only [Except.ok.injEq, Prod.mk.injEq] at h; rw [← h.2.1]
      exact List.suffix_cons _ _
    · simp only [Except.ok.injEq, Prod.mk.injEq] at h; rw [← h.2.1]
      exact List.suffix_cons _ _
    · simp only [Except.ok.injEq, Prod.mk.injEq] at h; rw [← h.2.1]
    · cases hp : Expression.ParseNode nodes (top :: symbols) with
      | error e => rw [hp] at h; simp at h
      | ok r =>
        obtain ⟨nodes1, symbols1⟩ := r
        rw [hp] at h
        exact (ih h).trans (List.suffix_cons _ _)

theorem reduce_left (nodes : List Node) (symbols : List Symbol) :
    Expression.Expression.reduce kLeftBracket nodes symbols = .ok (nodes, symbols, false) := by
  cases symbols <;> rfl

theorem Priority_neg {top : Symbol} (h : top ∈ operatorSymbols) (hn : top ≠ kNeg) :
    Expression.Priority top kNeg = -1 := by
  revert top; decide

theorem reduce_neg (nodes : List Node) (symbols : List Symbol)
    (hs : ∀ c ∈ symbols, c ∈ operatorSymbols) :
    Expression.Expression.reduce kNeg nodes symbols
      = match symbols with
        | [] => .ok (nodes, [], false)
        | top :: rest =>
          if top = kNeg then .ok (nodes, rest, true) else .ok (nodes, top :: rest, false) := by
  cases symbols with
  | nil => rfl
  | cons top rest =>
    by_cases h : top = kNeg
    · subst h; rfl
    · have hp := Priority_neg (hs top (by simp)) h
      have h1 : kNeg ≠ kLeftBracket := by decide
      have h2 : kNeg ≠ kRightBracket := by decide
      simp [Expression.Expression.reduce, h, hp, h1, h2]

theorem ParseNode_balanced {nodes : List Node} {top : Symbol} {symbols : List Symbol}
    (hn : nodes.length = binaryCount (top :: symbols) + 1) :
    ∃ nodes', Expression.ParseNode nodes (top :: symbols) = .ok (nodes', symbols) ∧
      nodes'.length = binaryCount symbols + 1 := by
  rw [binaryCount_cons] at hn
  unfold Expression.ParseNode
  simp only
  cases hs : Expression.ParseNode.strategy top with
  | some s =>
    simp only [hs, Option.isSome_some, if_true] at hn
    match nodes, hn with
    | a :: b :: rest, hn =>
      simp only
      by_cases hb : b.symbol = s.DisplaySign
      · obtain ⟨cs, rfl⟩ := symbol_eq_DisplaySign hb
        simp only [hb, if_true]
        exact ⟨_, rfl, by simp at hn ⊢; omega⟩
      · simp only [hb, if_false]
        exact ⟨_, rfl, by simp at hn ⊢; omega⟩
  | none =>
    simp only [hs, Option.isSome_none, Bool.false_eq_true, if_false, Nat.add_zero] at hn
    by_cases hneg : top = kNeg
    · simp only [hneg, if_true]
      match nodes, hn with
      | a :: rest, hn => exact ⟨_, rfl, by simpa using hn⟩
    · simp only [hneg, if_false]
      exact ⟨_, rfl, hn⟩

theorem reduce_balanced {character : Char}
    (hc : (Expression.ParseNode.strategy character).isSome ∨ character = kRightBracket)
    {nodes : List Node} {symbols : List Symbol} (hn : nodes.length = binaryCount symbols + 1) :
    ∃ nodes' symbols' skip,
      Expression.Expression.reduce character nodes symbols = .ok (nodes', symbols', skip) ∧
      nodes'.length = binaryCount symbols' + 1 ∧ (skip = true → character = kRightBracket) := by
  have hneg : character ≠ kNeg := by
    rcases hc with hc | hc
    · rcases ParseNode_strategy_isSome hc with h | h | h | h | h | h | h | h <;> rw [h] <;> decide
    · rw [hc]; decide
  induction symbols generalizing nodes with
  | nil => exact ⟨nodes, [], false, rfl, hn, by simp⟩
  | cons top symbols ih =>
    unfold Expression.Expression.reduce
    split_ifs with h1 h2 h3 h4
    · exact ⟨_, _, _, rfl, hn, by simp⟩
    · refine ⟨_, _, _, rfl, ?_, fun _ => h2.1⟩
      rw [binaryCount_cons, h2.2] at hn
      simpa using hn
    · exact absurd h3.1 hneg
    · exact ⟨_, _, _, rfl, hn, by simp⟩
    · obtain ⟨nodes1, hp, hn1⟩ := ParseNode_balanced hn
      rw [hp]
      exact ih hn1

theorem check_left (ev : Bool) (bc : Int) :
    Expression.Expression.check kLeftBracket ev bc
      = if ev then .ok (true, bc + 1) else .error (.UnexpectedSign "(") := by
  cases ev <;> rfl

theorem check_right (ev : Bool) (bc : Int) :
    Expression.Expression.check kRightBracket ev bc
      = if ev then .error (.UnexpectedSign ")") else .ok (false, bc - 1) := by
  cases ev <;> rfl

theorem check_neg (ev : Bool) (bc : Int) :
    Expression.Expression.check kNeg ev bc
      = if ev then .ok (true, bc) else .error (.UnexpectedSign "~") := by
  cases ev <;> rfl

theorem check_binary {c : Char} (hc : (Expression.ParseNode.strategy c).isSome) (ev : Bool)
    (bc : Int) :
    Expression.Expression.check c ev bc
      = if ev then .error (.UnexpectedSign "binary operation") else .ok (true, bc) := by
  rcases ParseNode_strategy_isSome hc with h | h | h | h | h | h | h | h <;> subst h <;>
    cases ev <;> rfl

theorem check_other {c : Char} (h1 : c ≠ kLeftBracket) (h2 : c ≠ kRightBracket) (h3 : c ≠ kNeg)
    (h4 : ¬ (Expression.ParseNode.strategy c).isSome) (ev : Bool) (bc : Int) :
    Expression.Expression.check c ev bc = .ok (ev, bc) := by
  simp only [Bool.not_eq_true, Option.not_isSome, Option.isNone_iff_eq_none] at h4
  simp [Expression.Expression.check, h1, h2, h3, h4]

theorem operatorSymbols_cases {c : Char} (hc : c ∈ operatorSymbols) :
    (Expression.ParseNode.strategy c).isSome ∨ c = kLeftBracket ∨ c = kRightBracket ∨
      c = kNeg := by
  revert c; decide

theorem binary_ne {c : Char} (hc : (Expression.ParseNode.strategy c).isSome) :
    c ∈ operatorSymbols ∧ c ≠ kLeftBracket ∧ c ≠ kRightBracket ∧ c ≠ kNeg := by
  rcases ParseNode_strategy_isSome hc with h | h | h | h | h | h | h | h <;> subst h <;> decide

/-- On a character of the grammar alphabet the parser keeps its invariant or throws the syntax
exception: it never reads an empty stack. -/
theorem step_balanced {st : Expression.Locals} {c : Char} (hc : grammarChar c)
    (hb : st.balanced) :
    (∃ st', Expression.Expression.step st c = .ok st' ∧ st'.balanced) ∨
      ∃ what, Expression.Expression.step st c = .error (.UnexpectedSign what) := by
  obtain ⟨nodes, symbols, ev, bc⟩ := st
  obtain ⟨hs, hch, hn⟩ := hb
  simp only at hs hch hn
  rcases hc with rfl | h0 | h1 | hv | hop
  · exact Or.inl ⟨_, step_space _, hs, hch, hn⟩
  · rw [step_constant (Or.inl h0)]
    cases ev
    · exact Or.inr ⟨_, rfl⟩
    · refine Or.inl ⟨_, rfl, hs, hch, ?_⟩
      simpa using hn
  · rw [step_constant (Or.inr h1)]
    cases ev
    · exact Or.inr ⟨_, rfl⟩
    · refine Or.inl ⟨_, rfl, hs, hch, ?_⟩
      simpa using hn
  · rw [step_variable hv]
    cases ev
    · exact Or.inr ⟨_, rfl⟩
    · refine Or.inl ⟨_, rfl, hs, hch, ?_⟩
      simpa using hn
  · obtain ⟨h1, h2, h3, h4⟩ := operatorSymbols_not_operand hop
    rw [step_other h1 h2 h3 h4]
    simp only
    rcases operatorSymbols_cases hop with hbin | rfl | rfl | rfl
    · rw [check_binary hbin]
      cases ev
      · obtain ⟨nodes', symbols', skip, hr, hn', hskip⟩ :=
          @reduce_balanced c (Or.inl hbin) nodes symbols (by simpa using hn)
        obtain ⟨-, -, hnr, hnn⟩ := binary_ne hbin
        have hsk : skip = false := by
          cases skip
          · rfl
          · exact absurd (hskip rfl) hnr
        subst hsk
        have hsuf := reduce_suffix c hr
        simp only [Bool.false_eq_true, if_false, hr]
        refine Or.inl ⟨_, rfl, ?_, ?_, ?_⟩
        · intro x hx
          rcases List.mem_cons.1 hx with rfl | hx
          · exact hop
          · exact hs x (hsuf.subset hx)
        · refine List.chain'_cons'.2 ⟨?_, hch.suffix hsuf⟩
          intro y _ h
          exact hnn h.1
        · simp only [binaryCount_cons, hbin, if_true]
          simpa using hn'
      · exact Or.inr ⟨_, rfl⟩
    · rw [check_left, reduce_left]
      cases ev
      · exact Or.inr ⟨_, rfl⟩
      · refine Or.inl ⟨_, rfl, ?_, ?_, ?_⟩
        · intro x hx
          rcases List.mem_cons.1 hx with rfl | hx
          · exact hop
          · exact hs x hx
        · refine List.chain'_cons'.2 ⟨?_, hch⟩
          intro y _ h
          exact absurd h.1 (by decide)
        · simpa [binaryCount_cons] using hn
    · rw [check_right]
      cases ev
      · obtain ⟨nodes', symbols', skip, hr, hn', -⟩ :=
          @reduce_balanced kRightBracket (Or.inr rfl) nodes symbols (by simpa using hn)
        have hsuf := reduce_suffix kRightBracket hr
        simp only [Bool.false_eq_true, if_false, hr]
        cases skip
        · refine Or.inl ⟨_, rfl, ?_, ?_, ?_⟩
          · intro x hx
            rcases List.mem_cons.1 hx with rfl | hx
            · exact hop
            · exact hs x (hsuf.subset hx)
          · refine List.chain'_cons'.2 ⟨?_, hch.suffix hsuf⟩
            intro y _ h
            exact absurd h.1 (by decide)
          · simpa [binaryCount_cons] using hn'
        · refine Or.inl ⟨_, rfl, ?_, hch.suffix hsuf, ?_⟩
          · intro x hx
            exact hs x (hsuf.subset hx)
          · simpa using hn'
      · exact Or.inr ⟨_, rfl⟩
    · rw [check_neg, reduce_neg nodes symbols hs]
      cases ev
      · exact Or.inr ⟨_, rfl⟩
      · cases symbols with
        | nil =>
          refine Or.inl ⟨_, rfl, ?_, ?_, ?_⟩
          · simpa using hop
          · simp
          · simpa [binaryCount_cons] using hn
        | cons top rest =>
          by_cases ht : top = kNeg
          · subst ht
            refine Or.inl ⟨⟨nodes, rest, true, bc⟩, by simp, ?_, ?_, ?_⟩
            · intro x hx
              exact hs x (by simp [hx])
            · exact hch.tail
            · simpa [binaryCount_cons] using hn
          · refine Or.inl ⟨⟨nodes, kNeg :: top :: rest, true, bc⟩, by simp [ht], ?_, ?_, ?_⟩
            · intro x hx
              rcases List.mem_cons.1 hx with rfl | hx
              · exact hop
              · exact hs x hx
            · refine List.chain'_cons'.2 ⟨?_, hch⟩
              intro y hy h
              simp only [List.head?_cons, Option.mem_def, Option.some.injEq] at hy
              exact ht (hy ▸ h.2)
            · simpa [binaryCount_cons] using hn

theorem scan_balanced {st : Expression.Locals} {string : List Char}
    (hc : ∀ c ∈ string, grammarChar c) (hb : st.balanced) :
    (∃ st', Expression.Expression.scan st string = .ok st' ∧ st'.balanced) ∨
      ∃ what, Expression.Expression.scan st string = .error (.UnexpectedSign what) := by
  induction string generalizing st with
  | nil => exact Or.inl ⟨st, rfl, hb⟩
  | cons c rest ih =>
    unfold Expression.Expression.scan
    rcases step_balanced (hc c (by simp)) hb with ⟨st1, h1, hb1⟩ | ⟨what, h1⟩
    · rw [h1]
      exact ih (fun x hx => hc x (by simp [hx])) hb1
    · rw [h1]
      exact Or.inr ⟨what, rfl⟩

theorem balanced_initial :
    Expression.Locals.balanced
      { nodes := [], symbols := [], expect_var := true, bracket_counter := 0 } :=
  ⟨by simp, by simp, rfl⟩

/-! ## The parser and the rule of section 4.1 -/

theorem Validator_step_other {c : Char} (h2 : c ≠ '1') (h3 : c ≠ '0')
    (h4 : ¬ ('a' ≤ c ∧ c ≤ 'z')) (e : Bool) (b : Int) :
    Validator.step e b c
      = match Expression.Expression.check c e b with
        | .error _ => none
        | .ok r => some r := by
  have h0 : ¬ (c = '0' ∨ c = '1' ∨ ('a' ≤ c ∧ c ≤ 'z')) := by
    rintro (h | h | h)
    · exact h3 h
    · exact h2 h
    · exact h4 h
  by_cases hbin : (Expression.ParseNode.strategy c).isSome
  · rw [check_binary hbin]
    have hm := (strategy_isSome_iff c).1 hbin
    unfold Validator.step
    rw [if_neg h0, if_pos hm]
    cases e <;> rfl
  · have hm : ¬ c ∈ [kAnd, kOr, kImpl, kRevImpl, kXor, kEq, kNand, kNor] :=
      fun h => hbin ((strategy_isSome_iff c).2 h)
    unfold Validator.step
    rw [if_neg h0, if_neg hm]
    by_cases hr : c = kRightBracket
    · subst hr
      rw [check_right]
      cases e <;> rfl
    · by_cases hl : c = kLeftBracket
      · subst hl
        rw [check_left]
        cases e <;> rfl
      · by_cases hn : c = kNeg
        · subst hn
          rw [check_neg]
          cases e <;> rfl
        · rw [check_other hl hr hn hbin]
          simp [hr, hl, hn]

theorem check_error {c : Char} {e : Bool} {b : Int} {err : Error}
    (h : Expression.Expression.check c e b = .error err) : ∃ what, err = .UnexpectedSign what := by
  unfold Expression.Expression.check at h
  split_ifs at h <;> cases h <;> exact ⟨_, rfl⟩

/-- A step of the parser that succeeds moves the flag and the bracket counter as the rule of
section 4.1 does. -/
theorem step_flags {st st' : Expression.Locals} {c : Char}
    (h : Expression.Expression.step st c = .ok st') :
    Validator.step st.expect_var st.bracket_counter c
      = some (st'.expect_var, st'.bracket_counter) := by
  obtain ⟨nodes, symbols, ev, bc⟩ := st
  by_cases hsp : c = ' '
  · subst hsp
    rw [step_space] at h
    cases h
    rfl
  by_cases hd : c = '0' ∨ c = '1'
  · rw [step_constant hd] at h
    cases ev
    · simp at h
    · simp only [if_true, Except.ok.injEq] at h
      subst h
      rcases hd with rfl | rfl <;> rfl
  by_cases hv : 'a' ≤ c ∧ c ≤ 'z'
  · rw [step_variable hv] at h
    cases ev
    · simp at h
    · simp only [if_true, Except.ok.injEq] at h
      subst h
      simp [Validator.step, hv]
  have h2 : c ≠ '1' := fun h => hd (Or.inr h)
  have h3 : c ≠ '0' := fun h => hd (Or.inl h)
  rw [step_other hsp h2 h3 hv] at h
  rw [Validator_step_other h2 h3 hv]
  simp only at h ⊢
  cases hc : Expression.Expression.check c ev bc with
  | error e => rw [hc] at h; simp at h
  | ok r =>
    obtain ⟨ev1, bc1⟩ := r
    rw [hc] at h
    simp only at h
    cases hr : Expression.Expression.reduce c nodes symbols with
    | error e => rw [hr] at h; simp at h
    | ok r =>
      obtain ⟨nodes1, symbols1, skip⟩ := r
      rw [hr] at h
      simp only [Except.ok.injEq] at h
      subst h
      rfl

/-- A character that violates the rule of section 4.1 makes the parser throw the syntax
exception, whatever the stacks hold. -/
theorem step_violation (st : Expression.Locals) {c : Char}
    (h : Validator.step st.expect_var st.bracket_counter c = none) :
    ∃ what, Expression.Expression.step st c = .error (.UnexpectedSign what) := by
  obtain ⟨nodes, symbols, ev, bc⟩ := st
  simp only at h
  by_cases hsp : c = ' '
  · subst hsp
    have hs : Validator.step ev bc ' ' = some (ev, bc) := rfl
    rw [hs] at h
    cases h
  by_cases hd : c = '0' ∨ c = '1'
  · rw [step_constant hd]
    cases ev
    · exact ⟨_, rfl⟩
    · have hs : Validator.step true bc c = some (false, bc) := by
        rcases hd with rfl | rfl <;> rfl
      rw [hs] at h
      cases h
  by_cases hv : 'a' ≤ c ∧ c ≤ 'z'
  · rw [step_variable hv]
    cases ev
    · exact ⟨_, rfl⟩
    · exact absurd h (by simp [Validator.step, hv])
  have h2 : c ≠ '1' := fun h => hd (Or.inr h)
  have h3 : c ≠ '0' := fun h => hd (Or.inl h)
  rw [step_other hsp h2 h3 hv]
  rw [Validator_step_other h2 h3 hv] at h
  simp only
  cases hc : Expression.Expression.check c ev bc with
  | error e =>
    obtain ⟨what, rfl⟩ := check_error hc
    exact ⟨what, rfl⟩
  | ok r => rw [hc] at h; simp at h

/-- When the parser reads a whole input that violates the rule of section 4.1, the flag is
still set or the bracket counter is not 0 at the end. -/
theorem scan_violated {st st' : Expression.Locals} {string : List Char}
    (hv : Validator.violated st.expect_var st.bracket_counter string = true)
    (h : Expression.Expression.scan st string = .ok st') :
    st'.expect_var = true ∨ st'.bracket_counter ≠ 0 := by
  induction string generalizing st with
  | nil =>
    cases h
    simpa [Validator.violated] using hv
  | cons c rest ih =>
    unfold Expression.Expression.scan at h
    cases hs : Expression.Expression.step st c with
    | error e => rw [hs] at h; simp at h
    | ok st1 =>
      rw [hs] at h
      have hf := step_flags hs
      unfold Validator.violated at hv
      rw [hf] at hv
      exact ih hv h

theorem close_violated {st : Expression.Locals}
    (h : st.expect_var = true ∨ st.bracket_counter ≠ 0) :
    Expression.Expression.close st = .error (.UnexpectedSign "end of line") := by
  unfold Expression.Expression.close
  rw [if_pos h]

theorem ParseNode_error {nodes : List Node} {symbols : List Symbol} {e : Error}
    (h : Expression.ParseNode nodes symbols = .error e) : e = .UndefinedBehaviour := by
  unfold Expression.ParseNode at h
  split at h
  · cases h; rfl
  · split at h
    · split at h
      · split at h
        · split at h
          · cases h
          · cases h; rfl
        · cases h
      · cases h; rfl
    · split at h
      · split at h
        · cases h
        · cases h; rfl
      · cases h

theorem reduce_error {character : Char} {nodes : List Node} {symbols : List Symbol} {e : Error}
    (h : Expression.Expression.reduce character nodes symbols = .error e) :
    e = .UndefinedBehaviour := by
  induction symbols generalizing nodes with
  | nil => cases h
  | cons top symbols ih =>
    unfold Expression.Expression.reduce at h
    split_ifs at h
    cases hp : Expression.ParseNode nodes (top :: symbols) with
    | error e' =>
      rw [hp] at h
      cases h
      exact ParseNode_error hp
    | ok r =>
      obtain ⟨nodes1, symbols1⟩ := r
      rw [hp] at h
      exact ih h

theorem step_error {st : Expression.Locals} {c : Char} {e : Error}
    (h : Expression.Expression.step st c = .error e) :
    (∃ what, e = .UnexpectedSign what) ∨ e = .UndefinedBehaviour := by
  unfold Expression.Expression.step at h
  split_ifs at h
  · cases h; exact Or.inl ⟨_, rfl⟩
  · cases h; exact Or.inl ⟨_, rfl⟩
  · cases hc : Expression.Expression.check c st.expect_var st.bracket_counter with
    | error e' =>
      rw [hc] at h
      cases h
      exact Or.inl (check_error hc)
    | ok r =>
      obtain ⟨ev, bc⟩ := r
      rw [hc] at h
      simp only at h
      cases hr : Expression.Expression.reduce c st.nodes st.symbols with
      | error e' =>
        rw [hr] at h
        cases h
        exact Or.inr (reduce_error hr)
      | ok r =>
        obtain ⟨nodes1, symbols1, skip⟩ := r
        rw [hr] at h
        cases h

theorem scan_error {st : Expression.Locals} {string : List Char} {e : Error}
    (h : Expression.Expression.scan st string = .error e) :
    (∃ what, e = .UnexpectedSign what) ∨ e = .UndefinedBehaviour := by
  induction string generalizing st with
  | nil => cases h
  | cons c rest ih =>
    unfold Expression.Expression.scan at h
    cases hs : Expression.Expression.step st c with
    | error e' =>
      rw [hs] at h
      cases h
      exact step_error hs
    | ok st1 =>
      rw [hs] at h
      exact ih h

/-! ## Double negation -/

theorem step_neg (nodes : List Node) (symbols : List Symbol) (bc : Int)
    (hs : ∀ c ∈ symbols, c ∈ operatorSymbols) :
    Expression.Expression.step ⟨nodes, symbols, true, bc⟩ kNeg
      = .ok ⟨nodes,
          (match symbols with
            | [] => [kNeg]
            | top :: rest => if top = kNeg then rest else kNeg :: top :: rest),
          true, bc⟩ := by
  have hop : kNeg ∈ operatorSymbols := by decide
  obtain ⟨h1, h2, h3, h4⟩ := operatorSymbols_not_operand hop
  rw [step_other h1 h2 h3 h4]
  simp only
  rw [check_neg, reduce_neg nodes symbols hs]
  cases symbols with
  | nil => rfl
  | cons top rest =>
    by_cases ht : top = kNeg
    · simp [ht]
    · simp [ht]

/-- Two adjacent negations leave the state of the parser unchanged. -/
theorem scan_neg_neg {st : Expression.Locals} (hb : st.balanced) (he : st.expect_var = true)
    (rest : List Char) :
    Expression.Expression.scan st (kNeg :: kNeg :: rest) = Expression.Expression.scan st rest := by
  obtain ⟨nodes, symbols, ev, bc⟩ := st
  obtain ⟨hs, hch, -⟩ := hb
  simp only at hs hch he
  subst he
  simp only [Expression.Expression.scan]
  rw [step_neg nodes symbols bc hs]
  simp only
  cases symbols with
  | nil => rfl
  | cons top tail =>
    by_cases ht : top = kNeg
    · subst ht
      simp only [if_true]
      rw [step_neg nodes tail bc (fun c hc => hs c (by simp [hc]))]
      cases tail with
      | nil => rfl
      | cons t2 r2 =>
        have h2 : t2 ≠ kNeg := fun h => (List.chain'_cons.1 hch).1 ⟨rfl, h⟩
        simp [h2]
    · simp only [if_neg ht]
      rw [step_neg nodes (kNeg :: top :: tail) bc (by
        intro c hc
        rcases List.mem_cons.1 hc with rfl | hc
        · decide
        · exact hs c hc)]
      simp

theorem scan_neg_error {st : Expression.Locals} (he : st.expect_var = false) (rest : List Char) :
    Expression.Expression.scan st (kNeg :: rest) = .error (.UnexpectedSign "~") := by
  obtain ⟨nodes, symbols, ev, bc⟩ := st
  simp only at he
  subst he
  rfl

/-! ## The parser on operators -/

theorem reduce_stop {c top : Symbol} (nodes : List Node) (symbols : List Symbol)
    (h1 : c ≠ kLeftBracket) (h2 : ¬ (c = kRightBracket ∧ top = kLeftBracket))
    (h3 : ¬ (c = kNeg ∧ top = kNeg)) (hp : Expression.Priority top c = -1) :
    Expression.Expression.reduce c nodes (top :: symbols) = .ok (nodes, top :: symbols, false) := by
  unfold Expression.Expression.reduce
  rw [if_neg h1, if_neg h2, if_neg h3, if_pos hp]

theorem reduce_continue {c top : Symbol} {nodes nodes' : List Node} {symbols : List Symbol}
    (h1 : c ≠ kLeftBracket) (h2 : ¬ (c = kRightBracket ∧ top = kLeftBracket))
    (h3 : ¬ (c = kNeg ∧ top = kNeg)) (hp : Expression.Priority top c ≠ -1)
    (hn : Expression.ParseNode nodes (top :: symbols) = .ok (nodes', symbols)) :
    Expression.Expression.reduce c nodes (top :: symbols)
      = Expression.Expression.reduce c nodes' symbols := by
  conv_lhs => unfold Expression.Expression.reduce
  rw [if_neg h1, if_neg h2, if_neg h3, if_neg hp, hn]

theorem ParseNode_new {top : Symbol} {s : Strategy} (a b : Node) (nodes : List Node)
    (symbols : List Symbol) (hs : Expression.ParseNode.strategy top = some s)
    (hb : b.symbol ≠ s.DisplaySign) :
    Expression.ParseNode (a :: b :: nodes) (top :: symbols)
      = .ok (.OperationNode s [a, b] :: nodes, symbols) := by
  unfold Expression.ParseNode
  simp only [hs, if_neg hb]

theorem ParseNode_flatten {top : Symbol} {s : Strategy} (a : Node) (cs nodes : List Node)
    (symbols : List Symbol) (hs : Expression.ParseNode.strategy top = some s) :
    Expression.ParseNode (a :: .OperationNode s cs :: nodes) (top :: symbols)
      = .ok (.OperationNode s (a :: cs) :: nodes, symbols) := by
  unfold Expression.ParseNode
  simp only [hs, Node.symbol, if_true]

theorem step_binary {o : Symbol} (ho : (Expression.ParseNode.strategy o).isSome)
    (nodes : List Node) (symbols : List Symbol) (bc : Int) :
    Expression.Expression.step ⟨nodes, symbols, false, bc⟩ o
      = match Expression.Expression.reduce o nodes symbols with
        | .error e => .error e
        | .ok (nodes, symbols, skip) =>
          .ok ⟨nodes, if skip then symbols else o :: symbols, true, bc⟩ := by
  obtain ⟨hop, -, -, -⟩ := binary_ne ho
  obtain ⟨h1, h2, h3, h4⟩ := operatorSymbols_not_operand hop
  rw [step_other h1 h2 h3 h4]
  simp only
  rw [check_binary ho]
  rfl

theorem step_binary_empty {o : Symbol} (ho : (Expression.ParseNode.strategy o).isSome)
    (nodes : List Node) (bc : Int) :
    Expression.Expression.step ⟨nodes, [], false, bc⟩ o = .ok ⟨nodes, [o], true, bc⟩ := by
  rw [step_binary ho]
  rfl

theorem step_binary_stop {o top : Symbol} (ho : (Expression.ParseNode.strategy o).isSome)
    (hp : Expression.Priority top o = -1) (nodes : List Node) (symbols : List Symbol)
    (bc : Int) :
    Expression.Expression.step ⟨nodes, top :: symbols, false, bc⟩ o
      = .ok ⟨nodes, o :: top :: symbols, true, bc⟩ := by
  obtain ⟨-, h1, h2, h3⟩ := binary_ne ho
  rw [step_binary ho, reduce_stop nodes symbols h1 (fun h => h2 h.1) (fun h => h3 h.1) hp]
  rfl

theorem step_binary_continue {o top : Symbol} (ho : (Expression.ParseNode.strategy o).isSome)
    (hp : Expression.Priority top o ≠ -1) {nodes nodes' : List Node} {symbols : List Symbol}
    (hn : Expression.ParseNode nodes (top :: symbols) = .ok (nodes', symbols)) (bc : Int) :
    Expression.Expression.step ⟨nodes, top :: symbols, false, bc⟩ o
      = Expression.Expression.step ⟨nodes', symbols, false, bc⟩ o := by
  obtain ⟨-, h1, h2, h3⟩ := binary_ne ho
  rw [step_binary ho, step_binary ho,
    reduce_continue h1 (fun h => h2 h.1) (fun h => h3 h.1) hp hn]

theorem step_left (nodes : List Node) (symbols : List Symbol) (bc : Int) :
    Expression.Expression.step ⟨nodes, symbols, true, bc⟩ kLeftBracket
      = .ok ⟨nodes, kLeftBracket :: symbols, true, bc + 1⟩ := by
  cases symbols <;> rfl

theorem step_right_match (nodes : List Node) (symbols : List Symbol) (bc : Int) :
    Expression.Expression.step ⟨nodes, kLeftBracket :: symbols, false, bc⟩ kRightBracket
      = .ok ⟨nodes, symbols, false, bc - 1⟩ := rfl

theorem step_right_continue {top : Symbol} (ht : top ≠ kLeftBracket)
    (hp : Expression.Priority top kRightBracket ≠ -1) {nodes nodes' : List Node}
    {symbols : List Symbol}
    (hn : Expression.ParseNode nodes (top :: symbols) = .ok (nodes', symbols)) (bc : Int) :
    Expression.Expression.step ⟨nodes, top :: symbols, false, bc⟩ kRightBracket
      = Expression.Expression.step ⟨nodes', symbols, false, bc⟩ kRightBracket := by
  have hop : kRightBracket ∈ operatorSymbols := by decide
  obtain ⟨h1, h2, h3, h4⟩ := operatorSymbols_not_operand hop
  rw [step_other h1 h2 h3 h4, step_other h1 h2 h3 h4]
  simp only
  rw [reduce_continue (by decide) (fun h => ht h.2) (fun h => absurd h.1 (by decide)) hp hn]

theorem scan_variable {v : Char} (hv : 'a' ≤ v ∧ v ≤ 'z') (nodes : List Node)
    (symbols : List Symbol) (bc : Int) (rest : List Char) :
    Expression.Expression.scan ⟨nodes, symbols, true, bc⟩ (v :: rest)
      = Expression.Expression.scan ⟨.VariableNode v :: nodes, symbols, false, bc⟩ rest := by
  simp only [Expression.Expression.scan]
  rw [step_variable hv]
  rfl

theorem scan_space (st : Expression.Locals) (rest : List Char) :
    Expression.Expression.scan st (' ' :: rest) = Expression.Expression.scan st rest := rfl

theorem scan_cons_ok {st st' : Expression.Locals} {c : Char}
    (h : Expression.Expression.step st c = .ok st') (rest : List Char) :
    Expression.Expression.scan st (c :: rest) = Expression.Expression.scan st' rest := by
  simp only [Expression.Expression.scan]
  rw [h]

theorem close_ok (nodes : List Node) (symbols : List Symbol) :
    Expression.Expression.close ⟨nodes, symbols, false, 0⟩
      = match Expression.Expression.finish nodes symbols with
        | .error e => .error e
        | .ok [] => .error .UndefinedBehaviour
        | .ok (top :: _) => .ok top := rfl

theorem finish_cons_ok {nodes nodes' : List Node} {top : Symbol} {symbols : List Symbol}
    (h : Expression.ParseNode nodes (top :: symbols) = .ok (nodes', symbols)) :
    Expression.Expression.finish nodes (top :: symbols)
      = Expression.Expression.finish nodes' symbols := by
  conv_lhs => unfold Expression.Expression.finish
  rw [h]

theorem VariableNode_symbol_ne (v : Char) (s : Strategy) :
    (Node.VariableNode v).symbol ≠ s.DisplaySign := by
  cases s <;> change kVariable ≠ _ <;> decide

theorem Priority_self {o : Symbol} (ho : (Expression.ParseNode.strategy o).isSome) :
    Expression.Priority o o = 0 := by
  have h : ∀ c ∈ [kAnd, kOr, kImpl, kRevImpl, kXor, kEq, kNand, kNor],
      Expression.Priority c c = 0 := by decide
  exact h o ((strategy_isSome_iff o).1 ho)

/-! ## Chains of one operator -/

theorem chainNode_of_two_le (s : Strategy) (acc : List Char) (h : 2 ≤ acc.length) :
    chainNode s acc = .OperationNode s (acc.map .VariableNode) := by
  match acc, h with
  | _ :: _ :: _, _ => rfl

theorem ParseNode_chain {op : Symbol} {s : Strategy}
    (hs : Expression.ParseNode.strategy op = some s) (v : Char) (acc : List Char)
    (hacc : acc ≠ []) (nodes : List Node) (symbols : List Symbol) :
    Expression.ParseNode (.VariableNode v :: chainNode s acc :: nodes) (op :: symbols)
      = .ok (chainNode s (v :: acc) :: nodes, symbols) := by
  match acc, hacc with
  | [x], _ => exact ParseNode_new _ _ _ _ hs (VariableNode_symbol_ne x s)
  | x :: y :: r, _ => exact ParseNode_flatten _ _ _ _ hs

theorem scan_chain_step {op : Symbol} {s : Strategy}
    (hs : Expression.ParseNode.strategy op = some s) {w : Char} (hw : 'a' ≤ w ∧ w ≤ 'z')
    (v : Char) (acc : List Char) (hacc : acc ≠ []) (rest : List Char) :
    Expression.Expression.scan ⟨[.VariableNode v, chainNode s acc], [op], false, 0⟩
        (' ' :: op :: ' ' :: w :: rest)
      = Expression.Expression.scan ⟨[.VariableNode w, chainNode s (v :: acc)], [op], false, 0⟩
        rest := by
  have ho : (Expression.ParseNode.strategy op).isSome := by rw [hs]; rfl
  have hstep : Expression.Expression.step ⟨[.VariableNode v, chainNode s acc], [op], false, 0⟩ op
      = .ok ⟨[chainNode s (v :: acc)], [op], true, 0⟩ := by
    rw [step_binary_continue ho (by rw [Priority_self ho]; decide)
      (ParseNode_chain hs v acc hacc [] []), step_binary_empty ho]
  rw [scan_space, scan_cons_ok hstep, scan_space, scan_variable hw]

theorem scan_chainRest {op : Symbol} {s : Strategy}
    (hs : Expression.ParseNode.strategy op = some s) (rest : List Char)
    (hv : ∀ x ∈ rest, 'a' ≤ x ∧ x ≤ 'z') (v : Char) (acc : List Char) (hacc : acc ≠ []) :
    (match Expression.Expression.scan ⟨[.VariableNode v, chainNode s acc], [op], false, 0⟩
        (chainRest op rest) with
      | .error e => Except.error e
      | .ok st => Expression.Expression.close st)
      = .ok (chainNode s (rest.reverse ++ v :: acc)) := by
  induction rest generalizing v acc with
  | nil =>
    simp only [chainRest, Expression.Expression.scan, close_ok, List.reverse_nil, List.nil_append]
    rw [finish_cons_ok (ParseNode_chain hs v acc hacc [] [])]
    rfl
  | cons w r ih =>
    simp only [chainRest]
    rw [scan_chain_step hs (hv w (by simp)) v acc hacc]
    rw [ih (fun x hx => hv x (by simp [hx])) w (v :: acc) (by simp)]
    simp

/-! ## Precedence -/

theorem Priority_tier {hi lo : Symbol} (hhi : (Expression.ParseNode.strategy hi).isSome)
    (hlo : (Expression.ParseNode.strategy lo).isSome) (ht : tier hi < tier lo) :
    Expression.Priority lo hi = -1 ∧ Expression.Priority hi lo ≠ -1 ∧ hi ≠ lo := by
  have h : ∀ x ∈ [kAnd, kOr, kImpl, kRevImpl, kXor, kEq, kNand, kNor],
      ∀ y ∈ [kAnd, kOr, kImpl, kRevImpl, kXor, kEq, kNand, kNor], tier x < tier y →
        Expression.Priority y x = -1 ∧ Expression.Priority x y ≠ -1 ∧ x ≠ y := by decide
  exact h hi ((strategy_isSome_iff hi).1 hhi) lo ((strategy_isSome_iff lo).1 hlo) ht

theorem Priority_bracket {o : Symbol} (ho : (Expression.ParseNode.strategy o).isSome) :
    Expression.Priority kLeftBracket o = -1 ∧ Expression.Priority o kRightBracket ≠ -1 := by
  have h : ∀ x ∈ [kAnd, kOr, kImpl, kRevImpl, kXor, kEq, kNand, kNor],
      Expression.Priority kLeftBracket x = -1 ∧ Expression.Priority x kRightBracket ≠ -1 := by
    decide
  exact h o ((strategy_isSome_iff o).1 ho)

theorem OperationNode_symbol_ne {hi lo : Symbol} {shi slo : Strategy}
    (hhi : Expression.ParseNode.strategy hi = some shi)
    (hlo : Expression.ParseNode.strategy lo = some slo) (hne : hi ≠ lo) (cs : List Node) :
    (Node.OperationNode shi cs).symbol ≠ slo.DisplaySign := by
  change shi.DisplaySign ≠ slo.DisplaySign
  rw [ParseNode_strategy_DisplaySign hhi, ParseNode_strategy_DisplaySign hlo]
  exact hne

/-! ## The variables of a parsed formula -/

theorem ParseNode_leaves {nodes nodes' : List Node} {symbols symbols' : List Symbol}
    (h : Expression.ParseNode nodes symbols = .ok (nodes', symbols')) :
    Node.leavesList nodes' = Node.leavesList nodes := by
  cases symbols with
  | nil => simp [Expression.ParseNode] at h
  | cons top symbols =>
    rcases (ParseNode_ok h).2 with ⟨s, a, cs, rest, -, rfl, rfl⟩ | ⟨s, a, b, rest, -, -, rfl, rfl⟩ |
      ⟨-, -, a, rest, rfl, rfl⟩ | ⟨-, -, rfl⟩
    · simp [Node.leavesList, Node.leaves]
    · simp [Node.leavesList, Node.leaves]
    · simp [Node.leavesList, Node.leaves]
    · rfl

theorem reduce_leaves (character : Char) {nodes nodes' : List Node}
    {symbols symbols' : List Symbol} {skip : Bool}
    (h : Expression.Expression.reduce character nodes symbols = .ok (nodes', symbols', skip)) :
    Node.leavesList nodes' = Node.leavesList nodes := by
  induction symbols generalizing nodes with
  | nil =>
    simp only [Expression.Expression.reduce, Except.ok.injEq, Prod.mk.injEq] at h
    rw [← h.1]
  | cons top symbols ih =>
    unfold Expression.Expression.reduce at h
    split_ifs at h with h1 h2 h3 h4
    · simp only [Except.ok.injEq, Prod.mk.injEq] at h; rw [← h.1]
    · simp only [Except.ok.injEq, Prod.mk.injEq] at h; rw [← h.1]
    · simp only [Except.ok.injEq, Prod.mk.injEq] at h; rw [← h.1]
    · simp only [Except.ok.injEq, Prod.mk.injEq] at h; rw [← h.1]
    · cases hp : Expression.ParseNode nodes (top :: symbols) with
      | error e => rw [hp] at h; simp at h
      | ok r =>
        obtain ⟨nodes1, symbols1⟩ := r
        rw [hp] at h
        rw [ih h, ParseNode_leaves hp]

theorem step_leaves {st st' : Expression.Locals} {character : Char}
    (hw : ∀ c ∈ Node.leavesList st.nodes, 'a' ≤ c ∧ c ≤ 'z')
    (h : Expression.Expression.step st character = .ok st') :
    ∀ c ∈ Node.leavesList st'.nodes, 'a' ≤ c ∧ c ≤ 'z' := by
  unfold Expression.Expression.step at h
  split_ifs at h with h1 h2 h3 h4 h5
  · cases h; exact hw
  · cases h
    simpa [Node.leavesList, Node.leaves] using hw
  · cases h
    intro c hc
    simp only [Node.leavesList, Node.leaves, List.singleton_append, List.mem_cons] at hc
    rcases hc with rfl | hc
    · exact h4
    · exact hw c hc
  · cases hc : Expression.Expression.check character st.expect_var st.bracket_counter with
    | error e => rw [hc] at h; simp at h
    | ok r =>
      obtain ⟨ev, bc⟩ := r
      rw [hc] at h
      simp only at h
      cases hr : Expression.Expression.reduce character st.nodes st.symbols with
      | error e => rw [hr] at h; simp at h
      | ok r =>
        obtain ⟨nodes1, symbols1, skip⟩ := r
        rw [hr] at h
        simp only [Except.ok.injEq] at h
        rw [← h]
        simp only
        rw [reduce_leaves character hr]
        exact hw

theorem scan_leaves {st st' : Expression.Locals} {string : List Char}
    (hw : ∀ c ∈ Node.leavesList st.nodes, 'a' ≤ c ∧ c ≤ 'z')
    (h : Expression.Expression.scan st string = .ok st') :
    ∀ c ∈ Node.leavesList st'.nodes, 'a' ≤ c ∧ c ≤ 'z' := by
  induction string generalizing st with
  | nil => cases h; exact hw
  | cons c rest ih =>
    unfold Expression.Expression.scan at h
    cases hs : Expression.Expression.step st c with
    | error e => rw [hs] at h; simp at h
    | ok st1 =>
      rw [hs] at h
      exact ih (step_leaves hw hs) h

theorem finish_leaves {nodes nodes' : List Node} {symbols : List Symbol}
    (h : Expression.Expression.finish nodes symbols = .ok nodes') :
    Node.leavesList nodes' = Node.leavesList nodes := by
  induction symbols generalizing nodes with
  | nil => cases h; rfl
  | cons top symbols ih =>
    unfold Expression.Expression.finish at h
    cases hp : Expression.ParseNode nodes (top :: symbols) with
    | error e => rw [hp] at h; simp at h
    | ok r =>
      obtain ⟨nodes1, symbols1⟩ := r
      rw [hp] at h
      rw [ih h, ParseNode_leaves hp]

/-- Every variable of a parsed tree is a letter `a` .. `z`. -/
theorem Expression_leaves {string : String} {expression_ : Node}
    (h : Expression.Expression string = .ok expression_) :
    ∀ c ∈ expression_.leaves, 'a' ≤ c ∧ c ≤ 'z' := by
  unfold Expression.Expression at h
  cases hs : Expression.Expression.scan
      { nodes := [], symbols := [], expect_var := true, bracket_counter := 0 } string.data with
  | error e => rw [hs] at h; simp at h
  | ok st =>
    rw [hs] at h
    simp only at h
    have hw : ∀ c ∈ Node.leavesList st.nodes, 'a' ≤ c ∧ c ≤ 'z' :=
      scan_leaves (fun c hc => absurd hc (by simp [Node.leavesList])) hs
    unfold Expression.Expression.close at h
    split_ifs at h
    cases hf : Expression.Expression.finish st.nodes st.symbols with
    | error e => rw [hf] at h; simp at h
    | ok nodes =>
      rw [hf] at h
      cases nodes with
      | nil => simp at h
      | cons top rest =>
        simp only [Except.ok.injEq] at h
        subst h
        intro c hc
        apply hw c
        rw [← finish_leaves hf]
        simp [Node.leavesList, hc]

theorem lowercase_sorted_length (l : List Char) (hs : l.Sorted (· < ·))
    (hl : ∀ c ∈ l, 'a' ≤ c ∧ c ≤ 'z') : l.length ≤ 26 := by
  have hn : (l.map Char.toNat).Nodup := by
    have hs' : (l.map Char.toNat).Sorted (· < ·) := by
      rw [List.Sorted, List.pairwise_map]
      exact hs.imp (fun {a b} hab => hab)
    exact hs'.nodup
  have hsub : (l.map Char.toNat).toFinset ⊆ Finset.Icc 97 122 := by
    intro n hn
    simp only [List.mem_toFinset, List.mem_map] at hn
    obtain ⟨c, hc, rfl⟩ := hn
    obtain ⟨h1, h2⟩ := hl c hc
    rw [Finset.mem_Icc]
    exact ⟨h1, h2⟩
  have hcard := Finset.card_le_card hsub
  rw [List.toFinset_card_of_nodup hn, List.length_map] at hcard
  simpa using hcard

/-! ## The end of the input -/

theorem finish_balanced {nodes : List Node} {symbols : List Symbol}
    (hn : nodes.length = binaryCount symbols + 1) :
    ∃ tree, Expression.Expression.finish nodes symbols = .ok [tree] := by
  induction symbols generalizing nodes with
  | nil =>
    match nodes, hn with
    | [tree], _ => exact ⟨tree, rfl⟩
  | cons top symbols ih =>
    obtain ⟨nodes1, hp, hn1⟩ := ParseNode_balanced hn
    rw [finish_cons_ok hp]
    exact ih hn1

/-! ## Characters outside the grammar alphabet -/

theorem Priority_scan_absent (a b : Symbol) (table : List Char)
    (h : ∀ entry ∈ table, entry ≠ Char.ofNat 0 → entry ≠ Char.ofNat 1 → b ≠ entry)
    (j a_priority : Nat) :
    Expression.Priority.scan a b table j a_priority 0 = 1 := by
  induction table generalizing j a_priority with
  | nil => rfl
  | cons entry rest ih =>
    have hrest : ∀ e ∈ rest, e ≠ Char.ofNat 0 → e ≠ Char.ofNat 1 → b ≠ e :=
      fun e he => h e (List.mem_cons_of_mem _ he)
    unfold Expression.Priority.scan
    by_cases h1 : entry = Char.ofNat 1
    · rw [if_pos h1]
    · rw [if_neg h1]
      by_cases h0 : entry = Char.ofNat 0
      · rw [if_pos h0]
        exact ih hrest _ _
      · rw [if_neg h0]
        have hb := h entry (List.mem_cons_self _ _) h0 h1
        simp only [if_neg hb, ne_eq, not_true_eq_false, and_false, if_false]
        exact ih hrest _ _

theorem Priority_foreign (top : Symbol) {c : Char} (hc : c ∉ operatorSymbols) :
    Expression.Priority top c = 1 := by
  have ht : ∀ entry ∈ Expression.priority, entry ≠ Char.ofNat 0 → entry ≠ Char.ofNat 1 →
      entry ∈ operatorSymbols := by decide
  exact Priority_scan_absent top c _
    (fun entry he h0 h1 hce => hc (hce ▸ ht entry he h0 h1)) 1 0

theorem reduce_foreign {c : Char} (hc : c ∉ operatorSymbols) (nodes : List Node)
    (symbols : List Symbol) :
    Expression.Expression.reduce c nodes symbols
      = match Expression.Expression.finish nodes symbols with
        | .error e => .error e
        | .ok nodes => .ok (nodes, [], false) := by
  have h1 : c ≠ kLeftBracket := fun h => hc (h ▸ by decide)
  have h2 : c ≠ kRightBracket := fun h => hc (h ▸ by decide)
  have h3 : c ≠ kNeg := fun h => hc (h ▸ by decide)
  induction symbols generalizing nodes with
  | nil => rfl
  | cons top symbols ih =>
    unfold Expression.Expression.reduce Expression.Expression.finish
    rw [if_neg h1, if_neg (fun h => h2 h.1), if_neg (fun h => h3 h.1),
      if_neg (by rw [Priority_foreign top hc]; decide)]
    cases Expression.ParseNode nodes (top :: symbols) with
    | error e => rfl
    | ok r => exact ih r.1

theorem strategy_foreign {c : Char} (hc : c ∉ operatorSymbols) :
    Expression.ParseNode.strategy c = none := by
  cases h : Expression.ParseNode.strategy c with
  | none => rfl
  | some s => exact absurd (binary_ne (by rw [h]; rfl)).1 hc

/-- A character outside the grammar alphabet passes every check, reduces the whole symbol stack
and is pushed on it. -/
theorem step_foreign {c : Char} (hc : ¬ grammarChar c) (st : Expression.Locals) :
    Expression.Expression.step st c
      = match Expression.Expression.finish st.nodes st.symbols with
        | .error e => .error e
        | .ok nodes => .ok ⟨nodes, [c], st.expect_var, st.bracket_counter⟩ := by
  have hop : c ∉ operatorSymbols := fun h => hc (Or.inr (Or.inr (Or.inr (Or.inr h))))
  have h1 : c ≠ ' ' := fun h => hc (Or.inl h)
  have h2 : c ≠ '1' := fun h => hc (Or.inr (Or.inr (Or.inl h)))
  have h3 : c ≠ '0' := fun h => hc (Or.inr (Or.inl h))
  have h4 : ¬ ('a' ≤ c ∧ c ≤ 'z') := fun h => hc (Or.inr (Or.inr (Or.inr (Or.inl h))))
  rw [step_other h1 h2 h3 h4]
  have hl : c ≠ kLeftBracket := fun h => hop (h ▸ by decide)
  have hr : c ≠ kRightBracket := fun h => hop (h ▸ by decide)
  have hn : c ≠ kNeg := fun h => hop (h ▸ by decide)
  rw [check_other hl hr hn (by rw [strategy_foreign hop]; simp), reduce_foreign hop]
  cases Expression.Expression.finish st.nodes st.symbols with
  | error e => rfl
  | ok nodes => rfl

theorem ParseNode_foreign {c : Char} (hc : c ∉ operatorSymbols) (nodes : List Node)
    (symbols : List Symbol) :
    Expression.ParseNode nodes (c :: symbols) = .ok (nodes, symbols) := by
  unfold Expression.ParseNode
  have hn : c ≠ kNeg := fun h => hc (h ▸ by decide)
  simp only [strategy_foreign hc, if_neg hn]

/-! ## Rendering -/

theorem joinWith_append_singleton (separator : List Char) (texts : List (List Char))
    (h : texts ≠ []) (text : List Char) :
    joinWith separator (texts ++ [text]) = joinWith separator texts ++ separator ++ text := by
  induction texts with
  | nil => exact absurd rfl h
  | cons t rest ih =>
    cases rest with
    | nil => rfl
    | cons t2 rest2 =>
      have ih' := ih (by simp)
      rw [List.cons_append] at ih'
      show t ++ separator ++ joinWith separator (t2 :: (rest2 ++ [text]))
        = t ++ separator ++ joinWith separator (t2 :: rest2) ++ separator ++ text
      rw [ih']
      simp only [List.append_assoc]

theorem StringChildren_eq (sign : Char) {children_ : List Node} {texts : List (List Char)}
    (h : List.Forall₂ (fun child text => child.String = .ok text) children_ texts)
    (hne : children_ ≠ []) :
    Node.StringChildren sign children_
      = .ok (joinWith [' ', sign, ' '] texts.reverse ++ [' ', sign, ' ']) := by
  induction h with
  | nil => exact absurd rfl hne
  | @cons child text rest texts' hc hrest ih =>
    cases hrest with
    | nil => simp [Node.StringChildren, hc, joinWith]
    | @cons c2 t2 r2 ts2 hc2 hr2 =>
      rw [Node.StringChildren, ih (by simp)]
      simp only [hc]
      rw [List.reverse_cons text, joinWith_append_singleton _ _ (by simp)]

/-! ## The Zhegalkin transform: the loops -/

theorem testBit_succ_flag (i j : Nat) :
    j.testBit i = (if (j + 1) % 2 ^ i = 0 then !(j + 1).testBit i else (j + 1).testBit i) := by
  have hb : 0 < 2 ^ i := Nat.two_pow_pos i
  rw [Nat.testBit_to_div_mod, Nat.testBit_to_div_mod, Nat.succ_div]
  by_cases hd : 2 ^ i ∣ j + 1
  · have hm : (j + 1) % 2 ^ i = 0 := Nat.mod_eq_zero_of_dvd hd
    simp only [hm, if_pos hd, if_true]
    rcases Nat.mod_two_eq_zero_or_one (j / 2 ^ i) with h | h <;>
      simp [h, Nat.add_mod]
  · have hm : (j + 1) % 2 ^ i ≠ 0 := fun h => hd (Nat.dvd_of_mod_eq_zero h)
    simp [hm, hd]

theorem read_of_lt {array : List Bool} {index : Nat} (h : index < array.length) :
    Expression.read array index = .ok (array.getD index false) := by
  unfold Expression.read
  rw [List.getElem?_eq_getElem h, List.getD_eq_getElem _ _ h]

theorem inner_eq (zhegalkin_ : List Bool) (i n j : Nat) (flag : Bool)
    (hj : j + n ≤ zhegalkin_.length)
    (hf : flag = (if j % 2 ^ i = 0 then !j.testBit i else j.testBit i)) :
    Expression.GenerateZhegalkin.inner zhegalkin_ i n j flag
      = .ok ((List.range' j n).map (Expression.GenerateZhegalkin.passAt zhegalkin_ i),
          if n = 0 then flag else (j + n - 1).testBit i) := by
  induction n generalizing j flag with
  | zero => rfl
  | succ n ih =>
    have hflag : (if j % 2 ^ i = 0 then !flag else flag) = j.testBit i := by
      rw [hf]
      by_cases h : j % 2 ^ i = 0 <;> simp [h]
    have hjl : j < zhegalkin_.length := by omega
    have hval : (if j.testBit i = true then
          (if j < 2 ^ i then (.error .UndefinedBehaviour : Except Error Bool)
           else
            match Expression.read zhegalkin_ j, Expression.read zhegalkin_ (j - 2 ^ i) with
            | .ok x, .ok y => .ok (x != y)
            | .error e, _ => .error e
            | _, .error e => .error e)
        else Expression.read zhegalkin_ j)
        = .ok (Expression.GenerateZhegalkin.passAt zhegalkin_ i j) := by
      unfold Expression.GenerateZhegalkin.passAt
      by_cases hb : j.testBit i = true
      · have hge : ¬ j < 2 ^ i := Nat.not_lt.2 (Nat.testBit_implies_ge hb)
        rw [if_pos hb, if_neg hge, if_pos hb, read_of_lt hjl,
          read_of_lt (Nat.lt_of_le_of_lt (Nat.sub_le _ _) hjl)]
      · rw [if_neg hb, if_neg hb, read_of_lt hjl]
    rw [Expression.GenerateZhegalkin.inner]
    simp only [hflag, hval]
    rw [ih (j + 1) (j.testBit i) (by omega) (testBit_succ_flag i j)]
    simp only [List.range'_succ, List.map_cons, Nat.succ_ne_zero, if_false]
    congr 2
    by_cases hn : n = 0
    · subst hn; simp
    · simp only [if_neg hn]
      congr 1
      omega

theorem pass_length (zhegalkin_ : List Bool) (i : Nat) :
    (Expression.GenerateZhegalkin.pass zhegalkin_ i).length = zhegalkin_.length := by
  simp [Expression.GenerateZhegalkin.pass]

theorem passes_length (n i : Nat) (zhegalkin_ : List Bool) :
    (Expression.GenerateZhegalkin.passes n i zhegalkin_).length = zhegalkin_.length := by
  induction n generalizing i zhegalkin_ with
  | zero => rfl
  | succ n ih => rw [Expression.GenerateZhegalkin.passes, ih, pass_length]

/-- One pass of the inner loop over an array of `2 ^ k` entries, started with the flag set:
the flag is bit `i` of `j` at every index, no read leaves the array, and the flag is set again
at the end. -/
theorem inner_pass {k i : Nat} (hi : i < k) {zhegalkin_ : List Bool}
    (hz : zhegalkin_.length = 2 ^ k) :
    Expression.GenerateZhegalkin.inner zhegalkin_ i (2 ^ k) 0 true
      = .ok (Expression.GenerateZhegalkin.pass zhegalkin_ i, true) := by
  rw [inner_eq zhegalkin_ i (2 ^ k) 0 true (by omega) (by simp)]
  have hp : 2 ^ k ≠ 0 := (Nat.two_pow_pos k).ne'
  simp only [if_neg hp, Nat.zero_add, Nat.testBit_two_pow_sub_one, hi, decide_True,
    Expression.GenerateZhegalkin.pass, hz, List.range_eq_range']

theorem outer_eq {k : Nat} (n i : Nat) (hni : i + n ≤ k) {zhegalkin_ : List Bool}
    (hz : zhegalkin_.length = 2 ^ k) :
    Expression.GenerateZhegalkin.outer (2 ^ k) n i zhegalkin_ true
      = .ok (Expression.GenerateZhegalkin.passes n i zhegalkin_) := by
  induction n generalizing i zhegalkin_ with
  | zero => rfl
  | succ n ih =>
    rw [Expression.GenerateZhegalkin.outer, inner_pass (by omega) hz]
    simp only [Expression.GenerateZhegalkin.passes]
    exact ih (i + 1) (by omega) (by rw [pass_length, hz])

/-! ## The Zhegalkin transform: the coefficients -/

theorem xorOver_append (f : Nat → Bool) (l₁ l₂ : List Nat) :
    xorOver f (l₁ ++ l₂) = xor (xorOver f l₁) (xorOver f l₂) := by
  induction l₁ with
  | nil => simp [xorOver]
  | cons m rest ih => simp [xorOver, ih, Bool.xor_assoc]

theorem xorOver_map (f : Nat → Bool) (g : Nat → Nat) (l : List Nat) :
    xorOver f (l.map g) = xorOver (fun m => f (g m)) l := by
  induction l with
  | nil => rfl
  | cons m rest ih => simp [xorOver, ih]

theorem xorOver_congr {f g : Nat → Bool} {l : List Nat} (h : ∀ m ∈ l, f m = g m) :
    xorOver f l = xorOver g l := by
  induction l with
  | nil => rfl
  | cons m rest ih =>
    simp only [xorOver]
    rw [h m (by simp), ih (fun x hx => h x (by simp [hx]))]

theorem xorOver_xor (f g : Nat → Bool) (l : List Nat) :
    xorOver (fun m => xor (f m) (g m)) l = xor (xorOver f l) (xorOver g l) := by
  induction l with
  | nil => rfl
  | cons m rest ih =>
    simp only [xorOver, ih]
    cases f m <;> cases g m <;> cases xorOver f rest <;> cases xorOver g rest <;> rfl

theorem and_eq_left_iff (n m : Nat) :
    n &&& m = n ↔ ∀ b, n.testBit b = true → m.testBit b = true := by
  constructor
  · intro h b hb
    rw [← h, Nat.testBit_and] at hb
    simp only [Bool.and_eq_true] at hb
    exact hb.2
  · intro h
    apply Nat.eq_of_testBit_eq
    intro b
    rw [Nat.testBit_and]
    cases hb : n.testBit b
    · rfl
    · simp [h b hb]

theorem testBit_two_pow_add {k m : Nat} (hm : m < 2 ^ k) (b : Nat) :
    (2 ^ k + m).testBit b = (decide (b = k) || m.testBit b) := by
  rcases Nat.lt_trichotomy b k with h | h | h
  · rw [Nat.testBit_two_pow_add_gt h]
    simp [Nat.ne_of_lt h]
  · subst h
    rw [Nat.testBit_two_pow_add_eq, Nat.testBit_lt_two_pow hm]
    simp
  · have h1 : 2 ^ k + m < 2 ^ b := by
      have : 2 ^ (k + 1) ≤ 2 ^ b := Nat.pow_le_pow_right (by decide) h
      rw [Nat.pow_succ] at this
      omega
    have h2 : m < 2 ^ b := by omega
    rw [Nat.testBit_lt_two_pow h1, Nat.testBit_lt_two_pow h2]
    simp [Nat.ne_of_gt h]

theorem submask_low {k n m : Nat} (hn : n < 2 ^ k) (hm : m < 2 ^ k) :
    (n &&& (2 ^ k + m) = n) ↔ (n &&& m = n) := by
  rw [and_eq_left_iff, and_eq_left_iff]
  constructor
  · intro h b hb
    have := h b hb
    rw [testBit_two_pow_add hm] at this
    have hk : b ≠ k := by
      rintro rfl
      rw [Nat.testBit_lt_two_pow hn] at hb
      cases hb
    simpa [hk] using this
  · intro h b hb
    rw [testBit_two_pow_add hm, h b hb]
    simp

theorem submask_high {k n m : Nat} (hn : n < 2 ^ k) (hm : m < 2 ^ k) :
    ((2 ^ k + n) &&& (2 ^ k + m) = 2 ^ k + n) ↔ (n &&& m = n) := by
  rw [and_eq_left_iff, and_eq_left_iff]
  constructor
  · intro h b hb
    have := h b (by rw [testBit_two_pow_add hn, hb]; simp)
    rw [testBit_two_pow_add hm] at this
    have hk : b ≠ k := by
      rintro rfl
      rw [Nat.testBit_lt_two_pow hn] at hb
      cases hb
    simpa [hk] using this
  · intro h b hb
    rw [testBit_two_pow_add hn] at hb
    rw [testBit_two_pow_add hm]
    by_cases hk : b = k
    · simp [hk]
    · simp only [hk, decide_False, Bool.false_or] at hb ⊢
      exact h b hb

theorem submask_cross {k n m : Nat} (hm : m < 2 ^ k) : ¬ ((2 ^ k + n) &&& m = 2 ^ k + n) := by
  intro h
  have : (2 ^ k + n) &&& m ≤ m := Nat.and_le_right
  omega

theorem submasks_low {k m : Nat} (hm : m < 2 ^ k) :
    submasks (2 ^ (k + 1)) m = submasks (2 ^ k) m := by
  unfold submasks
  rw [Nat.pow_succ, Nat.mul_two, List.range_add, List.filter_append, List.filter_map]
  have h : List.filter ((fun n => decide (n &&& m = n)) ∘ fun x => 2 ^ k + x)
      (List.range (2 ^ k)) = [] := by
    rw [List.filter_eq_nil_iff]
    intro n _
    simpa using submask_cross hm
  rw [h]
  simp

theorem submasks_high {k m : Nat} (hm : m < 2 ^ k) :
    submasks (2 ^ (k + 1)) (2 ^ k + m)
      = submasks (2 ^ k) m ++ (submasks (2 ^ k) m).map (fun n => 2 ^ k + n) := by
  unfold submasks
  rw [Nat.pow_succ, Nat.mul_two, List.range_add, List.filter_append, List.filter_map]
  congr 1
  · apply List.filter_congr
    intro n hn
    have hn' : n < 2 ^ k := List.mem_range.1 hn
    simp [submask_low hn' hm]
  · congr 1
    apply List.filter_congr
    intro n hn
    have hn' : n < 2 ^ k := List.mem_range.1 hn
    simp [submask_high hn' hm]

theorem mem_submasks_lt {bound i m : Nat} (h : m ∈ submasks bound i) : m < bound := by
  unfold submasks at h
  exact List.mem_range.1 (List.mem_filter.1 h).1

theorem pass_getD (zhegalkin_ : List Bool) (i : Nat) {j : Nat} (hj : j < zhegalkin_.length) :
    (Expression.GenerateZhegalkin.pass zhegalkin_ i).getD j false
      = Expression.GenerateZhegalkin.passAt zhegalkin_ i j := by
  unfold Expression.GenerateZhegalkin.pass
  rw [List.getD_eq_getElem _ _ (by simpa using hj)]
  simp

theorem passes_succ_last (n i : Nat) (zhegalkin_ : List Bool) :
    Expression.GenerateZhegalkin.passes (n + 1) i zhegalkin_
      = Expression.GenerateZhegalkin.pass (Expression.GenerateZhegalkin.passes n i zhegalkin_)
          (i + n) := by
  induction n generalizing i zhegalkin_ with
  | zero => rfl
  | succ n ih =>
    rw [Expression.GenerateZhegalkin.passes, ih (i + 1)]
    rw [show i + 1 + n = i + (n + 1) by omega]
    rfl

theorem pass_append {k i : Nat} (hi : i < k) {X Y : List Bool} (hX : X.length = 2 ^ k)
    (hY : Y.length = 2 ^ k) :
    Expression.GenerateZhegalkin.pass (X ++ Y) i
      = Expression.GenerateZhegalkin.pass X i ++ Expression.GenerateZhegalkin.pass Y i := by
  unfold Expression.GenerateZhegalkin.pass
  rw [List.length_append, List.range_add, List.map_append, List.map_map]
  congr 1
  · apply List.map_congr_left
    intro j hj
    have hj' : j < X.length := List.mem_range.1 hj
    unfold Expression.GenerateZhegalkin.passAt
    rw [List.getD_append _ _ _ _ hj',
      List.getD_append _ _ _ _ (Nat.lt_of_le_of_lt (Nat.sub_le _ _) hj')]
  · apply List.map_congr_left
    intro j hj
    have hj' : j < Y.length := List.mem_range.1 hj
    simp only [Function.comp]
    unfold Expression.GenerateZhegalkin.passAt
    rw [hX, Nat.testBit_two_pow_add_gt hi]
    rw [List.getD_append_right _ _ _ _ (by rw [hX]; omega), hX, Nat.add_sub_cancel_left]
    by_cases hb : j.testBit i = true
    · have hge : 2 ^ i ≤ j := Nat.testBit_implies_ge hb
      rw [if_pos hb, if_pos hb, List.getD_append_right _ _ _ _ (by rw [hX]; omega), hX]
      congr 2
      omega
    · rw [if_neg hb, if_neg hb]

theorem passes_append {k : Nat} (n i : Nat) (hni : i + n ≤ k) {X Y : List Bool}
    (hX : X.length = 2 ^ k) (hY : Y.length = 2 ^ k) :
    Expression.GenerateZhegalkin.passes n i (X ++ Y)
      = Expression.GenerateZhegalkin.passes n i X
        ++ Expression.GenerateZhegalkin.passes n i Y := by
  induction n generalizing i X Y with
  | zero => rfl
  | succ n ih =>
    simp only [Expression.GenerateZhegalkin.passes]
    rw [pass_append (by omega) hX hY]
    exact ih (i + 1) (by omega) (by rw [pass_length, hX]) (by rw [pass_length, hY])

theorem pass_top_low {k m : Nat} (hm : m < 2 ^ k) {A B : List Bool} (hA : A.length = 2 ^ k) :
    Expression.GenerateZhegalkin.passAt (A ++ B) k m = A.getD m false := by
  unfold Expression.GenerateZhegalkin.passAt
  rw [Nat.testBit_lt_two_pow hm]
  simp only [Bool.false_eq_true, if_false]
  exact List.getD_append _ _ _ _ (by rw [hA]; exact hm)

theorem pass_top_high {k m : Nat} (hm : m < 2 ^ k) {A B : List Bool} (hA : A.length = 2 ^ k) :
    Expression.GenerateZhegalkin.passAt (A ++ B) k (2 ^ k + m)
      = xor (B.getD m false) (A.getD m false) := by
  unfold Expression.GenerateZhegalkin.passAt
  rw [Nat.testBit_two_pow_add_eq, Nat.testBit_lt_two_pow hm]
  simp only [Bool.not_false, if_true, Nat.add_sub_cancel_left]
  rw [List.getD_append_right _ _ _ _ (by rw [hA]; omega), hA, Nat.add_sub_cancel_left,
    List.getD_append _ _ _ _ (by rw [hA]; exact hm)]

/-- The passes over all `k` dimensions turn a table of `2 ^ k` entries into its coefficient
table: each is the XOR of the other over the submasks of the index. -/
theorem passes_coefficients (k : Nat) :
    ∀ T : List Bool, T.length = 2 ^ k →
      (∀ i, i < 2 ^ k → T.getD i false
        = xorOver (fun m => (Expression.GenerateZhegalkin.passes k 0 T).getD m false)
            (submasks (2 ^ k) i)) ∧
      (∀ m, m < 2 ^ k → (Expression.GenerateZhegalkin.passes k 0 T).getD m false
        = xorOver (fun i => T.getD i false) (submasks (2 ^ k) m)) := by
  induction k with
  | zero =>
    intro T _
    constructor
    · intro i hi
      have : i = 0 := by simpa using hi
      subst this
      simp [Expression.GenerateZhegalkin.passes, submasks, xorOver, List.range_succ]
    · intro m hm
      have : m = 0 := by simpa using hm
      subst this
      simp [Expression.GenerateZhegalkin.passes, submasks, xorOver, List.range_succ]
  | succ k ih =>
    intro T hT
    have hpow : 2 ^ (k + 1) = 2 ^ k + 2 ^ k := by rw [Nat.pow_succ, Nat.mul_two]
    obtain ⟨X, Y, rfl, hX, hY⟩ : ∃ X Y : List Bool, T = X ++ Y ∧ X.length = 2 ^ k ∧
        Y.length = 2 ^ k := by
      refine ⟨T.take (2 ^ k), T.drop (2 ^ k), (List.take_append_drop _ _).symm, ?_, ?_⟩
      · rw [List.length_take, hT]; omega
      · rw [List.length_drop, hT]; omega
    obtain ⟨hXb, hXf⟩ := ih X hX
    obtain ⟨hYb, hYf⟩ := ih Y hY
    have hA : (Expression.GenerateZhegalkin.passes k 0 X).length = 2 ^ k := by
      rw [passes_length, hX]
    have hB : (Expression.GenerateZhegalkin.passes k 0 Y).length = 2 ^ k := by
      rw [passes_length, hY]
    have hZ : Expression.GenerateZhegalkin.passes (k + 1) 0 (X ++ Y)
        = Expression.GenerateZhegalkin.pass
            (Expression.GenerateZhegalkin.passes k 0 X
              ++ Expression.GenerateZhegalkin.passes k 0 Y) k := by
      rw [passes_succ_last, passes_append k 0 (by omega) hX hY, Nat.zero_add]
    have hZlow : ∀ m, m < 2 ^ k →
        (Expression.GenerateZhegalkin.passes (k + 1) 0 (X ++ Y)).getD m false
          = (Expression.GenerateZhegalkin.passes k 0 X).getD m false := by
      intro m hm
      rw [hZ, pass_getD _ _ (by rw [List.length_append, hA, hB]; omega), pass_top_low hm hA]
    have hZhigh : ∀ m, m < 2 ^ k →
        (Expression.GenerateZhegalkin.passes (k + 1) 0 (X ++ Y)).getD (2 ^ k + m) false
          = xor ((Expression.GenerateZhegalkin.passes k 0 Y).getD m false)
              ((Expression.GenerateZhegalkin.passes k 0 X).getD m false) := by
      intro m hm
      rw [hZ, pass_getD _ _ (by rw [List.length_append, hA, hB]; omega), pass_top_high hm hA]
    have hTlow : ∀ m, m < 2 ^ k → (X ++ Y).getD m false = X.getD m false := fun m hm =>
      List.getD_append _ _ _ _ (by rw [hX]; exact hm)
    have hThigh : ∀ m, (X ++ Y).getD (2 ^ k + m) false = Y.getD m false := by
      intro m
      rw [List.getD_append_right _ _ _ _ (by rw [hX]; omega), hX, Nat.add_sub_cancel_left]
    constructor
    · intro i hi
      by_cases hlow : i < 2 ^ k
      · rw [hTlow i hlow, submasks_low hlow, hXb i hlow]
        exact xorOver_congr (fun m hm => (hZlow m (mem_submasks_lt hm)).symm)
      · obtain ⟨i', rfl⟩ : ∃ i', i = 2 ^ k + i' := ⟨i - 2 ^ k, by omega⟩
        have hi' : i' < 2 ^ k := by omega
        rw [hThigh, submasks_high hi', xorOver_append, xorOver_map]
        rw [xorOver_congr (fun m hm => hZlow m (mem_submasks_lt hm)),
          xorOver_congr (fun m hm => hZhigh m (mem_submasks_lt hm)), xorOver_xor,
          ← hXb i' hi', ← hYb i' hi']
        cases X.getD i' false <;> cases Y.getD i' false <;> rfl
    · intro m hm
      by_cases hlow : m < 2 ^ k
      · rw [hZlow m hlow, submasks_low hlow, hXf m hlow]
        exact xorOver_congr (fun i hi => (hTlow i (mem_submasks_lt hi)).symm)
      · obtain ⟨m', rfl⟩ : ∃ m', m = 2 ^ k + m' := ⟨m - 2 ^ k, by omega⟩
        have hm' : m' < 2 ^ k := by omega
        rw [hZhigh m' hm', submasks_high hm', xorOver_append, xorOver_map]
        rw [xorOver_congr (fun i hi => hTlow i (mem_submasks_lt hi)),
          xorOver_congr (fun i _ => hThigh i), ← hXf m' hm', ← hYf m' hm']
        cases (Expression.GenerateZhegalkin.passes k 0 X).getD m' false <;>
          cases (Expression.GenerateZhegalkin.passes k 0 Y).getD m' false <;> rfl

/-! ## Aggregates built by `BuildOperationNode` -/

theorem allNodes_map_some (nodes : List Node) :
    Expression.allNodes (nodes.map some) = some nodes := by
  induction nodes with
  | nil => rfl
  | cons n rest ih => simp [Expression.allNodes, ih]

theorem BuildOperationNode_some (strategy : Strategy) {nodes : List Node} (h : nodes ≠ []) :
    Expression.BuildOperationNode (nodes.map some) strategy
      = .ok (some (aggregate strategy nodes)) := by
  match nodes, h with
  | [n], _ => rfl
  | n1 :: n2 :: rest, _ =>
    have := allNodes_map_some (n1 :: n2 :: rest)
    simp only [List.map_cons] at this
    simp only [Expression.BuildOperationNode, List.map_cons, this, aggregate]

theorem aggregate_value (vars : Vars) (strategy : Strategy) {nodes : List Node}
    (h : nodes ≠ []) :
    (aggregate strategy nodes).value vars = Node.valueChildren vars strategy nodes := by
  match nodes, h with
  | [n], _ => simp [aggregate, Node.valueChildren]
  | n1 :: n2 :: rest, _ => simp [aggregate, Node.value]

theorem aggregate_wellFormed (strategy : Strategy) {nodes : List Node} (h : nodes ≠ [])
    (hw : ∀ n ∈ nodes, n.wellFormed = true) : (aggregate strategy nodes).wellFormed = true := by
  match nodes, h, hw with
  | [n], _, hw => exact hw n (by simp)
  | n1 :: n2 :: rest, _, hw =>
    simp only [aggregate, Node.wellFormed, Bool.and_eq_true, decide_eq_true_eq,
      List.length_cons]
    exact ⟨by omega, (Node.wellFormedList_iff _).2 hw⟩

theorem aggregate_leaves (strategy : Strategy) {nodes : List Node} (h : nodes ≠ []) :
    (aggregate strategy nodes).leaves = Node.leavesList nodes := by
  match nodes, h with
  | [n], _ => simp [aggregate, Node.leavesList]
  | n1 :: n2 :: rest, _ => simp [aggregate, Node.leaves]

theorem mem_leavesList (x : Char) (nodes : List Node) :
    x ∈ Node.leavesList nodes ↔ ∃ n ∈ nodes, x ∈ n.leaves := by
  induction nodes with
  | nil => simp [Node.leavesList]
  | cons n rest ih => simp [Node.leavesList, ih]

theorem valueChildren_Or (vars : Vars) (nodes : List Node) :
    Node.valueChildren vars .Or nodes = nodes.any (fun n => n.value vars) := by
  induction nodes with
  | nil => rfl
  | cons n rest ih =>
    cases rest with
    | nil => simp [Node.valueChildren]
    | cons n2 rest2 =>
      rw [Node.valueChildren, ih]
      simp [Strategy.Calculate]

theorem valueChildren_And (vars : Vars) {nodes : List Node} (h : nodes ≠ []) :
    Node.valueChildren vars .And nodes = nodes.all (fun n => n.value vars) := by
  induction nodes with
  | nil => exact absurd rfl h
  | cons n rest ih =>
    cases rest with
    | nil => simp [Node.valueChildren]
    | cons n2 rest2 =>
      rw [Node.valueChildren, ih (by simp)]
      simp [Strategy.Calculate]

theorem valueChildren_Xor (vars : Vars) (nodes : List Node) :
    Node.valueChildren vars .Xor nodes
      = nodes.foldr (fun n acc => xor (n.value vars) acc) false := by
  induction nodes with
  | nil => rfl
  | cons n rest ih =>
    cases rest with
    | nil => simp [Node.valueChildren]
    | cons n2 rest2 =>
      rw [Node.valueChildren, ih]
      simp [Strategy.Calculate]

/-! ## Assignments and rows -/

theorem code_lt (flip : Bool) (variables_ : List Char) (vars : Vars) :
    Expression.code flip variables_ vars < 2 ^ variables_.length := by
  induction variables_ with
  | nil => simp [Expression.code]
  | cons v rest ih =>
    simp only [Expression.code, List.length_cons, Nat.pow_succ]
    have : (xor ((mapFind vars v).getD false) flip).toNat ≤ 1 := Bool.toNat_le _
    omega

theorem testBit_zero_bit (b : Bool) (n : Nat) : (b.toNat + 2 * n).testBit 0 = b := by
  rw [Nat.testBit_zero]
  cases b <;> simp [Nat.add_mod]

theorem bit_div_two (b : Bool) (n : Nat) : (b.toNat + 2 * n) / 2 = n := by
  have : b.toNat ≤ 1 := Bool.toNat_le _
  omega

theorem mapFind_row_code (flip : Bool) (variables_ : List Char) (vars : Vars) (x : Char)
    (hx : x ∈ variables_) :
    mapFind (Expression.row variables_ (Expression.code flip variables_ vars)) x
      = some (xor ((mapFind vars x).getD false) flip) := by
  induction variables_ with
  | nil => simp at hx
  | cons v rest ih =>
    simp only [Expression.code, Expression.row, mapFind, testBit_zero_bit, bit_div_two]
    by_cases hv : v = x
    · simp [hv]
    · rw [if_neg hv]
      rcases List.mem_cons.1 hx with h | h
      · exact absurd h.symm hv
      · exact ih h

/-- The value of a tree under a map that binds its variables is its value at the row of the
map. -/
theorem value_eq_row (expression_ : Node) (vars : Vars)
    (hb : ∀ c ∈ expression_.leaves, mapFind vars c ≠ none) :
    expression_.value vars
      = expression_.value (Expression.row (Expression.GenerateVariables expression_)
          (Expression.code false (Expression.GenerateVariables expression_) vars)) := by
  apply Node.value_congr
  intro c hc
  rw [mapFind_row_code false _ vars c ((mem_GenerateVariables expression_ c).2 hc)]
  cases h : mapFind vars c with
  | none => exact absurd h (hb c hc)
  | some b => simp

theorem table_getD (expression_ : Node) {i : Nat}
    (hi : i < 2 ^ (Expression.GenerateVariables expression_).length) :
    (Expression.table expression_).getD i false
      = expression_.value (Expression.row (Expression.GenerateVariables expression_) i) := by
  unfold Expression.table
  rw [List.getD_eq_getElem _ _ (by simpa using hi)]
  simp

theorem table_length (expression_ : Node) :
    (Expression.table expression_).length
      = 2 ^ (Expression.GenerateVariables expression_).length := by
  simp [Expression.table]

theorem GenerateTruthTable_table (expression_ : Node) (hw : expression_.wellFormed = true)
    (cin : List Bool) :
    Expression.GenerateTruthTable expression_ cin = .ok (Expression.table expression_) :=
  GenerateTruthTable_eq expression_ hw cin

/-! ## The literals of a clause, a minterm and a monomial -/

theorem shift_flag (i k : Nat) : ((i >>> k) &&& 1 ≠ 0) ↔ (i >>> k) % 2 = 1 := by
  rw [Nat.and_one_is_mod]
  omega

theorem shift_mod_pow_succ (i k n : Nat) :
    (i >>> k) % 2 ^ (n + 1) = (i >>> k) % 2 + 2 * ((i >>> (k + 1)) % 2 ^ n) := by
  rw [Nat.pow_succ, Nat.mul_comm, Nat.mod_mul, Nat.shiftRight_succ]

theorem literals_any (vars : Vars) (i : Nat) :
    ∀ (variables_ : List Char) (k : Nat) (vector : List Node),
      (Expression.literals i variables_ k vector).any (fun n => n.value vars)
        = (vector.any (fun n => n.value vars)
            || decide ((i >>> k) % 2 ^ variables_.length
                ≠ Expression.code false variables_ vars))
  | [], k, vector => by simp [Expression.literals, Expression.code, Nat.mod_one]
  | id :: rest, k, vector => by
    rw [Expression.literals, literals_any vars i rest (k + 1), List.length_cons,
      shift_mod_pow_succ, Expression.code, List.any_cons]
    have h2 : (i >>> k) % 2 < 2 := Nat.mod_lt _ (by decide)
    by_cases hf : (i >>> k) &&& 1 ≠ 0
    · have h1 := (shift_flag i k).1 hf
      rw [if_pos hf, h1]
      cases hv : (mapFind vars id).getD false <;>
        by_cases hr : (i >>> (k + 1)) % 2 ^ rest.length = Expression.code false rest vars <;>
        (simp [Node.value, hv, hr]; try omega)
    · have h1 : (i >>> k) % 2 = 0 := by
        have := (shift_flag i k).not.1 hf
        omega
      rw [if_neg hf, h1]
      cases hv : (mapFind vars id).getD false <;>
        by_cases hr : (i >>> (k + 1)) % 2 ^ rest.length = Expression.code false rest vars <;>
        (simp [Node.value, hv, hr]; try omega)

theorem literals_all (vars : Vars) (i : Nat) :
    ∀ (variables_ : List Char) (k : Nat) (vector : List Node),
      (Expression.literals i variables_ k vector).all (fun n => n.value vars)
        = (vector.all (fun n => n.value vars)
            && decide ((i >>> k) % 2 ^ variables_.length
                = Expression.code true variables_ vars))
  | [], k, vector => by simp [Expression.literals, Expression.code, Nat.mod_one]
  | id :: rest, k, vector => by
    rw [Expression.literals, literals_all vars i rest (k + 1), List.length_cons,
      shift_mod_pow_succ, Expression.code, List.all_cons]
    have h2 : (i >>> k) % 2 < 2 := Nat.mod_lt _ (by decide)
    by_cases hf : (i >>> k) &&& 1 ≠ 0
    · have h1 := (shift_flag i k).1 hf
      rw [if_pos hf, h1]
      cases hv : (mapFind vars id).getD false <;>
        by_cases hr : (i >>> (k + 1)) % 2 ^ rest.length = Expression.code true rest vars <;>
        (simp [Node.value, hv, hr]; try omega)
    · have h1 : (i >>> k) % 2 = 0 := by
        have := (shift_flag i k).not.1 hf
        omega
      rw [if_neg hf, h1]
      cases hv : (mapFind vars id).getD false <;>
        by_cases hr : (i >>> (k + 1)) % 2 ^ rest.length = Expression.code true rest vars <;>
        (simp [Node.value, hv, hr]; try omega)

theorem literals_length (i : Nat) :
    ∀ (variables_ : List Char) (k : Nat) (vector : List Node),
      (Expression.literals i variables_ k vector).length = variables_.length + vector.length
  | [], k, vector => by simp [Expression.literals]
  | id :: rest, k, vector => by
    rw [Expression.literals, literals_length i rest (k + 1)]
    simp only [List.length_cons]
    omega

theorem literals_ne_nil (i : Nat) {variables_ : List Char} (h : variables_ ≠ []) :
    Expression.literals i variables_ 0 [] ≠ [] := by
  intro he
  have := literals_length i variables_ 0 []
  rw [he] at this
  cases variables_ with
  | nil => exact h rfl
  | cons v rest => simp at this

theorem literals_wellFormed (i : Nat) :
    ∀ (variables_ : List Char) (k : Nat) (vector : List Node),
      (∀ n ∈ vector, n.wellFormed = true) →
      ∀ n ∈ Expression.literals i variables_ k vector, n.wellFormed = true
  | [], k, vector, h => by simpa [Expression.literals] using h
  | id :: rest, k, vector, h => by
    rw [Expression.literals]
    apply literals_wellFormed i rest (k + 1)
    intro n hn
    rcases List.mem_cons.1 hn with rfl | hn
    · split_ifs <;> simp [Node.wellFormed]
    · exact h n hn

theorem literals_leaves (i : Nat) (x : Char) :
    ∀ (variables_ : List Char) (k : Nat) (vector : List Node),
      x ∈ Node.leavesList (Expression.literals i variables_ k vector)
        ↔ x ∈ variables_ ∨ x ∈ Node.leavesList vector
  | [], k, vector => by simp [Expression.literals]
  | id :: rest, k, vector => by
    rw [Expression.literals, literals_leaves i x rest (k + 1)]
    by_cases hf : (i >>> k) &&& 1 ≠ 0
    · rw [if_pos hf]
      simp only [Node.leavesList, Node.leaves, List.mem_append, List.mem_singleton,
        List.mem_cons]
      tauto
    · rw [if_neg hf]
      simp only [Node.leavesList, Node.leaves, List.mem_append, List.mem_singleton,
        List.mem_cons]
      tauto

/-! ## The loops of `CNF` and `DNF` -/

theorem all_map_congr {α β : Type} (f : α → β) (p : β → Bool) (q : α → Bool) (l : List α)
    (h : ∀ r ∈ l, p (f r) = q r) : (l.map f).all p = l.all q := by
  induction l with
  | nil => rfl
  | cons a rest ih =>
    simp only [List.map_cons, List.all_cons]
    rw [h a (by simp), ih (fun r hr => h r (by simp [hr]))]

theorem any_map_congr {α β : Type} (f : α → β) (p : β → Bool) (q : α → Bool) (l : List α)
    (h : ∀ r ∈ l, p (f r) = q r) : (l.map f).any p = l.any q := by
  induction l with
  | nil => rfl
  | cons a rest ih =>
    simp only [List.map_cons, List.any_cons]
    rw [h a (by simp), ih (fun r hr => h r (by simp [hr]))]

theorem CNF_rows_eq (truth_table_ : List Bool) {variables_ : List Char}
    (hv : variables_ ≠ []) :
    ∀ (n i : Nat) (conjunct : List (Option Node)), i + n ≤ truth_table_.length →
      Expression.CNF.rows truth_table_ variables_ n i conjunct
        = .ok ((((List.range' i n).filter (fun r => truth_table_.getD r false == false)).reverse.map
            (fun r => some (aggregate .Or (Expression.literals r variables_ 0 []))))
            ++ conjunct)
  | 0, i, conjunct, _ => by simp [Expression.CNF.rows]
  | n + 1, i, conjunct, h => by
    rw [Expression.CNF.rows, read_of_lt (by omega)]
    simp only
    rw [BuildOperationNode_some .Or (literals_ne_nil i hv)]
    simp only
    rw [CNF_rows_eq truth_table_ hv n (i + 1) _ (by omega),
      CNF_rows_eq truth_table_ hv n (i + 1) _ (by omega), List.range'_succ, List.filter_cons]
    cases hval : truth_table_.getD i false
    · simp
    · simp

theorem DNF_rows_eq (truth_table_ : List Bool) {variables_ : List Char}
    (hv : variables_ ≠ []) :
    ∀ (n i : Nat) (disjunct : List (Option Node)), i + n ≤ truth_table_.length →
      Expression.DNF.rows truth_table_ variables_ n i disjunct
        = .ok ((((List.range' i n).filter (fun r => truth_table_.getD r false == true)).reverse.map
            (fun r => some (aggregate .And (Expression.literals r variables_ 0 []))))
            ++ disjunct)
  | 0, i, disjunct, _ => by simp [Expression.DNF.rows]
  | n + 1, i, disjunct, h => by
    rw [Expression.DNF.rows, read_of_lt (by omega)]
    simp only
    rw [BuildOperationNode_some .And (literals_ne_nil i hv)]
    simp only
    rw [DNF_rows_eq truth_table_ hv n (i + 1) _ (by omega),
      DNF_rows_eq truth_table_ hv n (i + 1) _ (by omega), List.range'_succ, List.filter_cons]
    cases hval : truth_table_.getD i false
    · simp
    · simp

theorem map_some_comp (g : Nat → Node) (l : List Nat) :
    l.map (fun r => some (g r)) = (l.map g).map some := by
  rw [List.map_map]
  rfl

theorem BuildOperationNode_map_some (strategy : Strategy) (fallback : Node)
    (nodes : List Node) :
    (match Expression.BuildOperationNode (nodes.map some) strategy with
      | .error e => (.error e : Except Error Node)
      | .ok (some result) => .ok result
      | .ok none => .ok fallback)
      = .ok (if nodes.isEmpty = true then fallback else aggregate strategy nodes) := by
  cases nodes with
  | nil => rfl
  | cons n rest => rw [BuildOperationNode_some strategy (by simp)]; simp

/-- The tree `CNF()` returns for a tree with at least one variable. -/
theorem CNF_eq (expression_ : Node) (hw : expression_.wellFormed = true)
    (hv : Expression.GenerateVariables expression_ ≠ []) (cin : List Bool) :
    Expression.CNF expression_ cin
      = .ok (if Expression.rowsWith false expression_ = []
          then .ConstNode true
          else aggregate .And ((Expression.rowsWith false expression_).reverse.map
              (fun r => aggregate .Or
                (Expression.literals r (Expression.GenerateVariables expression_) 0 [])))) := by
  unfold Expression.CNF
  rw [GenerateTruthTable_table expression_ hw cin]
  simp only
  rw [CNF_rows_eq _ hv _ 0 [] (by rw [table_length]; omega)]
  simp only [List.append_nil]
  rw [map_some_comp, BuildOperationNode_map_some]
  simp only [Expression.rowsWith, List.range_eq_range']
  by_cases hnil : List.filter (fun r => (Expression.table expression_).getD r false == false)
      (List.range' 0 (2 ^ (Expression.GenerateVariables expression_).length)) = []
  · simp [hnil]
  · simp [hnil]

/-- The tree `DNF()` returns for a tree with at least one variable. -/
theorem DNF_eq (expression_ : Node) (hw : expression_.wellFormed = true)
    (hv : Expression.GenerateVariables expression_ ≠ []) (cin : List Bool) :
    Expression.DNF expression_ cin
      = .ok (if Expression.rowsWith true expression_ = []
          then .ConstNode false
          else aggregate .Or ((Expression.rowsWith true expression_).reverse.map
              (fun r => aggregate .And
                (Expression.literals r (Expression.GenerateVariables expression_) 0 [])))) := by
  unfold Expression.DNF
  rw [GenerateTruthTable_table expression_ hw cin]
  simp only
  rw [DNF_rows_eq _ hv _ 0 [] (by rw [table_length]; omega)]
  simp only [List.append_nil]
  rw [map_some_comp, BuildOperationNode_map_some]
  simp only [Expression.rowsWith, List.range_eq_range']
  by_cases hnil : List.filter (fun r => (Expression.table expression_).getD r false == true)
      (List.range' 0 (2 ^ (Expression.GenerateVariables expression_).length)) = []
  · simp [hnil]
  · simp [hnil]

theorem mem_rowsWith (value : Bool) (expression_ : Node) (r : Nat) :
    r ∈ Expression.rowsWith value expression_
      ↔ r < 2 ^ (Expression.GenerateVariables expression_).length
        ∧ expression_.value (Expression.row (Expression.GenerateVariables expression_) r)
            = value := by
  unfold Expression.rowsWith
  rw [List.mem_filter, List.mem_range]
  constructor
  · rintro ⟨h1, h2⟩
    rw [table_getD expression_ h1] at h2
    exact ⟨h1, by simpa using h2⟩
  · rintro ⟨h1, h2⟩
    rw [table_getD expression_ h1]
    exact ⟨h1, by simpa using h2⟩

theorem clause_value (vars : Vars) {variables_ : List Char} (hv : variables_ ≠ [])
    {r : Nat} (hr : r < 2 ^ variables_.length) :
    (aggregate .Or (Expression.literals r variables_ 0 [])).value vars
      = decide (r ≠ Expression.code false variables_ vars) := by
  rw [aggregate_value vars .Or (literals_ne_nil r hv), valueChildren_Or, literals_any]
  simp [Nat.mod_eq_of_lt hr]

theorem minterm_value (vars : Vars) {variables_ : List Char} (hv : variables_ ≠ [])
    {r : Nat} (hr : r < 2 ^ variables_.length) :
    (aggregate .And (Expression.literals r variables_ 0 [])).value vars
      = decide (r = Expression.code true variables_ vars) := by
  rw [aggregate_value vars .And (literals_ne_nil r hv),
    valueChildren_And vars (literals_ne_nil r hv), literals_all]
  simp [Nat.mod_eq_of_lt hr]

/-- The conjunction of the clauses of the false rows is true exactly where the tree is. -/
theorem CNF_tree_value (expression_ : Node) (vars : Vars)
    (hv : Expression.GenerateVariables expression_ ≠ []) :
    (if Expression.rowsWith false expression_ = []
          then Node.ConstNode true
          else aggregate .And ((Expression.rowsWith false expression_).reverse.map
              (fun r => aggregate .Or
                (Expression.literals r (Expression.GenerateVariables expression_) 0 [])))).value
        vars
      = expression_.value (Expression.row (Expression.GenerateVariables expression_)
          (Expression.code false (Expression.GenerateVariables expression_) vars)) := by
  have hall : ∀ l : List Nat, (∀ r ∈ l, r < 2 ^ (Expression.GenerateVariables expression_).length) →
      (l.map (fun r => aggregate .Or
        (Expression.literals r (Expression.GenerateVariables expression_) 0 []))).all
          (fun n => n.value vars)
        = l.all (fun r => decide
            (r ≠ Expression.code false (Expression.GenerateVariables expression_) vars)) := by
    intro l hl
    exact all_map_congr _ _ _ l (fun r hr => clause_value vars hv (hl r hr))
  have hlt : ∀ r ∈ (Expression.rowsWith false expression_).reverse,
      r < 2 ^ (Expression.GenerateVariables expression_).length := fun r hr =>
    ((mem_rowsWith false expression_ r).1 (List.mem_reverse.1 hr)).1
  have hval : ∀ t : Node, t.value vars = ((Expression.rowsWith false expression_).reverse.map
      (fun r => aggregate .Or
        (Expression.literals r (Expression.GenerateVariables expression_) 0 []))).all
          (fun n => n.value vars) →
      t.value vars = expression_.value (Expression.row (Expression.GenerateVariables expression_)
          (Expression.code false (Expression.GenerateVariables expression_) vars)) := by
    intro t ht
    rw [ht, hall _ hlt]
    have hj := code_lt false (Expression.GenerateVariables expression_) vars
    cases hE : expression_.value (Expression.row (Expression.GenerateVariables expression_)
          (Expression.code false (Expression.GenerateVariables expression_) vars)) with
    | true =>
      rw [List.all_eq_true]
      intro r hr
      have := (mem_rowsWith false expression_ r).1 (List.mem_reverse.1 hr)
      simp only [ne_eq, decide_not, Bool.not_eq_true', decide_eq_false_iff_not]
      rintro rfl
      rw [hE] at this
      exact absurd this.2 (by simp)
    | false =>
      rw [List.all_eq_false]
      refine ⟨_, List.mem_reverse.2 ((mem_rowsWith false expression_ _).2 ⟨hj, hE⟩), ?_⟩
      simp
  split_ifs with hnil
  · apply hval
    rw [hnil]
    rfl
  · have hne : (Expression.rowsWith false expression_).reverse.map
        (fun r => aggregate .Or
          (Expression.literals r (Expression.GenerateVariables expression_) 0 [])) ≠ [] := by
      simpa using hnil
    apply hval
    rw [aggregate_value vars .And hne, valueChildren_And vars hne]

/-- The disjunction of the minterms of the true rows is true exactly where the tree is true at
the complemented row. -/
theorem DNF_tree_value (expression_ : Node) (vars : Vars)
    (hv : Expression.GenerateVariables expression_ ≠ []) :
    (if Expression.rowsWith true expression_ = []
          then Node.ConstNode false
          else aggregate .Or ((Expression.rowsWith true expression_).reverse.map
              (fun r => aggregate .And
                (Expression.literals r (Expression.GenerateVariables expression_) 0 [])))).value
        vars
      = expression_.value (Expression.row (Expression.GenerateVariables expression_)
          (Expression.code true (Expression.GenerateVariables expression_) vars)) := by
  have hany : ∀ l : List Nat, (∀ r ∈ l, r < 2 ^ (Expression.GenerateVariables expression_).length) →
      (l.map (fun r => aggregate .And
        (Expression.literals r (Expression.GenerateVariables expression_) 0 []))).any
          (fun n => n.value vars)
        = l.any (fun r => decide
            (r = Expression.code true (Expression.GenerateVariables expression_) vars)) := by
    intro l hl
    exact any_map_congr _ _ _ l (fun r hr => minterm_value vars hv (hl r hr))
  have hlt : ∀ r ∈ (Expression.rowsWith true expression_).reverse,
      r < 2 ^ (Expression.GenerateVariables expression_).length := fun r hr =>
    ((mem_rowsWith true expression_ r).1 (List.mem_reverse.1 hr)).1
  have hval : ∀ t : Node, t.value vars = ((Expression.rowsWith true expression_).reverse.map
      (fun r => aggregate .And
        (Expression.literals r (Expression.GenerateVariables expression_) 0 []))).any
          (fun n => n.value vars) →
      t.value vars = expression_.value (Expression.row (Expression.GenerateVariables expression_)
          (Expression.code true (Expression.GenerateVariables expression_) vars)) := by
    intro t ht
    rw [ht, hany _ hlt]
    have hj := code_lt true (Expression.GenerateVariables expression_) vars
    cases hE : expression_.value (Expression.row (Expression.GenerateVariables expression_)
          (Expression.code true (Expression.GenerateVariables expression_) vars)) with
    | false =>
      rw [List.any_eq_false]
      intro r hr
      have := (mem_rowsWith true expression_ r).1 (List.mem_reverse.1 hr)
      simp only [decide_eq_true_eq]
      rintro rfl
      rw [hE] at this
      exact absurd this.2 (by simp)
    | true =>
      rw [List.any_eq_true]
      refine ⟨_, List.mem_reverse.2 ((mem_rowsWith true expression_ _).2 ⟨hj, hE⟩), ?_⟩
      simp
  split_ifs with hnil
  · apply hval
    rw [hnil]
    rfl
  · have hne : (Expression.rowsWith true expression_).reverse.map
        (fun r => aggregate .And
          (Expression.literals r (Expression.GenerateVariables expression_) 0 [])) ≠ [] := by
      simpa using hnil
    apply hval
    rw [aggregate_value vars .Or hne, valueChildren_Or]

/-! ## Complemented assignments and the rows of the table -/

theorem mapFind_complement (vars : Vars) (c : Char) :
    mapFind (complement vars) c = (mapFind vars c).map (fun b => !b) := by
  induction vars with
  | nil => rfl
  | cons entry rest ih =>
    obtain ⟨key, second⟩ := entry
    simp only [complement, List.map_cons, mapFind]
    by_cases hk : key = c
    · simp [hk]
    · rw [if_neg hk, if_neg hk]
      exact ih

theorem code_congr (flip : Bool) (variables_ : List Char) (vars vars' : Vars)
    (h : ∀ v ∈ variables_, (mapFind vars v).getD false = (mapFind vars' v).getD false) :
    Expression.code flip variables_ vars = Expression.code flip variables_ vars' := by
  induction variables_ with
  | nil => rfl
  | cons v rest ih =>
    simp only [Expression.code]
    rw [h v (by simp), ih (fun x hx => h x (by simp [hx]))]

theorem code_complement (variables_ : List Char) (vars : Vars)
    (hb : ∀ v ∈ variables_, mapFind vars v ≠ none) :
    Expression.code false variables_ (complement vars) = Expression.code true variables_ vars := by
  induction variables_ with
  | nil => rfl
  | cons v rest ih =>
    simp only [Expression.code]
    rw [ih (fun x hx => hb x (by simp [hx])), mapFind_complement]
    cases hm : mapFind vars v with
    | none => exact absurd hm (hb v (by simp))
    | some b => cases b <;> rfl

theorem code_row (variables_ : List Char) (hs : variables_.Sorted (· < ·)) (j : Nat) :
    Expression.code false variables_ (Expression.row variables_ j)
      = j % 2 ^ variables_.length := by
  induction variables_ generalizing j with
  | nil => simp [Expression.code, Nat.mod_one]
  | cons v rest ih =>
    have hs' := List.sorted_cons.1 hs
    have hc : Expression.code false rest (Expression.row (v :: rest) j)
        = Expression.code false rest (Expression.row rest (j / 2)) := by
      apply code_congr
      intro x hx
      have hne : v ≠ x := fun he => absurd (hs'.1 x hx) (by rw [he]; exact lt_irrefl _)
      simp [Expression.row, mapFind, hne]
    have hm : j % 2 ^ (rest.length + 1) = j % 2 + 2 * (j / 2 % 2 ^ rest.length) := by
      rw [Nat.pow_succ, Nat.mul_comm, Nat.mod_mul]
    simp only [Expression.code, hc, ih hs'.2, List.length_cons]
    rw [hm]
    simp only [Expression.row, mapFind, if_true, Option.getD_some, Bool.xor_false,
      Nat.testBit_zero]
    rcases Nat.mod_two_eq_zero_or_one j with h | h <;> simp [h]

/-! ## The trees of `CNF` and `DNF` -/

theorem canonical_wellFormed (inner outer : Strategy) (fallback : Node)
    (hf : fallback.wellFormed = true) (rows : List Nat) {variables_ : List Char}
    (hv : variables_ ≠ []) :
    (if rows = [] then fallback
      else aggregate outer (rows.reverse.map
        (fun r => aggregate inner (Expression.literals r variables_ 0 [])))).wellFormed
      = true := by
  split_ifs with hnil
  · exact hf
  · apply aggregate_wellFormed outer (by simpa using hnil)
    intro n hn
    obtain ⟨r, -, rfl⟩ := List.mem_map.1 hn
    exact aggregate_wellFormed inner (literals_ne_nil r hv)
      (literals_wellFormed r variables_ 0 [] (by simp))

theorem canonical_leaves (inner outer : Strategy) (fallback : Node)
    (hf : fallback.leaves = []) (rows : List Nat) {variables_ : List Char}
    (hv : variables_ ≠ []) (x : Char) :
    (x ∈ (if rows = [] then fallback
      else aggregate outer (rows.reverse.map
        (fun r => aggregate inner (Expression.literals r variables_ 0 [])))).leaves
      → x ∈ variables_) ∧
    (rows ≠ [] → x ∈ variables_ →
      x ∈ (if rows = [] then fallback
        else aggregate outer (rows.reverse.map
          (fun r => aggregate inner (Expression.literals r variables_ 0 [])))).leaves) := by
  have hin : ∀ r, x ∈ (aggregate inner (Expression.literals r variables_ 0 [])).leaves
      ↔ x ∈ variables_ := by
    intro r
    rw [aggregate_leaves inner (literals_ne_nil r hv), literals_leaves]
    simp [Node.leavesList]
  split_ifs with hnil
  · rw [hf]
    exact ⟨fun h => absurd h (by simp), fun h => absurd hnil h⟩
  · rw [aggregate_leaves outer (by simpa using hnil), mem_leavesList]
    constructor
    · rintro ⟨n, hn, hx⟩
      obtain ⟨r, -, rfl⟩ := List.mem_map.1 hn
      exact (hin r).1 hx
    · intro _ hx
      obtain ⟨r, rest, hr⟩ := List.exists_cons_of_ne_nil hnil
      exact ⟨_, List.mem_map.2 ⟨r, by simp [hr], rfl⟩, (hin r).2 hx⟩

theorem sorted_ext {l₁ l₂ : List Char} (h₁ : l₁.Sorted (· < ·)) (h₂ : l₂.Sorted (· < ·))
    (h : ∀ x, x ∈ l₁ ↔ x ∈ l₂) : l₁ = l₂ :=
  List.eq_of_perm_of_sorted ((List.perm_ext_iff_of_nodup h₁.nodup h₂.nodup).2 h) h₁ h₂

theorem shift_flag_testBit (i k : Nat) : ((i >>> k) &&& 1 ≠ 0) ↔ i.testBit k = true := by
  rw [shift_flag, Nat.testBit_to_div_mod, Nat.shiftRight_eq_div_pow]
  simp

theorem literals_eq (i : Nat) :
    ∀ (variables_ : List Char) (k : Nat) (vector : List Node),
      Expression.literals i variables_ k vector
        = ((variables_.enumFrom k).map (fun entry =>
            if i.testBit entry.1 = true then Node.NegNode (.VariableNode entry.2)
            else .VariableNode entry.2)).reverse ++ vector
  | [], k, vector => by simp [Expression.literals]
  | id :: rest, k, vector => by
    rw [Expression.literals, literals_eq i rest (k + 1)]
    simp only [List.enumFrom_cons, List.map_cons, List.reverse_cons, List.append_assoc,
      List.singleton_append]
    by_cases hf : (i >>> k) &&& 1 ≠ 0
    · rw [if_pos hf, if_pos ((shift_flag_testBit i k).1 hf)]
    · rw [if_neg hf, if_neg (fun h => hf ((shift_flag_testBit i k).2 h))]

theorem code_add (variables_ : List Char) (vars : Vars) :
    Expression.code true variables_ vars + Expression.code false variables_ vars + 1
      = 2 ^ variables_.length := by
  induction variables_ with
  | nil => rfl
  | cons v rest ih =>
    simp only [Expression.code, List.length_cons, Nat.pow_succ]
    cases (mapFind vars v).getD false <;> simp <;> omega

theorem literals_Calculate (strategy : Strategy) {variables_ : List Char}
    (hv : variables_ ≠ []) (i j : Nat) (input : List Bool) :
    (aggregate strategy (Expression.literals i variables_ 0 [])).Calculate
        (Expression.row variables_ j) input
      = .ok ((aggregate strategy (Expression.literals i variables_ 0 [])).value
          (Expression.row variables_ j), Expression.row variables_ j, input) := by
  apply Node.Calculate_of_bound
  · exact aggregate_wellFormed strategy (literals_ne_nil i hv)
      (literals_wellFormed i variables_ 0 [] (by simp))
  · intro c hc
    rw [aggregate_leaves strategy (literals_ne_nil i hv), literals_leaves] at hc
    simp only [Node.leavesList, List.not_mem_nil, or_false] at hc
    exact mapFind_row_ne_none variables_ j c hc

/-! ## The loops of `Zhegalkin` -/

theorem and_bit_eq (a b : Bool) (m n : Nat) :
    ((a.toNat + 2 * m) &&& (b.toNat + 2 * n) = a.toNat + 2 * m)
      ↔ ((a = true → b = true) ∧ m &&& n = m) := by
  rw [and_eq_left_iff, and_eq_left_iff]
  constructor
  · intro h
    refine ⟨fun ha => ?_, fun t ht => ?_⟩
    · have := h 0
      rw [testBit_zero_bit, testBit_zero_bit] at this
      exact this ha
    · have := h (t + 1)
      rw [Nat.testBit_succ, Nat.testBit_succ, bit_div_two, bit_div_two] at this
      exact this ht
  · rintro ⟨h0, h1⟩ t ht
    cases t with
    | zero =>
      rw [testBit_zero_bit] at ht ⊢
      exact h0 ht
    | succ t =>
      rw [Nat.testBit_succ, bit_div_two] at ht ⊢
      exact h1 t ht

theorem conjunct_all (vars : Vars) (i : Nat) :
    ∀ (variables_ : List Char) (k : Nat) (conjunct : List Node),
      (Expression.Zhegalkin.conjunct i variables_ k conjunct).all (fun n => n.value vars)
        = (conjunct.all (fun n => n.value vars)
            && decide ((i >>> k) % 2 ^ variables_.length
                  &&& Expression.code false variables_ vars
                = (i >>> k) % 2 ^ variables_.length))
  | [], k, conjunct => by simp [Expression.Zhegalkin.conjunct, Expression.code, Nat.mod_one]
  | id :: rest, k, conjunct => by
    rw [Expression.Zhegalkin.conjunct, conjunct_all vars i rest (k + 1), List.length_cons,
      shift_mod_pow_succ, Expression.code, Bool.xor_false]
    by_cases hf : (i >>> k) &&& 1 ≠ 0
    · have h1 := (shift_flag i k).1 hf
      have hb := and_bit_eq true ((mapFind vars id).getD false)
        ((i >>> (k + 1)) % 2 ^ rest.length) (Expression.code false rest vars)
      simp only [Bool.toNat_true] at hb
      rw [if_pos hf, h1, List.all_cons]
      simp only [hb, Node.value, Bool.decide_and, forall_const, Bool.decide_eq_true]
      cases (mapFind vars id).getD false <;>
        cases List.all conjunct (fun n => n.value vars) <;> simp
    · have h1 : (i >>> k) % 2 = 0 := by
        have := (shift_flag i k).not.1 hf
        omega
      have hb := and_bit_eq false ((mapFind vars id).getD false)
        ((i >>> (k + 1)) % 2 ^ rest.length) (Expression.code false rest vars)
      simp only [Bool.toNat_false] at hb
      rw [if_neg hf, h1]
      simp only [hb, Bool.false_eq_true, false_implies, true_and]

theorem conjunct_ne_nil (i : Nat) :
    ∀ (variables_ : List Char) (k : Nat) (conjunct : List Node),
      conjunct ≠ [] ∨ (i >>> k) % 2 ^ variables_.length ≠ 0 →
      Expression.Zhegalkin.conjunct i variables_ k conjunct ≠ []
  | [], k, conjunct, h => by
    rcases h with h | h
    · simpa [Expression.Zhegalkin.conjunct] using h
    · simp [Nat.mod_one] at h
  | id :: rest, k, conjunct, h => by
    rw [Expression.Zhegalkin.conjunct]
    apply conjunct_ne_nil i rest (k + 1)
    by_cases hf : (i >>> k) &&& 1 ≠ 0
    · rw [if_pos hf]
      exact Or.inl (by simp)
    · rw [if_neg hf]
      have h1 : (i >>> k) % 2 = 0 := by
        have := (shift_flag i k).not.1 hf
        omega
      rcases h with h | h
      · exact Or.inl h
      · right
        rw [List.length_cons, shift_mod_pow_succ, h1] at h
        omega

theorem conjunct_eq_nil_iff (variables_ : List Char) {i : Nat}
    (hi : i < 2 ^ variables_.length) :
    Expression.Zhegalkin.conjunct i variables_ 0 [] = [] ↔ i = 0 := by
  constructor
  · intro h
    by_contra hne
    exact conjunct_ne_nil i variables_ 0 []
      (Or.inr (by rw [Nat.shiftRight_zero, Nat.mod_eq_of_lt hi]; exact hne)) h
  · rintro rfl
    have : ∀ (vs : List Char) (k : Nat), Expression.Zhegalkin.conjunct 0 vs k [] = [] := by
      intro vs
      induction vs with
      | nil => intro k; rfl
      | cons v rest ih =>
        intro k
        rw [Expression.Zhegalkin.conjunct]
        simpa using ih (k + 1)
    exact this variables_ 0

theorem conjunct_wellFormed (i : Nat) :
    ∀ (variables_ : List Char) (k : Nat) (conjunct : List Node),
      (∀ n ∈ conjunct, n.wellFormed = true) →
      ∀ n ∈ Expression.Zhegalkin.conjunct i variables_ k conjunct, n.wellFormed = true
  | [], k, conjunct, h => by simpa [Expression.Zhegalkin.conjunct] using h
  | id :: rest, k, conjunct, h => by
    rw [Expression.Zhegalkin.conjunct]
    apply conjunct_wellFormed i rest (k + 1)
    intro n hn
    split_ifs at hn
    · rcases List.mem_cons.1 hn with rfl | hn
      · rfl
      · exact h n hn
    · exact h n hn

theorem conjunct_leaves (i : Nat) (x : Char) :
    ∀ (variables_ : List Char) (k : Nat) (conjunct : List Node),
      x ∈ Node.leavesList (Expression.Zhegalkin.conjunct i variables_ k conjunct) →
      x ∈ variables_ ∨ x ∈ Node.leavesList conjunct
  | [], k, conjunct, h => by
    right
    simpa [Expression.Zhegalkin.conjunct] using h
  | id :: rest, k, conjunct, h => by
    rw [Expression.Zhegalkin.conjunct] at h
    rcases conjunct_leaves i x rest (k + 1) _ h with h | h
    · exact Or.inl (by simp [h])
    · split_ifs at h
      · simp only [Node.leavesList, Node.leaves, List.mem_append, List.mem_singleton,
          List.mem_cons, List.not_mem_nil, or_false] at h
        rcases h with h | h
        · exact Or.inl (by simp [h])
        · exact Or.inr h
      · exact Or.inr h

theorem monomial_value (vars : Vars) (variables_ : List Char) {r : Nat} (h1 : 1 ≤ r)
    (hr : r < 2 ^ variables_.length) :
    (aggregate .And (Expression.Zhegalkin.conjunct r variables_ 0 [])).value vars
      = decide (r &&& Expression.code false variables_ vars = r) := by
  have hne : Expression.Zhegalkin.conjunct r variables_ 0 [] ≠ [] := fun h =>
    absurd ((conjunct_eq_nil_iff variables_ hr).1 h) (by omega)
  rw [aggregate_value vars .And hne, valueChildren_And vars hne, conjunct_all]
  simp [Nat.mod_eq_of_lt hr]

theorem terms_eq (zhegalkin_ : List Bool) (variables_ : List Char)
    (hz : zhegalkin_.length = 2 ^ variables_.length) :
    ∀ (n i : Nat) (sum : List (Option Node)), sum ≠ [] → 1 ≤ i → i + n ≤ zhegalkin_.length →
      Expression.Zhegalkin.terms zhegalkin_ variables_ n i sum
        = .ok ((((List.range' i n).filter (fun r => zhegalkin_.getD r false)).reverse.map
            (fun r => some (aggregate .And (Expression.Zhegalkin.conjunct r variables_ 0 []))))
            ++ sum)
  | 0, i, sum, _, _, _ => by simp [Expression.Zhegalkin.terms]
  | n + 1, i, sum, hs, h1, h => by
    have hl : sum.length ≠ 0 := fun h0 => hs (List.length_eq_zero.1 h0)
    have hne : Expression.Zhegalkin.conjunct i variables_ 0 [] ≠ [] := fun h0 =>
      absurd ((conjunct_eq_nil_iff variables_ (by omega)).1 h0) (by omega)
    rw [Expression.Zhegalkin.terms, read_of_lt (by omega)]
    simp only [if_pos hl]
    rw [BuildOperationNode_some .And hne]
    simp only
    rw [terms_eq zhegalkin_ variables_ hz n (i + 1) _ (by simp) (by omega) (by omega),
      terms_eq zhegalkin_ variables_ hz n (i + 1) _ hs (by omega) (by omega),
      List.range'_succ, List.filter_cons]
    cases hval : zhegalkin_.getD i false
    · simp
    · simp

theorem terms_nil (zhegalkin_ : List Bool) (variables_ : List Char)
    (hz : zhegalkin_.length = 2 ^ variables_.length) :
    ∀ (n i : Nat), i + n ≤ zhegalkin_.length →
      Expression.Zhegalkin.terms zhegalkin_ variables_ n i []
        = .ok (match (List.range' i n).filter (fun r => zhegalkin_.getD r false) with
          | [] => []
          | _ :: rest => (rest.reverse.map (fun r => aggregate .And
              (Expression.Zhegalkin.conjunct r variables_ 0 [])) ++ [Node.ConstNode true]).map some)
  | 0, i, _ => by simp [Expression.Zhegalkin.terms]
  | n + 1, i, h => by
    rw [Expression.Zhegalkin.terms, read_of_lt (by omega)]
    simp only [List.length_nil, ne_eq, not_true_eq_false, if_false]
    rw [terms_nil zhegalkin_ variables_ hz n (i + 1) (by omega),
      terms_eq zhegalkin_ variables_ hz n (i + 1) _ (by simp) (by omega) (by omega),
      List.range'_succ, List.filter_cons]
    cases hval : zhegalkin_.getD i false
    · simp
    · simp [map_some_comp]

theorem GenerateZhegalkin_eq (expression_ : Node) (hw : expression_.wellFormed = true)
    (cin : List Bool) :
    Expression.GenerateZhegalkin expression_ cin
      = .ok (Expression.GenerateZhegalkin.passes (Expression.GenerateVariables expression_).length
          0 (Expression.table expression_)) := by
  unfold Expression.GenerateZhegalkin
  rw [GenerateTruthTable_table expression_ hw cin]
  exact outer_eq _ 0 (by omega) (table_length expression_)

/-- The tree `Zhegalkin()` returns. -/
theorem Zhegalkin_eq (expression_ : Node) (hw : expression_.wellFormed = true)
    (cin : List Bool) :
    Expression.Zhegalkin expression_ cin
      = .ok (Expression.Zhegalkin.tree (Expression.GenerateVariables expression_)
          ((List.range (2 ^ (Expression.GenerateVariables expression_).length)).filter
            (fun r => (Expression.GenerateZhegalkin.passes
              (Expression.GenerateVariables expression_).length 0
              (Expression.table expression_)).getD r false))) := by
  unfold Expression.Zhegalkin
  rw [GenerateZhegalkin_eq expression_ hw cin]
  simp only
  rw [terms_nil _ _ (by rw [passes_length, table_length]) _ 0
    (by rw [passes_length, table_length]; omega), List.range_eq_range']
  cases (List.range' 0 (2 ^ (Expression.GenerateVariables expression_).length)).filter
      (fun r => (Expression.GenerateZhegalkin.passes
        (Expression.GenerateVariables expression_).length 0
        (Expression.table expression_)).getD r false) with
  | nil => rfl
  | cons f rest =>
    simp only [Expression.Zhegalkin.tree]
    rw [BuildOperationNode_map_some]
    simp

/-! ## The tree of `Zhegalkin` -/

theorem xorOver_filter (f : Nat → Bool) (p : Nat → Bool) (l : List Nat) :
    xorOver f (l.filter p) = xorOver (fun m => p m && f m) l := by
  induction l with
  | nil => rfl
  | cons m rest ih =>
    rw [List.filter_cons]
    cases hp : p m
    · simp [xorOver, ih, hp]
    · simp [xorOver, ih, hp]

theorem xorOver_reverse (f : Nat → Bool) (l : List Nat) :
    xorOver f l.reverse = xorOver f l := by
  induction l with
  | nil => rfl
  | cons m rest ih =>
    rw [List.reverse_cons, xorOver_append, ih]
    simp only [xorOver, Bool.xor_false]
    exact Bool.xor_comm _ _

theorem foldr_xor_append (vars : Vars) (l₁ l₂ : List Node) :
    (l₁ ++ l₂).foldr (fun n acc => xor (n.value vars) acc) false
      = xor (l₁.foldr (fun n acc => xor (n.value vars) acc) false)
          (l₂.foldr (fun n acc => xor (n.value vars) acc) false) := by
  induction l₁ with
  | nil => simp
  | cons n rest ih => simp only [List.cons_append, List.foldr_cons, ih, Bool.xor_assoc]

theorem foldr_xor_map (vars : Vars) (g : Nat → Node) (l : List Nat) :
    (l.map g).foldr (fun n acc => xor (n.value vars) acc) false
      = xorOver (fun r => (g r).value vars) l := by
  induction l with
  | nil => rfl
  | cons m rest ih => simp only [List.map_cons, List.foldr_cons, ih, xorOver]

theorem submasks_zero {bound : Nat} (h : 0 < bound) : submasks bound 0 = [0] := by
  unfold submasks
  obtain ⟨n, rfl⟩ : ∃ n, bound = n + 1 := ⟨bound - 1, by omega⟩
  rw [List.range_eq_range', List.range'_succ, List.filter_cons]
  have hnil : (List.range' (0 + 1) n).filter (fun m => decide (m &&& 0 = m)) = [] := by
    rw [List.filter_eq_nil_iff]
    intro m hm
    have := (List.mem_range'_1.1 hm).1
    simp only [Nat.and_zero, decide_eq_true_eq]
    omega
  rw [hnil]
  simp

theorem Zhegalkin_tree_wellFormed (variables_ : List Char) :
    ∀ indices : List Nat, indices.Sorted (· < ·) →
      (∀ r ∈ indices, r < 2 ^ variables_.length) →
      (Expression.Zhegalkin.tree variables_ indices).wellFormed = true
  | [], _, _ => rfl
  | f :: rest, hs, hl => by
    rw [Expression.Zhegalkin.tree]
    apply aggregate_wellFormed .Xor (by simp)
    intro n hn
    rcases List.mem_append.1 hn with hn | hn
    · obtain ⟨r, hr, rfl⟩ := List.mem_map.1 hn
      have hr' : r ∈ rest := List.mem_reverse.1 hr
      have h1 : f < r := (List.sorted_cons.1 hs).1 r hr'
      have hne : Expression.Zhegalkin.conjunct r variables_ 0 [] ≠ [] := fun h0 =>
        absurd ((conjunct_eq_nil_iff variables_ (hl r (by simp [hr']))).1 h0) (by omega)
      exact aggregate_wellFormed .And hne (conjunct_wellFormed r variables_ 0 [] (by simp))
    · rw [List.mem_singleton.1 hn]
      rfl

theorem aggregate_leaves_subset (strategy : Strategy) (nodes : List Node) (x : Char)
    (h : x ∈ (aggregate strategy nodes).leaves) : x ∈ Node.leavesList nodes := by
  match nodes, h with
  | [], h => simpa [aggregate, Node.leaves] using h
  | [n], h => simpa [aggregate, Node.leavesList] using h
  | n1 :: n2 :: rest, h => simpa [aggregate, Node.leaves] using h

theorem Zhegalkin_tree_leaves (variables_ : List Char) (x : Char) :
    ∀ indices : List Nat, x ∈ (Expression.Zhegalkin.tree variables_ indices).leaves →
      x ∈ variables_
  | [], h => by simp [Expression.Zhegalkin.tree, Node.leaves] at h
  | f :: rest, h => by
    rw [Expression.Zhegalkin.tree] at h
    obtain ⟨n, hn, hx⟩ := (mem_leavesList x _).1 (aggregate_leaves_subset _ _ x h)
    rcases List.mem_append.1 hn with hn | hn
    · obtain ⟨r, -, rfl⟩ := List.mem_map.1 hn
      rcases conjunct_leaves r x variables_ 0 [] (aggregate_leaves_subset _ _ x hx) with h | h
      · exact h
      · simp [Node.leavesList] at h
    · rw [List.mem_singleton.1 hn] at hx
      simp [Node.leaves] at hx

theorem Zhegalkin_tree_value (vars : Vars) (variables_ : List Char) (rest : List Nat)
    (hs : (0 :: rest).Sorted (· < ·)) (hl : ∀ r ∈ rest, r < 2 ^ variables_.length) :
    (Expression.Zhegalkin.tree variables_ (0 :: rest)).value vars
      = xor true (xorOver
          (fun r => decide (r &&& Expression.code false variables_ vars = r)) rest) := by
  rw [Expression.Zhegalkin.tree, aggregate_value vars .Xor (by simp), valueChildren_Xor,
    foldr_xor_append, foldr_xor_map, xorOver_reverse]
  simp only [List.foldr_cons, List.foldr_nil, Node.value, Bool.xor_false]
  rw [Bool.xor_comm]
  congr 1
  apply xorOver_congr
  intro r hr
  exact monomial_value vars variables_ ((List.sorted_cons.1 hs).1 r hr) (hl r hr)

theorem coefficient_indices (expression_ : Node) :
    ((List.range (2 ^ (Expression.GenerateVariables expression_).length)).filter
        (fun r => (Expression.GenerateZhegalkin.passes
          (Expression.GenerateVariables expression_).length 0
          (Expression.table expression_)).getD r false)).Sorted (· < ·) ∧
    ∀ r ∈ (List.range (2 ^ (Expression.GenerateVariables expression_).length)).filter
        (fun r => (Expression.GenerateZhegalkin.passes
          (Expression.GenerateVariables expression_).length 0
          (Expression.table expression_)).getD r false),
      r < 2 ^ (Expression.GenerateVariables expression_).length :=
  ⟨(List.pairwise_lt_range _).filter _, fun _ hr => List.mem_range.1 (List.mem_filter.1 hr).1⟩

/-- When entry 0 of the table is true, the tree of `Zhegalkin()` has the value of the formula at
the row of the map. -/
theorem Zhegalkin_tree_correct (expression_ : Node) (vars : Vars)
    (h0 : (Expression.table expression_).getD 0 false = true) :
    (Expression.Zhegalkin.tree (Expression.GenerateVariables expression_)
      ((List.range (2 ^ (Expression.GenerateVariables expression_).length)).filter
        (fun r => (Expression.GenerateZhegalkin.passes
          (Expression.GenerateVariables expression_).length 0
          (Expression.table expression_)).getD r false))).value vars
      = expression_.value (Expression.row (Expression.GenerateVariables expression_)
          (Expression.code false (Expression.GenerateVariables expression_) vars)) := by
  have hpos : 0 < 2 ^ (Expression.GenerateVariables expression_).length := Nat.two_pow_pos _
  have hj := code_lt false (Expression.GenerateVariables expression_) vars
  obtain ⟨hc1, hc2⟩ := passes_coefficients (Expression.GenerateVariables expression_).length
    (Expression.table expression_) (table_length expression_)
  have hz0 : (Expression.GenerateZhegalkin.passes
      (Expression.GenerateVariables expression_).length 0
      (Expression.table expression_)).getD 0 false = true := by
    rw [hc2 0 hpos, submasks_zero hpos]
    simpa [xorOver] using h0
  obtain ⟨hs, hl⟩ := coefficient_indices expression_
  obtain ⟨n, hn⟩ : ∃ n, 2 ^ (Expression.GenerateVariables expression_).length = n + 1 :=
    ⟨_, (Nat.succ_pred_eq_of_pos hpos).symm⟩
  have hsplit : (List.range (2 ^ (Expression.GenerateVariables expression_).length)).filter
        (fun r => (Expression.GenerateZhegalkin.passes
          (Expression.GenerateVariables expression_).length 0
          (Expression.table expression_)).getD r false)
      = 0 :: (List.range' 1 n).filter
        (fun r => (Expression.GenerateZhegalkin.passes
          (Expression.GenerateVariables expression_).length 0
          (Expression.table expression_)).getD r false) := by
    rw [hn, List.range_eq_range', List.range'_succ, List.filter_cons, if_pos hz0]
  rw [← table_getD expression_ hj, hc1 _ hj]
  unfold submasks
  rw [xorOver_filter]
  have hswap : xorOver (fun m =>
        decide (m &&& Expression.code false (Expression.GenerateVariables expression_) vars = m)
          && (Expression.GenerateZhegalkin.passes
            (Expression.GenerateVariables expression_).length 0
            (Expression.table expression_)).getD m false)
        (List.range (2 ^ (Expression.GenerateVariables expression_).length))
      = xorOver (fun m =>
        decide (m &&& Expression.code false (Expression.GenerateVariables expression_) vars = m))
        ((List.range (2 ^ (Expression.GenerateVariables expression_).length)).filter
          (fun r => (Expression.GenerateZhegalkin.passes
            (Expression.GenerateVariables expression_).length 0
            (Expression.table expression_)).getD r false)) := by
    rw [xorOver_filter]
    exact xorOver_congr (fun m _ => Bool.and_comm _ _)
  rw [hswap]
  rw [hsplit] at hs hl ⊢
  rw [Zhegalkin_tree_value vars _ _ hs (fun r hr => hl r (List.mem_cons_of_mem _ hr))]
  simp [xorOver]

/-! ## Arity of the trees that are built -/

mutual
theorem Node.Calculate_ne_arity : ∀ (t : Node) (vars : Vars) (input : List Bool),
    t.wellFormed = true → t.Calculate vars input ≠ .error .InvalidArgumentCount
  | .ConstNode _, _, _, _ => by simp [Node.Calculate]
  | .VariableNode id_, vars, input, _ => by
    cases hf : mapFind vars id_ with
    | none => cases input <;> simp [Node.Calculate, hf]
    | some v => simp [Node.Calculate, hf]
  | .NegNode child_, vars, input, hw => by
    have ih := Node.Calculate_ne_arity child_ vars input (by simpa [Node.wellFormed] using hw)
    cases hr : child_.Calculate vars input with
    | error e =>
      rw [hr] at ih
      simpa [Node.Calculate, hr] using ih
    | ok r => simp [Node.Calculate, hr]
  | .OperationNode strategy_ children_, vars, input, hw => by
    simp only [Node.wellFormed, Bool.and_eq_true, decide_eq_true_eq] at hw
    have hlen : ¬ children_.length < 2 := by omega
    simp only [Node.Calculate, if_neg hlen]
    exact Node.CalculateChildren_ne_arity strategy_ children_ vars input hw.2
theorem Node.CalculateChildren_ne_arity : ∀ (strategy_ : Strategy) (cs : List Node)
    (vars : Vars) (input : List Bool), Node.wellFormedList cs = true →
    Node.CalculateChildren strategy_ cs vars input ≠ .error .InvalidArgumentCount
  | _, [], _, _, _ => by simp [Node.CalculateChildren]
  | _, [last], vars, input, hw => by
    simp only [Node.CalculateChildren]
    exact Node.Calculate_ne_arity last vars input (by simpa [Node.wellFormedList] using hw)
  | strategy_, child :: next :: rest, vars, input, hw => by
    simp only [Node.wellFormedList, Bool.and_eq_true] at hw
    have ih2 := Node.CalculateChildren_ne_arity strategy_ (next :: rest) vars input
      (by simp [Node.wellFormedList, hw.2])
    cases hr2 : Node.CalculateChildren strategy_ (next :: rest) vars input with
    | error e =>
      rw [hr2] at ih2
      simpa [Node.CalculateChildren, hr2] using ih2
    | ok r2 =>
      have ih1 := Node.Calculate_ne_arity child r2.2.1 r2.2.2 hw.1
      cases hr1 : child.Calculate r2.2.1 r2.2.2 with
      | error e =>
        rw [hr1] at ih1
        simpa [Node.CalculateChildren, hr2, hr1] using ih1
      | ok r1 => simp [Node.CalculateChildren, hr2, hr1]
end

theorem table_of_no_variables (expression_ : Node)
    (hv : Expression.GenerateVariables expression_ = []) :
    Expression.table expression_ = [expression_.value []] := by
  unfold Expression.table
  rw [hv]
  rfl

theorem CNF_of_no_variables (expression_ : Node) (hw : expression_.wellFormed = true)
    (hv : Expression.GenerateVariables expression_ = []) (cin : List Bool) :
    Expression.CNF expression_ cin = .ok (.ConstNode true) := by
  unfold Expression.CNF
  rw [GenerateTruthTable_table expression_ hw cin, table_of_no_variables expression_ hv, hv]
  cases expression_.value [] <;> rfl

theorem DNF_of_no_variables (expression_ : Node) (hw : expression_.wellFormed = true)
    (hv : Expression.GenerateVariables expression_ = []) (cin : List Bool) :
    Expression.DNF expression_ cin = .ok (.ConstNode false) := by
  unfold Expression.DNF
  rw [GenerateTruthTable_table expression_ hw cin, table_of_no_variables expression_ hv, hv]
  cases expression_.value [] <;> rfl

theorem CNF_wellFormed (expression_ : Node) (hw : expression_.wellFormed = true)
    (cin : List Bool) :
    ∃ cnf, Expression.CNF expression_ cin = .ok cnf ∧ cnf.wellFormed = true := by
  by_cases hv : Expression.GenerateVariables expression_ = []
  · exact ⟨_, CNF_of_no_variables expression_ hw hv cin, rfl⟩
  · exact ⟨_, CNF_eq expression_ hw hv cin,
      canonical_wellFormed .Or .And (.ConstNode true) rfl _ hv⟩

theorem DNF_wellFormed (expression_ : Node) (hw : expression_.wellFormed = true)
    (cin : List Bool) :
    ∃ dnf, Expression.DNF expression_ cin = .ok dnf ∧ dnf.wellFormed = true := by
  by_cases hv : Expression.GenerateVariables expression_ = []
  · exact ⟨_, DNF_of_no_variables expression_ hw hv cin, rfl⟩
  · exact ⟨_, DNF_eq expression_ hw hv cin,
      canonical_wellFormed .And .Or (.ConstNode false) rfl _ hv⟩

theorem Zhegalkin_wellFormed (expression_ : Node) (hw : expression_.wellFormed = true)
    (cin : List Bool) :
    ∃ polynomial, Expression.Zhegalkin expression_ cin = .ok polynomial
      ∧ polynomial.wellFormed = true :=
  ⟨_, Zhegalkin_eq expression_ hw cin,
    Zhegalkin_tree_wellFormed _ _ (coefficient_indices expression_).1
      (coefficient_indices expression_).2⟩

/-! ## The truth table of the tree of `CNF` -/

theorem rowsWith_eq_nil_iff (value : Bool) (expression_ : Node) :
    Expression.rowsWith value expression_ = [] ↔ value ∉ Expression.table expression_ := by
  constructor
  · intro h hm
    obtain ⟨r, hr, hget⟩ := List.getElem_of_mem hm
    have hr' : r < 2 ^ (Expression.GenerateVariables expression_).length := by
      rwa [table_length] at hr
    have : r ∈ Expression.rowsWith value expression_ := by
      unfold Expression.rowsWith
      rw [List.mem_filter, List.mem_range, List.getD_eq_getElem _ _ hr, hget]
      exact ⟨hr', by simp⟩
    rw [h] at this
    exact absurd this (by simp)
  · intro h
    unfold Expression.rowsWith
    rw [List.filter_eq_nil_iff]
    intro r hr hv
    have hr' : r < (Expression.table expression_).length := by
      rw [table_length]
      exact List.mem_range.1 hr
    rw [List.getD_eq_getElem _ _ hr'] at hv
    apply h
    have := List.getElem_mem hr'
    rwa [beq_iff_eq.1 hv] at this

theorem CNF_tree_variables (expression_ : Node)
    (hv : Expression.GenerateVariables expression_ ≠ [])
    (hf : Expression.rowsWith false expression_ ≠ []) :
    Expression.GenerateVariables
        (if Expression.rowsWith false expression_ = [] then Node.ConstNode true
          else aggregate .And ((Expression.rowsWith false expression_).reverse.map
            (fun r => aggregate .Or
              (Expression.literals r (Expression.GenerateVariables expression_) 0 []))))
      = Expression.GenerateVariables expression_ := by
  apply sorted_ext (GenerateVariables_sorted _) (GenerateVariables_sorted _)
  intro x
  rw [mem_GenerateVariables]
  exact ⟨(canonical_leaves .Or .And (.ConstNode true) rfl _ hv x).1,
    (canonical_leaves .Or .And (.ConstNode true) rfl _ hv x).2 hf⟩

theorem CNF_tree_table (expression_ : Node)
    (hv : Expression.GenerateVariables expression_ ≠ [])
    (hf : Expression.rowsWith false expression_ ≠ []) :
    Expression.table
        (if Expression.rowsWith false expression_ = [] then Node.ConstNode true
          else aggregate .And ((Expression.rowsWith false expression_).reverse.map
            (fun r => aggregate .Or
              (Expression.literals r (Expression.GenerateVariables expression_) 0 []))))
      = Expression.table expression_ := by
  unfold Expression.table
  rw [CNF_tree_variables expression_ hv hf]
  apply List.map_congr_left
  intro i hi
  rw [CNF_tree_value expression_ _ hv, code_row _ (GenerateVariables_sorted expression_),
    Nat.mod_eq_of_lt (List.mem_range.1 hi)]

/-! ## The claims -/

/-- C1, at the formula `0` (no variables): the formula parses to the constant `false`, yet
`CNF()` returns the constant `true`, so the two trees evaluate differently under every
assignment. The only row of the table is a false row whose clause is the empty disjunction;
`BuildOperationNode` returns null for it, and the null conjunction is replaced by `true`. -/
theorem CNF_of_constant_false :
    Expression.Expression "0" = .ok (.ConstNode false) ∧
    (∀ cin, Expression.CNF (.ConstNode false) cin = .ok (.ConstNode true)) ∧
    (∀ vars input, (Node.ConstNode false).Calculate vars input = .ok (false, vars, input)) ∧
    (∀ vars input, (Node.ConstNode true).Calculate vars input = .ok (true, vars, input)) :=
  ⟨rfl, fun _ => rfl, fun _ _ => rfl, fun _ _ => rfl⟩

/-- C2, at the formula `a & b`: `DNF()` returns the conjunction of the negated variables
`~b`, `~a`, not the minterm over the un-negated `a` and `b`. Under `a = b = true` the formula is
true and its DNF false; under `a = b = false` the formula is false and its DNF true. -/
theorem DNF_of_conjunction :
    Expression.Expression "a & b"
      = .ok (.OperationNode .And [.VariableNode 'b', .VariableNode 'a']) ∧
    (∀ cin, Expression.DNF (.OperationNode .And [.VariableNode 'b', .VariableNode 'a']) cin
      = .ok (.OperationNode .And [.NegNode (.VariableNode 'b'), .NegNode (.VariableNode 'a')])) ∧
    (∀ input, (Node.OperationNode .And [.VariableNode 'b', .VariableNode 'a']).Calculate
        [('a', true), ('b', true)] input = .ok (true, [('a', true), ('b', true)], input)) ∧
    (∀ input, (Node.OperationNode .And
        [.NegNode (.VariableNode 'b'), .NegNode (.VariableNode 'a')]).Calculate
        [('a', true), ('b', true)] input = .ok (false, [('a', true), ('b', true)], input)) ∧
    (∀ input, (Node.OperationNode .And [.VariableNode 'b', .VariableNode 'a']).Calculate
        [('a', false), ('b', false)] input = .ok (false, [('a', false), ('b', false)], input)) ∧
    (∀ input, (Node.OperationNode .And
        [.NegNode (.VariableNode 'b'), .NegNode (.VariableNode 'a')]).Calculate
        [('a', false), ('b', false)] input = .ok (true, [('a', false), ('b', false)], input)) :=
  ⟨rfl, fun _ => rfl, fun _ => rfl, fun _ => rfl, fun _ => rfl, fun _ => rfl⟩

/-- C3, at the formula `a & b`: the coefficient table is `[0, 0, 0, 1]`, whose only true
coefficient has mask 3, and `Zhegalkin()` returns the constant `true` instead of the monomial
`a AND b`, because the first term is emitted as `true` whenever `sum` is still empty. Under
`a = b = false` the formula is false and its Zhegalkin form true. -/
theorem Zhegalkin_of_conjunction :
    Expression.Expression "a & b"
      = .ok (.OperationNode .And [.VariableNode 'b', .VariableNode 'a']) ∧
    (∀ cin, Expression.GenerateZhegalkin
        (.OperationNode .And [.VariableNode 'b', .VariableNode 'a']) cin
      = .ok [false, false, false, true]) ∧
    (∀ cin, Expression.Zhegalkin (.OperationNode .And [.VariableNode 'b', .VariableNode 'a']) cin
      = .ok (.ConstNode true)) ∧
    (∀ input, (Node.OperationNode .And [.VariableNode 'b', .VariableNode 'a']).Calculate
        [('a', false), ('b', false)] input = .ok (false, [('a', false), ('b', false)], input)) ∧
    (∀ input, (Node.ConstNode true).Calculate
        [('a', false), ('b', false)] input = .ok (true, [('a', false), ('b', false)], input)) :=
  ⟨rfl, fun _ => rfl, fun _ => rfl, fun _ => rfl, fun _ => rfl⟩

/-- C4: for a parsed formula, `GenerateVariables` yields the distinct variables of the tree in
ascending order `v_0 < v_1 < ...` (at most 26 of them, so `1ULL << size_` and the `int` row
index do not overflow), `GenerateTruthTable` produces a table of exactly `2 ^ k` entries, and
entry `i` is the value of the tree under every assignment that sets `v_j` to bit `j` of `i`
(nothing is read from the input stream). The formula `a & b` gives `[0, 0, 0, 1]`. -/
theorem truth_table_enumeration (string : String) (expression_ : Node)
    (h : Expression.Expression string = .ok expression_) (cin : List Bool) :
    (Expression.GenerateVariables expression_).Sorted (· < ·) ∧
    (∀ id, id ∈ Expression.GenerateVariables expression_ ↔ id ∈ expression_.leaves) ∧
    (Expression.GenerateVariables expression_).length ≤ 26 ∧
    (∃ truth_table_, Expression.GenerateTruthTable expression_ cin = .ok truth_table_ ∧
      truth_table_.length = 2 ^ (Expression.GenerateVariables expression_).length ∧
      ∀ (i : Nat) (hi : i < truth_table_.length) (vars : Vars),
        (∀ (j : Nat) (hj : j < (Expression.GenerateVariables expression_).length),
          mapFind vars (Expression.GenerateVariables expression_)[j] = some (i.testBit j)) →
        ∀ input, expression_.Calculate vars input = .ok (truth_table_[i], vars, input)) ∧
    Expression.Expression "a & b"
      = .ok (.OperationNode .And [.VariableNode 'b', .VariableNode 'a']) ∧
    Expression.GenerateTruthTable (.OperationNode .And [.VariableNode 'b', .VariableNode 'a']) cin
      = .ok [false, false, false, true] := by
  have hw := Expression_wellFormed h
  refine ⟨GenerateVariables_sorted expression_, mem_GenerateVariables expression_,
    lowercase_sorted_length _ (GenerateVariables_sorted expression_)
      (fun c hc => Expression_leaves h c ((mem_GenerateVariables expression_ c).1 hc)),
    ?_, rfl, rfl⟩
  refine ⟨_, GenerateTruthTable_eq expression_ hw cin, by simp, ?_⟩
  intro i hi vars hvars input
  have hbound : ∀ c ∈ expression_.leaves, mapFind vars c ≠ none := by
    intro c hc
    obtain ⟨j, hj, rfl⟩ := List.getElem_of_mem ((mem_GenerateVariables expression_ c).2 hc)
    rw [hvars j hj]
    simp
  rw [Node.Calculate_of_bound expression_ vars input hw hbound]
  have hval : expression_.value vars
      = expression_.value (Expression.row (Expression.GenerateVariables expression_) i) := by
    apply Node.value_congr
    intro c hc
    obtain ⟨j, hj, rfl⟩ := List.getElem_of_mem ((mem_GenerateVariables expression_ c).2 hc)
    rw [hvars j hj, mapFind_row _ (GenerateVariables_sorted expression_) i j hj]
  simp [hval]

/-- C4 at the formula `a & b`. -/
theorem truth_table_enumeration_witness :
    Expression.Expression "a & b"
      = .ok (.OperationNode .And [.VariableNode 'b', .VariableNode 'a']) ∧
    ∃ truth_table_,
      Expression.GenerateTruthTable (.OperationNode .And [.VariableNode 'b', .VariableNode 'a']) []
        = .ok truth_table_ ∧
      truth_table_.length = 2 ^ (Expression.GenerateVariables
        (.OperationNode .And [.VariableNode 'b', .VariableNode 'a'])).length :=
  ⟨rfl, by
    obtain ⟨t, h1, h2, -⟩ := (truth_table_enumeration "a & b"
      (.OperationNode .And [.VariableNode 'b', .VariableNode 'a']) rfl []).2.2.2.1
    exact ⟨t, h1, h2⟩⟩

/-- C5, at the formula `a > b`: the tree is the `Impl` operation over the children `b`, `a`, and
the fold of `OperationNode::Calculate` applies the truth function as `f(b, a)`. Under `a = true`,
`b = false` the tree is true, while `(not a) or b` is false; under `a = false`, `b = true` the
tree is false, while `(not a) or b` is true. -/
theorem Impl_operands_swapped :
    Expression.Expression "a > b"
      = .ok (.OperationNode .Impl [.VariableNode 'b', .VariableNode 'a']) ∧
    (∀ input, (Node.OperationNode .Impl [.VariableNode 'b', .VariableNode 'a']).Calculate
        [('a', true), ('b', false)] input = .ok (true, [('a', true), ('b', false)], input)) ∧
    (!true || false) = false ∧
    (∀ input, (Node.OperationNode .Impl [.VariableNode 'b', .VariableNode 'a']).Calculate
        [('a', false), ('b', true)] input = .ok (false, [('a', false), ('b', true)], input)) ∧
    (!false || true) = true :=
  ⟨rfl, fun _ => rfl, rfl, fun _ => rfl, rfl⟩

/-- C6: for binary connectives `hi` and `lo` with `hi` in a strictly tighter-binding tier than
`lo`, and variables `a`, `b`, `c`: `a lo b hi c` and `a lo (b hi c)` parse to the same tree, the
`lo` node over the `hi` node of `c`, `b` and the leaf `a`; `a hi b lo c` and `(a hi b) lo c`
parse to the same tree, the `lo` node over the leaf `c` and the `hi` node of `b`, `a`. -/
theorem precedence_grouping (hi lo : Symbol) (shi slo : Strategy)
    (hhi : Expression.ParseNode.strategy hi = some shi)
    (hlo : Expression.ParseNode.strategy lo = some slo) (ht : tier hi < tier lo)
    (a b c : Char) (ha : 'a' ≤ a ∧ a ≤ 'z') (hb : 'a' ≤ b ∧ b ≤ 'z') (hc : 'a' ≤ c ∧ c ≤ 'z') :
    Expression.Expression (String.mk [a, ' ', lo, ' ', b, ' ', hi, ' ', c])
      = .ok (.OperationNode slo
          [.OperationNode shi [.VariableNode c, .VariableNode b], .VariableNode a]) ∧
    Expression.Expression (String.mk [a, ' ', lo, ' ', '(', b, ' ', hi, ' ', c, ')'])
      = .ok (.OperationNode slo
          [.OperationNode shi [.VariableNode c, .VariableNode b], .VariableNode a]) ∧
    Expression.Expression (String.mk [a, ' ', hi, ' ', b, ' ', lo, ' ', c])
      = .ok (.OperationNode slo
          [.VariableNode c, .OperationNode shi [.VariableNode b, .VariableNode a]]) ∧
    Expression.Expression (String.mk ['(', a, ' ', hi, ' ', b, ')', ' ', lo, ' ', c])
      = .ok (.OperationNode slo
          [.VariableNode c, .OperationNode shi [.VariableNode b, .VariableNode a]]) := by
  have ohi : (Expression.ParseNode.strategy hi).isSome := by rw [hhi]; rfl
  have olo : (Expression.ParseNode.strategy lo).isSome := by rw [hlo]; rfl
  obtain ⟨p1, p2, hne⟩ := Priority_tier ohi olo ht
  obtain ⟨p3, p4⟩ := Priority_bracket ohi
  have nhi : hi ≠ kLeftBracket := (binary_ne ohi).2.1
  refine ⟨?_, ?_, ?_, ?_⟩
  · unfold Expression.Expression
    simp only
    rw [scan_variable ha, scan_space, scan_cons_ok (step_binary_empty olo _ _), scan_space,
      scan_variable hb, scan_space, scan_cons_ok (step_binary_stop ohi p1 _ _ _), scan_space,
      scan_variable hc]
    simp only [Expression.Expression.scan, close_ok]
    rw [finish_cons_ok (ParseNode_new _ _ _ _ hhi (VariableNode_symbol_ne b shi)),
      finish_cons_ok (ParseNode_new _ _ _ _ hlo (VariableNode_symbol_ne a slo))]
    rfl
  · unfold Expression.Expression
    simp only
    rw [scan_variable ha, scan_space, scan_cons_ok (step_binary_empty olo _ _), scan_space,
      scan_cons_ok (step_left _ _ _), scan_variable hb, scan_space,
      scan_cons_ok (step_binary_stop ohi p3 _ _ _), scan_space, scan_variable hc]
    have hstep : Expression.Expression.step
        ⟨[.VariableNode c, .VariableNode b, .VariableNode a], [hi, kLeftBracket, lo], false,
          0 + 1⟩ kRightBracket
        = .ok ⟨[.OperationNode shi [.VariableNode c, .VariableNode b], .VariableNode a], [lo],
            false, 0 + 1 - 1⟩ := by
      rw [step_right_continue nhi p4
        (ParseNode_new _ _ _ _ hhi (VariableNode_symbol_ne b shi)), step_right_match]
    rw [scan_cons_ok hstep]
    simp only [Expression.Expression.scan]
    rw [show (0 : Int) + 1 - 1 = 0 from rfl, close_ok,
      finish_cons_ok (ParseNode_new _ _ _ _ hlo (VariableNode_symbol_ne a slo))]
    rfl
  · unfold Expression.Expression
    simp only
    have hstep : Expression.Expression.step
        ⟨[.VariableNode b, .VariableNode a], [hi], false, 0⟩ lo
        = .ok ⟨[.OperationNode shi [.VariableNode b, .VariableNode a]], [lo], true, 0⟩ := by
      rw [step_binary_continue olo p2
        (ParseNode_new _ _ _ _ hhi (VariableNode_symbol_ne a shi)), step_binary_empty olo]
    rw [scan_variable ha, scan_space, scan_cons_ok (step_binary_empty ohi _ _), scan_space,
      scan_variable hb, scan_space, scan_cons_ok hstep, scan_space, scan_variable hc]
    simp only [Expression.Expression.scan, close_ok]
    rw [finish_cons_ok (ParseNode_new _ _ _ _ hlo (OperationNode_symbol_ne hhi hlo hne _))]
    rfl
  · unfold Expression.Expression
    simp only
    have hstep : Expression.Expression.step
        ⟨[.VariableNode b, .VariableNode a], [hi, kLeftBracket], false, 0 + 1⟩ kRightBracket
        = .ok ⟨[.OperationNode shi [.VariableNode b, .VariableNode a]], [], false,
            0 + 1 - 1⟩ := by
      rw [step_right_continue nhi p4
        (ParseNode_new _ _ _ _ hhi (VariableNode_symbol_ne a shi)), step_right_match]
    rw [scan_cons_ok (step_left _ _ _), scan_variable ha, scan_space,
      scan_cons_ok (step_binary_stop ohi p3 _ _ _), scan_space, scan_variable hb,
      scan_cons_ok hstep, scan_space, show (0 : Int) + 1 - 1 = 0 from rfl,
      scan_cons_ok (step_binary_empty olo _ _), scan_space, scan_variable hc]
    simp only [Expression.Expression.scan, close_ok]
    rw [finish_cons_ok (ParseNode_new _ _ _ _ hlo (OperationNode_symbol_ne hhi hlo hne _))]
    rfl

/-- C6 at `hi = &`, `lo = V` and the variables `a`, `b`, `c`. -/
theorem precedence_grouping_witness :
    tier kAnd < tier kOr ∧
    Expression.Expression "a V b & c" = Expression.Expression "a V (b & c)" ∧
    Expression.Expression "a & b V c" = Expression.Expression "(a & b) V c" ∧
    Expression.Expression "a V b & c"
      = .ok (.OperationNode .Or
          [.OperationNode .And [.VariableNode 'c', .VariableNode 'b'], .VariableNode 'a']) :=
  have h := precedence_grouping kAnd kOr .And .Or rfl rfl (by decide) 'a' 'b' 'c'
    (by decide) (by decide) (by decide)
  ⟨by decide, h.1.trans h.2.1.symm, h.2.2.1.trans h.2.2.2.symm, h.1⟩

/-- The rule of section 4.1 on all inputs: an input that violates it (a variable or constant
while no operand is expected, a binary operator or `)` while an operand is expected, a `(` or `~` while no
operand is expected, or the end of the input while an operand is expected or with a bracket
counter other than 0) produces no tree: the constructor throws the syntax exception
`UnexpectedSign`, unless the run reads an empty stack before it meets the violation. Inputs over
the grammar alphabet never read an empty stack, so for them the exception is always thrown. In
particular `a b`, `&a`, `(a`, `a)`, the empty input and `)(` are rejected with it. -/
theorem syntax_error_on_violation (string : String)
    (hv : Validator.violated true 0 string.data = true) :
    ((∃ what, Expression.Expression string = .error (.UnexpectedSign what)) ∨
      Expression.Expression string = .error .UndefinedBehaviour) ∧
    ((∀ c ∈ string.data, grammarChar c) →
      ∃ what, Expression.Expression string = .error (.UnexpectedSign what)) ∧
    Expression.Expression "a b" = .error (.UnexpectedSign "variable") ∧
    Expression.Expression "&a" = .error (.UnexpectedSign "binary operation") ∧
    Expression.Expression "(a" = .error (.UnexpectedSign "end of line") ∧
    Expression.Expression "a)" = .error (.UnexpectedSign "end of line") ∧
    Expression.Expression "" = .error (.UnexpectedSign "end of line") ∧
    Expression.Expression ")(" = .error (.UnexpectedSign ")") := by
  refine ⟨?_, ?_, rfl, rfl, rfl, rfl, rfl, rfl⟩
  · unfold Expression.Expression
    cases hs : Expression.Expression.scan
        { nodes := [], symbols := [], expect_var := true, bracket_counter := 0 } string.data with
    | error e =>
      rcases scan_error hs with ⟨what, rfl⟩ | rfl
      · exact Or.inl ⟨what, rfl⟩
      · exact Or.inr rfl
    | ok st => exact Or.inl ⟨_, close_violated (scan_violated hv hs)⟩
  · intro hc
    unfold Expression.Expression
    rcases scan_balanced hc balanced_initial with ⟨st, hs, -⟩ | ⟨what, hs⟩
    · rw [hs]
      exact ⟨_, close_violated (scan_violated hv hs)⟩
    · rw [hs]
      exact ⟨what, rfl⟩

/-- The rule of section 4.1 at the input `a b`. -/
theorem syntax_error_on_violation_witness :
    Validator.violated true 0 "a b".data = true ∧
    ∃ what, Expression.Expression "a b" = .error (.UnexpectedSign what) :=
  ⟨by decide, (syntax_error_on_violation "a b" (by decide)).2.1 (by decide)⟩

/-- C7, at the inputs `a & B` and `a&#bb`: both violate the rule of section 4.1 (`a & B` ends
while an operand is expected, `a&#bb` holds the variable `b` while no operand is expected), and
for neither does the constructor throw the syntax exception. The character outside the grammar
alphabet has priority 1 against every symbol, so the pending `&` is reduced with one node on the
stack and `ParseNode` reads the top of an empty stack. After `a &` the state holds one node and
the symbol `&`, and the step at `B` or `#` is that read. -/
theorem violation_reads_empty_stack :
    Validator.violated true 0 "a & B".data = true ∧
    Expression.Expression "a & B" = .error .UndefinedBehaviour ∧
    Validator.violated true 0 "a&#bb".data = true ∧
    Expression.Expression "a&#bb" = .error .UndefinedBehaviour ∧
    Expression.Expression.scan
        { nodes := [], symbols := [], expect_var := true, bracket_counter := 0 } "a&".data
      = .ok { nodes := [.VariableNode 'a'], symbols := [kAnd], expect_var := true,
              bracket_counter := 0 } ∧
    Expression.Expression.step
        { nodes := [.VariableNode 'a'], symbols := [kAnd], expect_var := true,
          bracket_counter := 0 } 'B'
      = .error .UndefinedBehaviour ∧
    Expression.Expression.step
        { nodes := [.VariableNode 'a'], symbols := [kAnd], expect_var := true,
          bracket_counter := 0 } '#'
      = .error .UndefinedBehaviour :=
  ⟨by decide, rfl, by decide, rfl, rfl, rfl, rfl⟩

/-- C8, at the input `a) & (b`: the first `)` has no `(` before it and takes the bracket counter
to -1, the counter is back at 0 at the end of the input and the flag is never violated; the
input is accepted and parsed to the same tree as `a & b`. -/
theorem unmatched_right_bracket_accepted :
    Expression.Expression "a) & (b"
      = .ok (.OperationNode .And [.VariableNode 'b', .VariableNode 'a']) ∧
    Expression.Expression.scan
        { nodes := [], symbols := [], expect_var := true, bracket_counter := 0 } "a)".data
      = .ok { nodes := [.VariableNode 'a'], symbols := [kRightBracket], expect_var := false,
              bracket_counter := -1 } :=
  ⟨rfl, rfl⟩

/-- C9: when `p` is a string over the grammar alphabet and the parser accepts `p ++ "~~" ++ s`,
it accepts `p ++ s` as well and returns the same tree (whatever the characters of `s`). In
particular `~~a` and `a` both parse to the bare variable `a`, so they evaluate identically
under every assignment. -/
theorem double_negation_cancels (p s : String) (hp : ∀ c ∈ p.data, grammarChar c)
    (expression_ : Node)
    (h : Expression.Expression (p ++ "~~" ++ s) = .ok expression_) :
    Expression.Expression (p ++ s) = .ok expression_ ∧
    Expression.Expression "~~a" = .ok (.VariableNode 'a') ∧
    Expression.Expression "a" = .ok (.VariableNode 'a') := by
  refine ⟨?_, rfl, rfl⟩
  have hd : (p ++ "~~" ++ s).data = p.data ++ (kNeg :: kNeg :: s.data) := by
    simp [String.data_append]
  unfold Expression.Expression at h ⊢
  rw [hd, scan_append] at h
  rw [String.data_append, scan_append]
  rcases scan_balanced hp balanced_initial with ⟨st, hs, hb⟩ | ⟨what, hs⟩
  · rw [hs] at h ⊢
    simp only at h ⊢
    cases he : st.expect_var with
    | false => rw [scan_neg_error he] at h; simp at h
    | true => rw [scan_neg_neg hb he] at h; exact h
  · rw [hs] at h
    simp at h

/-- C9 at `p = "b & "` and `s = "a"`. -/
theorem double_negation_cancels_witness :
    (∀ c ∈ "b & ".data, grammarChar c) ∧
    Expression.Expression ("b & " ++ "~~" ++ "a")
      = .ok (.OperationNode .And [.VariableNode 'a', .VariableNode 'b']) ∧
    Expression.Expression ("b & " ++ "a")
      = .ok (.OperationNode .And [.VariableNode 'a', .VariableNode 'b']) :=
  ⟨by decide, rfl,
    (double_negation_cancels "b & " "a" (by decide)
      (.OperationNode .And [.VariableNode 'a', .VariableNode 'b']) rfl).1⟩

/-- C10: for every binary connective `op` and every `n >= 2` variables, the chain
`v1 op v2 op ... op vn` parses to a single operation node with connective `op` whose children
are exactly the `n` variable leaves in the order `[vn, ..., v1]`. In particular `a & b & c`
parses to one 3-ary AND node. -/
theorem chain_parses_flat (op : Symbol) (strategy : Strategy)
    (hop : Expression.ParseNode.strategy op = some strategy) (variables_ : List Char)
    (hv : ∀ v ∈ variables_, 'a' ≤ v ∧ v ≤ 'z') (hn : 2 ≤ variables_.length) :
    Expression.Expression (String.mk (chain op variables_))
      = .ok (.OperationNode strategy (variables_.reverse.map .VariableNode)) ∧
    Expression.Expression "a & b & c"
      = .ok (.OperationNode .And [.VariableNode 'c', .VariableNode 'b', .VariableNode 'a']) := by
  refine ⟨?_, rfl⟩
  match variables_, hv, hn with
  | v :: w :: rest, hv, _ =>
    have ho : (Expression.ParseNode.strategy op).isSome := by rw [hop]; rfl
    unfold Expression.Expression
    simp only [chain, chainRest]
    rw [scan_variable (hv v (by simp)), scan_space,
      scan_cons_ok (step_binary_empty ho _ _), scan_space, scan_variable (hv w (by simp))]
    have h := scan_chainRest hop rest (fun x hx => hv x (by simp [hx])) w [v] (by simp)
    rw [show chainNode strategy [v] = .VariableNode v from rfl] at h
    rw [h, chainNode_of_two_le strategy _ (by simp)]
    simp

/-- C10 at the chain `a V b V c V d`. -/
theorem chain_parses_flat_witness :
    Expression.ParseNode.strategy kOr = some .Or ∧
    (∀ v ∈ ['a', 'b', 'c', 'd'], 'a' ≤ v ∧ v ≤ 'z') ∧
    2 ≤ ['a', 'b', 'c', 'd'].length ∧
    Expression.Expression "a V b V c V d"
      = .ok (.OperationNode .Or
          [.VariableNode 'd', .VariableNode 'c', .VariableNode 'b', .VariableNode 'a']) :=
  ⟨rfl, by decide, by decide,
    (chain_parses_flat kOr .Or rfl ['a', 'b', 'c', 'd'] (by decide) (by decide)).1⟩

/-- C14: for every input made only of grammar characters on which no syntax exception is
thrown, the run never reads an empty stack (it ends without `UndefinedBehaviour`): the scan of
the input succeeds, the final reductions leave exactly one node on the operand stack, and that
node is the tree of the expression. -/
theorem accepted_input_leaves_one_node (string : String)
    (hg : ∀ c ∈ string.data, grammarChar c)
    (hv : ∀ what, Expression.Expression string ≠ .error (.UnexpectedSign what)) :
    ∃ st tree,
      Expression.Expression.scan
        { nodes := [], symbols := [], expect_var := true, bracket_counter := 0 } string.data
        = .ok st ∧
      Expression.Expression.finish st.nodes st.symbols = .ok [tree] ∧
      Expression.Expression string = .ok tree := by
  unfold Expression.Expression at hv ⊢
  rcases scan_balanced hg balanced_initial with ⟨st, hs, hb⟩ | ⟨what, hs⟩
  · rw [hs] at hv ⊢
    simp only at hv ⊢
    by_cases he : st.expect_var = true ∨ st.bracket_counter ≠ 0
    · exact absurd (close_violated he) (hv _)
    · have hev : st.expect_var = false := by
        cases h : st.expect_var
        · rfl
        · exact absurd (Or.inl h) he
      obtain ⟨tree, hf⟩ := @finish_balanced st.nodes st.symbols (by
        have := hb.2.2
        rw [hev] at this
        simpa using this)
      refine ⟨st, tree, rfl, hf, ?_⟩
      unfold Expression.Expression.close
      rw [if_neg he, hf]
  · rw [hs] at hv
    exact absurd rfl (hv what)

/-- C14 at the input `~(a V b) & c`. -/
theorem accepted_input_leaves_one_node_witness :
    (∀ c ∈ "~(a V b) & c".data, grammarChar c) ∧
    ∃ st tree,
      Expression.Expression.scan
        { nodes := [], symbols := [], expect_var := true, bracket_counter := 0 }
        "~(a V b) & c".data = .ok st ∧
      Expression.Expression.finish st.nodes st.symbols = .ok [tree] ∧
      Expression.Expression "~(a V b) & c" = .ok tree :=
  ⟨by decide, accepted_input_leaves_one_node "~(a V b) & c" (by decide) (by
    intro what h
    have h' : Expression.Expression "~(a V b) & c"
        = .ok (.OperationNode .And [.VariableNode 'c',
            .NegNode (.OperationNode .Or [.VariableNode 'b', .VariableNode 'a'])]) := rfl
    rw [h'] at h
    cases h)⟩

/-- C15: when the operand under the top is an operation node `L` of the connective `op` (with
its two or more children), `ParseNode` prepends the right operand `r` to the children of `L`.
The flattened node evaluates exactly as the binary node with children `[r, L]` does, under every
map and input stream, and its value is `f(eval r, eval L)`. The trees of `a & b & c` and
`(a & (b & c))` have the same truth table. -/
theorem flattening_preserves_value (op : Symbol) (strategy : Strategy)
    (hop : Expression.ParseNode.strategy op = some strategy) (children_ : List Node)
    (hc : 2 ≤ children_.length) (r : Node) (nodes : List Node) (symbols : List Symbol) :
    Expression.ParseNode (r :: .OperationNode strategy children_ :: nodes) (op :: symbols)
      = .ok (.OperationNode strategy (r :: children_) :: nodes, symbols) ∧
    (∀ vars input, (Node.OperationNode strategy (r :: children_)).Calculate vars input
      = (Node.OperationNode strategy [r, .OperationNode strategy children_]).Calculate
          vars input) ∧
    (∀ vars input vL vars1 input1 vr vars2 input2,
      (Node.OperationNode strategy children_).Calculate vars input = .ok (vL, vars1, input1) →
      r.Calculate vars1 input1 = .ok (vr, vars2, input2) →
      (Node.OperationNode strategy (r :: children_)).Calculate vars input
        = .ok (strategy.Calculate vr vL, vars2, input2)) ∧
    Expression.Expression "a & b & c"
      = .ok (.OperationNode .And [.VariableNode 'c', .VariableNode 'b', .VariableNode 'a']) ∧
    Expression.Expression "(a & (b & c))"
      = .ok (.OperationNode .And
          [.OperationNode .And [.VariableNode 'c', .VariableNode 'b'], .VariableNode 'a']) ∧
    (∀ cin, Expression.GenerateTruthTable
        (.OperationNode .And [.VariableNode 'c', .VariableNode 'b', .VariableNode 'a']) cin
      = Expression.GenerateTruthTable (.OperationNode .And
          [.OperationNode .And [.VariableNode 'c', .VariableNode 'b'], .VariableNode 'a'])
          cin) := by
  have hflat : ∀ vars input, (Node.OperationNode strategy (r :: children_)).Calculate vars input
      = (Node.OperationNode strategy [r, .OperationNode strategy children_]).Calculate
          vars input := by
    intro vars input
    match children_, hc with
    | c1 :: c2 :: rest, _ =>
      have h2 : ¬ rest.length + 1 + 1 < 2 := by omega
      have h3 : ¬ rest.length + 1 + 1 + 1 < 2 := by omega
      simp [Node.Calculate, Node.CalculateChildren, h2, h3]
  refine ⟨ParseNode_flatten r children_ nodes symbols hop, hflat, ?_, rfl, rfl, fun _ => rfl⟩
  intro vars input vL vars1 input1 vr vars2 input2 hL hr
  rw [hflat]
  have h2 : ¬ children_.length < 2 := by omega
  simp only [Node.Calculate, if_neg h2] at hL
  simp [Node.Calculate, Node.CalculateChildren, h2, hL, hr]

/-- C15 at the node of `b & a` and the right operand `c`. -/
theorem flattening_preserves_value_witness :
    Expression.ParseNode.strategy kAnd = some .And ∧
    Expression.ParseNode
        [.VariableNode 'c', .OperationNode .And [.VariableNode 'b', .VariableNode 'a']] [kAnd]
      = .ok ([.OperationNode .And [.VariableNode 'c', .VariableNode 'b', .VariableNode 'a']],
          []) :=
  ⟨rfl, (flattening_preserves_value kAnd .And rfl [.VariableNode 'b', .VariableNode 'a']
    (by decide) (.VariableNode 'c') [] []).1⟩

/-- C20: a character outside the grammar alphabet is not rejected: when the parser accepts `s`
and `c` is not a space, `0`, `1`, a letter `a` .. `z` or one of the operator and bracket
symbols, it accepts `s` followed by `c` and returns the same tree. For example `a#` parses to
the bare variable `a`. -/
theorem foreign_character_accepted (s : String) (c : Char) (expression_ : Node)
    (hc : ¬ grammarChar c) (h : Expression.Expression s = .ok expression_) :
    Expression.Expression (s.push c) = .ok expression_ ∧
    Expression.Expression "a#" = .ok (.VariableNode 'a') := by
  refine ⟨?_, rfl⟩
  have hop : c ∉ operatorSymbols := fun h => hc (Or.inr (Or.inr (Or.inr (Or.inr h))))
  unfold Expression.Expression at h ⊢
  rw [String.data_push, scan_append]
  cases hs : Expression.Expression.scan
      { nodes := [], symbols := [], expect_var := true, bracket_counter := 0 } s.data with
  | error e => rw [hs] at h; simp at h
  | ok st =>
    rw [hs] at h
    simp only at h ⊢
    unfold Expression.Expression.close at h
    split_ifs at h with he
    simp only [Expression.Expression.scan]
    rw [step_foreign hc]
    cases hf : Expression.Expression.finish st.nodes st.symbols with
    | error e => rw [hf] at h; simp at h
    | ok nodes =>
      rw [hf] at h
      simp only
      unfold Expression.Expression.close
      rw [if_neg he, finish_cons_ok (ParseNode_foreign hop nodes [])]
      exact h

/-- C20 at the string `a & b` and the character `#`. -/
theorem foreign_character_accepted_witness :
    ¬ grammarChar '#' ∧
    Expression.Expression "a & b"
      = .ok (.OperationNode .And [.VariableNode 'b', .VariableNode 'a']) ∧
    Expression.Expression "a & b#"
      = .ok (.OperationNode .And [.VariableNode 'b', .VariableNode 'a']) :=
  ⟨by decide, rfl, (foreign_character_accepted "a & b" '#'
    (.OperationNode .And [.VariableNode 'b', .VariableNode 'a']) (by decide) rfl).1⟩

/-- C12, as stated, at the formula `a & b`: the tree has the stored children `[b, a]` and
`String()` renders it as `(a & b)`, not as `(b & a)`. -/
theorem String_stored_order_counterexample :
    Expression.Expression "a & b"
      = .ok (.OperationNode .And [.VariableNode 'b', .VariableNode 'a']) ∧
    (Node.OperationNode .And [.VariableNode 'b', .VariableNode 'a']).String
      = .ok "(a & b)".data ∧
    (Node.OperationNode .And [.VariableNode 'b', .VariableNode 'a']).String
      ≠ .ok "(b & a)".data :=
  ⟨rfl, rfl, fun h => absurd (Except.ok.inj h) (by decide)⟩

/-- C12, amended: `String()` of an operation node with the stored children
`[child0, ..., childN]` renders `(childN SYM ... SYM child1 SYM child0)`, the stored children
from the last to the first, so a parsed chain is rendered in its left-to-right input order:
`a & b & c` as `(a & b & c)` and `a & b` as `(a & b)`. -/
theorem String_reverse_stored_order (strategy_ : Strategy) (children_ : List Node)
    (texts : List (List Char)) (hne : children_ ≠ [])
    (h : List.Forall₂ (fun child text => child.String = .ok text) children_ texts) :
    (Node.OperationNode strategy_ children_).String
      = .ok ('(' :: joinWith [' ', strategy_.DisplaySign, ' '] texts.reverse ++ [')']) ∧
    Expression.Expression "a & b & c"
      = .ok (.OperationNode .And [.VariableNode 'c', .VariableNode 'b', .VariableNode 'a']) ∧
    (Node.OperationNode .And [.VariableNode 'c', .VariableNode 'b', .VariableNode 'a']).String
      = .ok "(a & b & c)".data ∧
    Expression.Expression "a & b"
      = .ok (.OperationNode .And [.VariableNode 'b', .VariableNode 'a']) ∧
    (Node.OperationNode .And [.VariableNode 'b', .VariableNode 'a']).String
      = .ok "(a & b)".data := by
  refine ⟨?_, rfl, rfl, rfl, rfl⟩
  rw [Node.String, StringChildren_eq strategy_.DisplaySign h hne]
  simp only
  have hlen : ('(' :: (joinWith [' ', strategy_.DisplaySign, ' '] texts.reverse
      ++ [' ', strategy_.DisplaySign, ' '])).length
      = ('(' :: joinWith [' ', strategy_.DisplaySign, ' '] texts.reverse).length + 3 := by
    simp
  rw [hlen, if_neg (by omega), Nat.add_sub_cancel, ← List.cons_append, List.take_left]

/-- C12, amended, at the children `[b, a]` of the conjunction. -/
theorem String_reverse_stored_order_witness :
    [Node.VariableNode 'b', Node.VariableNode 'a'] ≠ [] ∧
    (Node.OperationNode .And [.VariableNode 'b', .VariableNode 'a']).String
      = .ok ('(' :: joinWith [' ', kAnd, ' '] [['a'], ['b']] ++ [')']) :=
  ⟨by simp, (String_reverse_stored_order .And [.VariableNode 'b', .VariableNode 'a']
    [['b'], ['a']] (by simp)
    (List.Forall₂.cons rfl (List.Forall₂.cons rfl List.Forall₂.nil))).1⟩

/-- C17: for a parsed formula with at least one variable, `CNF()` returns the constant `true`
when the table has no false row and otherwise the conjunction of one clause per false row; the
clause of row `i` holds the variable with index `j` negated exactly when bit `j` of `i` is set, so
at the assignment of row `j` it evaluates to false exactly when `j = i`; and under every map that
binds all variables of the formula the returned tree and the formula evaluate to the same
boolean. -/
theorem CNF_evaluates_as_formula (string : String) (expression_ : Node)
    (h : Expression.Expression string = .ok expression_)
    (hv : Expression.GenerateVariables expression_ ≠ []) (cin : List Bool) :
    ∃ cnf, Expression.CNF expression_ cin = .ok cnf ∧
      cnf = (if Expression.rowsWith false expression_ = [] then Node.ConstNode true
        else aggregate .And ((Expression.rowsWith false expression_).reverse.map
          (fun r => aggregate .Or
            (Expression.literals r (Expression.GenerateVariables expression_) 0 [])))) ∧
      (∀ r, r ∈ Expression.rowsWith false expression_
        ↔ r < 2 ^ (Expression.GenerateVariables expression_).length
          ∧ expression_.value (Expression.row (Expression.GenerateVariables expression_) r)
              = false) ∧
      (∀ i, Expression.literals i (Expression.GenerateVariables expression_) 0 []
        = ((Expression.GenerateVariables expression_).enum.map (fun entry =>
            if i.testBit entry.1 = true then Node.NegNode (.VariableNode entry.2)
            else .VariableNode entry.2)).reverse) ∧
      (∀ i j, i < 2 ^ (Expression.GenerateVariables expression_).length →
        j < 2 ^ (Expression.GenerateVariables expression_).length → ∀ input,
        (aggregate .Or
            (Expression.literals i (Expression.GenerateVariables expression_) 0 [])).Calculate
          (Expression.row (Expression.GenerateVariables expression_) j) input
          = .ok (decide (i ≠ j), Expression.row (Expression.GenerateVariables expression_) j,
              input)) ∧
      ∀ vars : Vars, (∀ c ∈ Expression.GenerateVariables expression_, mapFind vars c ≠ none) →
        ∀ input, ∃ b, cnf.Calculate vars input = .ok (b, vars, input) ∧
          expression_.Calculate vars input = .ok (b, vars, input) := by
  have hw := Expression_wellFormed h
  refine ⟨_, CNF_eq expression_ hw hv cin, rfl, mem_rowsWith false expression_, ?_, ?_, ?_⟩
  · intro i
    rw [literals_eq, List.append_nil, List.enum]
  · intro i j hi hj input
    rw [literals_Calculate .Or hv, clause_value _ hv hi,
      code_row _ (GenerateVariables_sorted expression_), Nat.mod_eq_of_lt hj]
  · intro vars hb input
    have hbe : ∀ c ∈ expression_.leaves, mapFind vars c ≠ none := fun c hc =>
      hb c ((mem_GenerateVariables expression_ c).2 hc)
    refine ⟨expression_.value vars, ?_, Node.Calculate_of_bound expression_ vars input hw hbe⟩
    rw [Node.Calculate_of_bound _ vars input
      (canonical_wellFormed .Or .And (.ConstNode true) rfl _ hv)
      (fun c hc => hb c ((canonical_leaves .Or .And (.ConstNode true) rfl _ hv c).1 hc)),
      CNF_tree_value expression_ vars hv, ← value_eq_row expression_ vars hbe]

/-- C17 at the formula `a`. -/
theorem CNF_evaluates_as_formula_witness :
    Expression.Expression "a" = .ok (.VariableNode 'a') ∧
    Expression.GenerateVariables (.VariableNode 'a') ≠ [] ∧
    ∃ cnf, Expression.CNF (.VariableNode 'a') [] = .ok cnf ∧
      ∀ vars : Vars, (∀ c ∈ Expression.GenerateVariables (.VariableNode 'a'),
          mapFind vars c ≠ none) →
        ∀ input, ∃ b, cnf.Calculate vars input = .ok (b, vars, input) ∧
          (Node.VariableNode 'a').Calculate vars input = .ok (b, vars, input) :=
  ⟨rfl, by decide, by
    obtain ⟨cnf, h1, -, -, -, -, h2⟩ :=
      CNF_evaluates_as_formula "a" (.VariableNode 'a') rfl (by decide) []
    exact ⟨cnf, h1, h2⟩⟩

/-- C18: for a parsed formula with at least one variable, `DNF()` returns the constant `false`
when the table has no true row and otherwise the disjunction of one minterm per true row; the
minterm of row `i` holds the variable with index `j` negated exactly when bit `j` of `i` is set,
so at the assignment of row `j` it evaluates to true exactly when `j` is the bitwise complement of
`i`; and under every map `vars` that binds all variables of the formula the returned tree
evaluates to the boolean the formula has under the complemented map. -/
theorem DNF_evaluates_at_complement (string : String) (expression_ : Node)
    (h : Expression.Expression string = .ok expression_)
    (hv : Expression.GenerateVariables expression_ ≠ []) (cin : List Bool) :
    ∃ dnf, Expression.DNF expression_ cin = .ok dnf ∧
      dnf = (if Expression.rowsWith true expression_ = [] then Node.ConstNode false
        else aggregate .Or ((Expression.rowsWith true expression_).reverse.map
          (fun r => aggregate .And
            (Expression.literals r (Expression.GenerateVariables expression_) 0 [])))) ∧
      (∀ r, r ∈ Expression.rowsWith true expression_
        ↔ r < 2 ^ (Expression.GenerateVariables expression_).length
          ∧ expression_.value (Expression.row (Expression.GenerateVariables expression_) r)
              = true) ∧
      (∀ i, Expression.literals i (Expression.GenerateVariables expression_) 0 []
        = ((Expression.GenerateVariables expression_).enum.map (fun entry =>
            if i.testBit entry.1 = true then Node.NegNode (.VariableNode entry.2)
            else .VariableNode entry.2)).reverse) ∧
      (∀ i j, i < 2 ^ (Expression.GenerateVariables expression_).length →
        j < 2 ^ (Expression.GenerateVariables expression_).length → ∀ input,
        (aggregate .And
            (Expression.literals i (Expression.GenerateVariables expression_) 0 [])).Calculate
          (Expression.row (Expression.GenerateVariables expression_) j) input
          = .ok (decide (i + j + 1 = 2 ^ (Expression.GenerateVariables expression_).length),
              Expression.row (Expression.GenerateVariables expression_) j, input)) ∧
      ∀ vars : Vars, (∀ c ∈ Expression.GenerateVariables expression_, mapFind vars c ≠ none) →
        (∀ c, mapFind (complement vars) c = (mapFind vars c).map (fun b => !b)) ∧
        ∀ input, ∃ b, dnf.Calculate vars input = .ok (b, vars, input) ∧
          expression_.Calculate (complement vars) input = .ok (b, complement vars, input) := by
  have hw := Expression_wellFormed h
  refine ⟨_, DNF_eq expression_ hw hv cin, rfl, mem_rowsWith true expression_, ?_, ?_, ?_⟩
  · intro i
    rw [literals_eq, List.append_nil, List.enum]
  · intro i j hi hj input
    rw [literals_Calculate .And hv, minterm_value _ hv hi]
    have h1 := code_add (Expression.GenerateVariables expression_)
      (Expression.row (Expression.GenerateVariables expression_) j)
    rw [code_row _ (GenerateVariables_sorted expression_), Nat.mod_eq_of_lt hj] at h1
    have : (i = Expression.code true (Expression.GenerateVariables expression_)
        (Expression.row (Expression.GenerateVariables expression_) j))
        ↔ i + j + 1 = 2 ^ (Expression.GenerateVariables expression_).length := by omega
    simp only [this]
  · intro vars hb
    refine ⟨mapFind_complement vars, ?_⟩
    intro input
    have hbe : ∀ c ∈ expression_.leaves, mapFind (complement vars) c ≠ none := by
      intro c hc
      rw [mapFind_complement]
      cases hm : mapFind vars c with
      | none => exact absurd hm (hb c ((mem_GenerateVariables expression_ c).2 hc))
      | some b => simp
    refine ⟨expression_.value (complement vars), ?_,
      Node.Calculate_of_bound expression_ (complement vars) input hw hbe⟩
    rw [Node.Calculate_of_bound _ vars input
      (canonical_wellFormed .And .Or (.ConstNode false) rfl _ hv)
      (fun c hc => hb c ((canonical_leaves .And .Or (.ConstNode false) rfl _ hv c).1 hc)),
      DNF_tree_value expression_ vars hv, value_eq_row expression_ (complement vars) hbe,
      code_complement _ vars hb]

/-- C18 at the formula `a`. -/
theorem DNF_evaluates_at_complement_witness :
    Expression.Expression "a" = .ok (.VariableNode 'a') ∧
    Expression.GenerateVariables (.VariableNode 'a') ≠ [] ∧
    ∃ dnf, Expression.DNF (.VariableNode 'a') [] = .ok dnf ∧
      ∀ vars : Vars, (∀ c ∈ Expression.GenerateVariables (.VariableNode 'a'),
          mapFind vars c ≠ none) →
        ∀ input, ∃ b, dnf.Calculate vars input = .ok (b, vars, input) ∧
          (Node.VariableNode 'a').Calculate (complement vars) input
            = .ok (b, complement vars, input) :=
  ⟨rfl, by decide, by
    obtain ⟨dnf, h1, -, -, -, -, h2⟩ :=
      DNF_evaluates_at_complement "a" (.VariableNode 'a') rfl (by decide) []
    exact ⟨dnf, h1, fun vars hb => (h2 vars hb).2⟩⟩

/-- C19: for a parsed formula whose truth-table entry 0 is true, `Zhegalkin()` returns a tree
that evaluates to the same boolean as the formula under every map that binds all variables of
the formula. In the loop, a true coefficient met while `sum` is empty adds the constant `true`
whatever its index, and the conjunction of the variables of mask `i` is empty, the constant true,
exactly when `i = 0`. -/
theorem Zhegalkin_correct_when_entry_zero_true (string : String) (expression_ : Node)
    (h : Expression.Expression string = .ok expression_) (cin : List Bool)
    (truth_table_ : List Bool)
    (hT : Expression.GenerateTruthTable expression_ cin = .ok truth_table_)
    (h0 : truth_table_[0]? = some true) :
    ∃ polynomial, Expression.Zhegalkin expression_ cin = .ok polynomial ∧
      (∀ vars : Vars, (∀ c ∈ Expression.GenerateVariables expression_, mapFind vars c ≠ none) →
        ∀ input, ∃ b, polynomial.Calculate vars input = .ok (b, vars, input) ∧
          expression_.Calculate vars input = .ok (b, vars, input)) ∧
      (∀ (zhegalkin_ : List Bool) (variables_ : List Char) (n i : Nat),
        zhegalkin_[i]? = some true →
        Expression.Zhegalkin.terms zhegalkin_ variables_ (n + 1) i []
          = Expression.Zhegalkin.terms zhegalkin_ variables_ n (i + 1)
              [some (.ConstNode true)]) ∧
      (∀ i, i < 2 ^ (Expression.GenerateVariables expression_).length →
        (Expression.Zhegalkin.conjunct i (Expression.GenerateVariables expression_) 0 [] = []
          ↔ i = 0)) := by
  have hw := Expression_wellFormed h
  have htab : truth_table_ = Expression.table expression_ := by
    rw [GenerateTruthTable_table expression_ hw cin] at hT
    injection hT with hT
    exact hT.symm
  have h0' : (Expression.table expression_).getD 0 false = true := by
    rw [← htab, List.getD_eq_getElem?_getD, h0]
    rfl
  obtain ⟨hs, hl⟩ := coefficient_indices expression_
  refine ⟨_, Zhegalkin_eq expression_ hw cin, ?_, ?_,
    fun i hi => conjunct_eq_nil_iff _ hi⟩
  · intro vars hb input
    have hbe : ∀ c ∈ expression_.leaves, mapFind vars c ≠ none := fun c hc =>
      hb c ((mem_GenerateVariables expression_ c).2 hc)
    refine ⟨expression_.value vars, ?_, Node.Calculate_of_bound expression_ vars input hw hbe⟩
    rw [Node.Calculate_of_bound _ vars input (Zhegalkin_tree_wellFormed _ _ hs hl)
      (fun c hc => hb c (Zhegalkin_tree_leaves _ c _ hc)),
      Zhegalkin_tree_correct expression_ vars h0', ← value_eq_row expression_ vars hbe]
  · intro zhegalkin_ variables_ n i hi
    rw [Expression.Zhegalkin.terms]
    simp [Expression.read, hi]

/-- C19 at the formula `~a`, whose truth table is `[1, 0]`. -/
theorem Zhegalkin_correct_when_entry_zero_true_witness :
    Expression.Expression "~a" = .ok (.NegNode (.VariableNode 'a')) ∧
    Expression.GenerateTruthTable (.NegNode (.VariableNode 'a')) [] = .ok [true, false] ∧
    [true, false][0]? = some true ∧
    ∃ polynomial, Expression.Zhegalkin (.NegNode (.VariableNode 'a')) [] = .ok polynomial ∧
      ∀ vars : Vars, (∀ c ∈ Expression.GenerateVariables (.NegNode (.VariableNode 'a')),
          mapFind vars c ≠ none) →
        ∀ input, ∃ b, polynomial.Calculate vars input = .ok (b, vars, input) ∧
          (Node.NegNode (.VariableNode 'a')).Calculate vars input = .ok (b, vars, input) :=
  ⟨rfl, rfl, rfl, by
    obtain ⟨polynomial, h1, h2, -⟩ := Zhegalkin_correct_when_entry_zero_true "~a"
      (.NegNode (.VariableNode 'a')) rfl [] [true, false] rfl rfl
    exact ⟨polynomial, h1, h2⟩⟩

/-- C16: the tree of every accepted input satisfies the arity invariant, which asks at least two
children of every operation node and the invariant of every child, and for every tree with the
invariant `CNF()`, `DNF()` and `Zhegalkin()` return trees with the invariant;
`BuildOperationNode` returns the node itself for one node
and the null pointer for none, which the three methods replace by a constant (for a formula
without variables `CNF()` is the constant `true` and `DNF()` the constant `false`); and
`Calculate` on a tree with the invariant never raises the arity error, and returns the value of
the tree when the map binds all its variables; an operation node with fewer than two children
raises it. -/
theorem operation_nodes_have_two_children (string : String) (expression_ : Node)
    (h : Expression.Expression string = .ok expression_) (cin : List Bool) :
    expression_.wellFormed = true ∧
    (∀ tree : Node, tree.wellFormed = true → ∀ stream : List Bool,
      (∃ cnf, Expression.CNF tree stream = .ok cnf ∧ cnf.wellFormed = true) ∧
      (∃ dnf, Expression.DNF tree stream = .ok dnf ∧ dnf.wellFormed = true) ∧
      (∃ polynomial, Expression.Zhegalkin tree stream = .ok polynomial
        ∧ polynomial.wellFormed = true)) ∧
    (∀ strategy_ children_, (Node.OperationNode strategy_ children_).wellFormed = true ↔
      2 ≤ children_.length ∧ ∀ child ∈ children_, child.wellFormed = true) ∧
    (∀ child_, (Node.NegNode child_).wellFormed = child_.wellFormed) ∧
    (∀ node strategy, Expression.BuildOperationNode [node] strategy = .ok node) ∧
    (∀ strategy, Expression.BuildOperationNode [] strategy = .ok none) ∧
    (Expression.GenerateVariables expression_ = [] →
      Expression.CNF expression_ cin = .ok (.ConstNode true) ∧
      Expression.DNF expression_ cin = .ok (.ConstNode false)) ∧
    (∀ tree : Node, tree.wellFormed = true → ∀ vars input,
      tree.Calculate vars input ≠ .error .InvalidArgumentCount ∧
      ((∀ c ∈ tree.leaves, mapFind vars c ≠ none) →
        tree.Calculate vars input = .ok (tree.value vars, vars, input))) ∧
    (∀ strategy_ children_ vars input, children_.length < 2 →
      (Node.OperationNode strategy_ children_).Calculate vars input
        = .error .InvalidArgumentCount) := by
  have hw := Expression_wellFormed h
  refine ⟨hw, fun tree hwt stream => ⟨CNF_wellFormed tree hwt stream,
      DNF_wellFormed tree hwt stream, Zhegalkin_wellFormed tree hwt stream⟩,
    ?_, fun _ => by simp [Node.wellFormed],
    fun _ _ => rfl, fun _ => rfl,
    fun hv => ⟨CNF_of_no_variables expression_ hw hv cin,
      DNF_of_no_variables expression_ hw hv cin⟩,
    fun tree hwt vars input => ⟨Node.Calculate_ne_arity tree vars input hwt,
      Node.Calculate_of_bound tree vars input hwt⟩, ?_⟩
  · intro strategy_ children_
    simp only [Node.wellFormed, Bool.and_eq_true, decide_eq_true_eq,
      Node.wellFormedList_iff]
  · intro strategy_ children_ vars input hlen
    simp only [Node.Calculate, if_pos hlen]

/-- C16 at the formula `a & b`. -/
theorem operation_nodes_have_two_children_witness :
    Expression.Expression "a & b"
      = .ok (.OperationNode .And [.VariableNode 'b', .VariableNode 'a']) ∧
    (Node.OperationNode .And [.VariableNode 'b', .VariableNode 'a']).wellFormed = true ∧
    ∃ cnf, Expression.CNF (.OperationNode .And [.VariableNode 'b', .VariableNode 'a']) []
      = .ok cnf ∧ cnf.wellFormed = true :=
  ⟨rfl, (operation_nodes_have_two_children "a & b"
      (.OperationNode .And [.VariableNode 'b', .VariableNode 'a']) rfl []).1,
    ((operation_nodes_have_two_children "a & b"
      (.OperationNode .And [.VariableNode 'b', .VariableNode 'a']) rfl []).2.1
        (.OperationNode .And [.VariableNode 'b', .VariableNode 'a']) rfl []).1⟩

/-- C11, counterexample: `a V ~a` has two truth-table rows, both true; `CNF()` returns the
constant `true`, whose truth table has the single row `true`. -/
theorem CNF_of_tautology_counterexample :
    Expression.Expression "a V ~a"
      = .ok (.OperationNode .Or [.NegNode (.VariableNode 'a'), .VariableNode 'a']) ∧
    Expression.GenerateTruthTable
        (.OperationNode .Or [.NegNode (.VariableNode 'a'), .VariableNode 'a']) []
      = .ok [true, true] ∧
    Expression.CNF (.OperationNode .Or [.NegNode (.VariableNode 'a'), .VariableNode 'a']) []
      = .ok (.ConstNode true) ∧
    Expression.GenerateTruthTable (.ConstNode true) [] = .ok [true] ∧
    [true].length ≠ [true, true].length :=
  ⟨rfl, rfl, rfl, rfl, by decide⟩

/-- C11, amended: for a parsed formula with truth table `T`: when the formula has at least one
variable and `T` has a false entry, `CNF()` returns a tree with the variables of the formula
whose truth table is `T`; when `T` has no false entry, `CNF()` returns the constant `true`, whose
truth table is the single entry `true`; that table is `T` when the formula has no variables,
while `T` has two or more entries when the formula has a variable. -/
theorem CNF_truth_table (string : String) (expression_ : Node)
    (h : Expression.Expression string = .ok expression_) (cin : List Bool)
    (truth_table_ : List Bool)
    (hT : Expression.GenerateTruthTable expression_ cin = .ok truth_table_) :
    truth_table_.length = 2 ^ (Expression.GenerateVariables expression_).length ∧
    (Expression.GenerateVariables expression_ ≠ [] → false ∈ truth_table_ →
      ∃ cnf, Expression.CNF expression_ cin = .ok cnf ∧
        Expression.GenerateVariables cnf = Expression.GenerateVariables expression_ ∧
        ∀ cin', Expression.GenerateTruthTable cnf cin' = .ok truth_table_) ∧
    (false ∉ truth_table_ →
      Expression.CNF expression_ cin = .ok (.ConstNode true) ∧
      (∀ cin', Expression.GenerateTruthTable (.ConstNode true) cin' = .ok [true]) ∧
      (Expression.GenerateVariables expression_ = [] → truth_table_ = [true] ∧
        ∀ cin', Expression.GenerateTruthTable (.ConstNode true) cin' = .ok truth_table_) ∧
      (Expression.GenerateVariables expression_ ≠ [] → 2 ≤ truth_table_.length)) := by
  have hw := Expression_wellFormed h
  have htab : truth_table_ = Expression.table expression_ := by
    rw [GenerateTruthTable_table expression_ hw cin] at hT
    injection hT with hT
    exact hT.symm
  subst htab
  refine ⟨table_length expression_, ?_, ?_⟩
  · intro hv hf
    have hne : Expression.rowsWith false expression_ ≠ [] := fun h0 =>
      (rowsWith_eq_nil_iff false expression_).1 h0 hf
    refine ⟨_, CNF_eq expression_ hw hv cin, CNF_tree_variables expression_ hv hne, ?_⟩
    intro cin'
    rw [GenerateTruthTable_table _ (canonical_wellFormed .Or .And (.ConstNode true) rfl _ hv),
      CNF_tree_table expression_ hv hne]
  · intro hf
    have hnil := (rowsWith_eq_nil_iff false expression_).2 hf
    refine ⟨?_, fun _ => rfl, ?_, ?_⟩
    · by_cases hv : Expression.GenerateVariables expression_ = []
      · exact CNF_of_no_variables expression_ hw hv cin
      · rw [CNF_eq expression_ hw hv cin, if_pos hnil]
    · intro hv
      have hone : Expression.table expression_ = [true] := by
        rw [table_of_no_variables expression_ hv] at hf ⊢
        cases hval : expression_.value [] with
        | true => rfl
        | false => rw [hval] at hf; exact absurd (List.mem_singleton.2 rfl) hf
      exact ⟨hone, fun _ => by rw [hone]; rfl⟩
    · intro hv
      rw [table_length]
      obtain ⟨v, rest, hvs⟩ := List.exists_cons_of_ne_nil hv
      rw [hvs, List.length_cons, Nat.pow_succ]
      have := Nat.two_pow_pos rest.length
      omega

/-- C11, amended, at the formula `a`, whose truth table is `[0, 1]`. -/
theorem CNF_truth_table_witness :
    Expression.Expression "a" = .ok (.VariableNode 'a') ∧
    Expression.GenerateVariables (.VariableNode 'a') ≠ [] ∧
    Expression.GenerateTruthTable (.VariableNode 'a') [] = .ok [false, true] ∧
    false ∈ [false, true] ∧
    ∃ cnf, Expression.CNF (.VariableNode 'a') [] = .ok cnf ∧
      Expression.GenerateTruthTable cnf [] = .ok [false, true] :=
  ⟨rfl, by decide, rfl, by decide, by
    obtain ⟨cnf, h1, -, h2⟩ := (CNF_truth_table "a" (.VariableNode 'a') rfl []
      [false, true] rfl).2.1 (by decide) (by decide)
    exact ⟨cnf, h1, h2 []⟩⟩

end boolcalc
